import Mathlib

/-!
# Verification of `queue.c` (lab0-c)

A shallow embedding of the linked queue of `src/queue.c`.

* A pointer is an `Option Nat`: `none` is `NULL`, `some a` is the address `a`.
* The heap of list elements is a function from addresses to cells; a cell that
  holds `none` is not allocated (never allocated, or freed).
* A `char *` that is not `NULL` is the list of bytes stored from the pointer
  on; a string ends at its first zero byte (or at the end of the list).
* Every operation returns an `Option`; `none` stands for undefined behaviour
  (a read or write through `NULL` or a dangling pointer, a write past the
  end of a buffer) or for a loop that used up its fuel.
* `malloc` is an input of the operation that calls it: `none` when the
  allocation fails, otherwise the address handed out (for a list element) or
  the bytes the fresh block happens to hold (for a character array).
* In the insertions `int s_len = strlen(s)` is the length narrowed to 32 bits
  (`to_int`), the arguments of `malloc` and `strncpy` are that `int` converted
  to `size_t` (`to_size_t`), the store `c[s_len] = 0` is undefined for a
  negative index, and `q->size++` wraps around at `2^31` (two's complement,
  what the compiled code does).
* In `q_remove_head` `bufsize - 1` is computed in `size_t`, modulo `2^64`; the
  `int size` temporary and `q->size--` hold their mathematical value (the
  strings an insertion stores are shorter than `2^31` bytes, and `size` is not
  0 there).
-/

namespace Queue

/-! ## Strings and buffers -/

/-- The characters of the C string stored at the start of a byte list. -/
def cstr (s : List Nat) : List Nat := s.takeWhile (fun b => b != 0)

/-- C `strlen`. -/
def strlen (s : List Nat) : Nat := (cstr s).length

/-- C `strcmp`: the difference of the first pair of bytes that differ, the
end of a string counting as the byte zero. -/
def strcmp : List Nat → List Nat → Int
  | [], [] => 0
  | [], b :: _ => 0 - (b : Int)
  | a :: _, [] => (a : Int)
  | a :: as, b :: bs =>
    if a = b then (if a = 0 then 0 else strcmp as bs) else (a : Int) - (b : Int)

/-- C `memset(dst, c, n)`: undefined when `dst` has fewer than `n` bytes. -/
def memset (dst : List Nat) (c : Nat) (n : Nat) : Option (List Nat) :=
  if n ≤ dst.length then some (List.replicate n c ++ dst.drop n) else none

/-- C `strncpy(dst, src, n)`: writes exactly `n` bytes, the characters of
`src` (at most `n` of them) followed by zero padding; undefined when `dst` has
fewer than `n` bytes. -/
def strncpy (dst src : List Nat) (n : Nat) : Option (List Nat) :=
  if n ≤ dst.length then
    some ((cstr src).take n ++ List.replicate (n - strlen src) 0 ++ dst.drop n)
  else none

/-- The store `c[i] = b`. -/
def store_byte (c : List Nat) (i : Nat) (b : Nat) : Option (List Nat) :=
  if i < c.length then some (c.set i b) else none

/-- The block `malloc(n)` returns for a character array: `garbage` gives the
bytes the fresh block holds, `none` is a failed allocation. -/
def malloc_bytes (garbage : Option (Nat → Nat)) (n : Nat) : Option (List Nat) :=
  garbage.map (fun g => (List.range n).map g)

/-- Conversion to `int`: the value modulo `2^32`, in the range from `-2^31` to
`2^31 - 1`. It is also the result of an `int` addition that overflows. -/
def to_int (n : Int) : Int :=
  if 2 ^ 31 ≤ n % 2 ^ 32 then n % 2 ^ 32 - 2 ^ 32 else n % 2 ^ 32

/-- Conversion of an `int` to `size_t`: the value modulo `2^64`. -/
def to_size_t (i : Int) : Nat := (i % 2 ^ 64).toNat

/-! ## Data model -/

/-- The list element `list_ele_t`. -/
structure list_ele_t where
  value : Option (List Nat)
  next : Option Nat
deriving DecidableEq

/-- The queue structure `queue_t`. -/
structure queue_t where
  head : Option Nat
  tail : Option Nat
  size : Int
deriving DecidableEq

/-- The heap of list elements. -/
abbrev Heap := Nat → Option list_ele_t

/-- The read `p->next`. -/
def get_next (h : Heap) (p : Option Nat) : Option (Option Nat) :=
  match p with
  | none => none
  | some a => (h a).map (fun n => n.next)

/-- The read `p->value`. -/
def get_value (h : Heap) (p : Option Nat) : Option (Option (List Nat)) :=
  match p with
  | none => none
  | some a => (h a).map (fun n => n.value)

/-- The store `p->next = v`. -/
def set_next (h : Heap) (p : Option Nat) (v : Option Nat) : Option Heap :=
  match p with
  | none => none
  | some a =>
    match h a with
    | none => none
    | some n => some (Function.update h a (some { n with next := v }))

/-- The call `free(p)` on a list element that is allocated. -/
def free_ele (h : Heap) (a : Nat) : Heap := Function.update h a none

/-! ## Operations -/

/-- `q_new`: `ok` tells whether `malloc` succeeded. -/
def q_new (ok : Bool) : Option queue_t :=
  if ok then some { head := none, tail := none, size := 0 } else none

/-- `q_insert_head`: `newh` is the outcome of the first `malloc`, `garbage`
that of the second. The result is the return value, the heap and the queue.
`s_len` is the `int` the length is narrowed to; `s_len + 1` is an `int` sum,
converted to `size_t` for `malloc`, as `s_len` is for `strncpy`. -/
def q_insert_head (h : Heap) (q : Option queue_t) (s : Option (List Nat))
    (newh : Option Nat) (garbage : Option (Nat → Nat)) :
    Option (Bool × Heap × Option queue_t) :=
  match q, s with
  | none, _ => some (false, h, q)
  | some _, none => some (false, h, q)
  | some qv, some sv =>
    match newh with
    | none => some (false, h, q)
    | some na =>
      let s_len : Int := to_int (strlen sv)
      match malloc_bytes garbage (to_size_t (to_int (s_len + 1))) with
      | none => some (false, h, q)
      | some c0 =>
        match strncpy c0 sv (to_size_t s_len) with
        | none => none
        | some c1 =>
          if s_len < 0 then none else
          match store_byte c1 s_len.toNat 0 with
          | none => none
          | some c =>
            let h1 := Function.update h na (some { value := some c, next := qv.head })
            let q1 := { qv with head := some na }
            let q2 := if qv.size = 0 then { q1 with tail := some na } else q1
            some (true, h1, some { q2 with size := to_int (q2.size + 1) })

/-- `q_insert_tail`, with the same allocation inputs as `q_insert_head`. -/
def q_insert_tail (h : Heap) (q : Option queue_t) (s : Option (List Nat))
    (newh : Option Nat) (garbage : Option (Nat → Nat)) :
    Option (Bool × Heap × Option queue_t) :=
  match q, s with
  | none, _ => some (false, h, q)
  | some _, none => some (false, h, q)
  | some qv, some sv =>
    match newh with
    | none => some (false, h, q)
    | some na =>
      let s_len : Int := to_int (strlen sv)
      match malloc_bytes garbage (to_size_t (to_int (s_len + 1))) with
      | none => some (false, h, q)
      | some c0 =>
        match strncpy c0 sv (to_size_t s_len) with
        | none => none
        | some c1 =>
          if s_len < 0 then none else
          match store_byte c1 s_len.toNat 0 with
          | none => none
          | some c =>
            let h1 := Function.update h na (some { value := some c, next := none })
            if qv.size = 0 then
              some (true, h1,
                some { head := some na, tail := some na, size := to_int (qv.size + 1) })
            else
              match set_next h1 qv.tail (some na) with
              | none => none
              | some h2 =>
                some (true, h2, some { qv with tail := some na, size := to_int (qv.size + 1) })

/-- The value of `bufsize - 1` in `size_t` arithmetic. -/
def size_t_pred (bufsize : Nat) : Nat := (bufsize + (2 ^ 64 - 1)) % 2 ^ 64

/-- `q_remove_head`: `sp` is the caller's buffer (`none` for `NULL`), all the
bytes that really lie behind the pointer. The result is the return value, the
heap, the queue and the buffer. -/
def q_remove_head (h : Heap) (q : Option queue_t) (sp : Option (List Nat))
    (bufsize : Nat) : Option (Bool × Heap × Option queue_t × Option (List Nat)) :=
  match q with
  | none => some (false, h, q, sp)
  | some qv =>
    if qv.size = 0 then some (false, h, q, sp) else
    match sp with
    | none => some (false, h, q, sp)
    | some buf =>
      match qv.head with
      | none => none
      | some item =>
        match h item with
        | none => none
        | some node =>
          let q1 := { qv with head := node.next }
          match node.value with
          | some v =>
            let size := if strlen v > bufsize then size_t_pred bufsize else strlen v
            match memset buf 0 bufsize with
            | none => none
            | some b1 =>
              match strncpy b1 v size with
              | none => none
              | some b2 =>
                some (true, free_ele h item, some { q1 with size := q1.size - 1 }, some b2)
          | none =>
            some (true, free_ele h item, some { q1 with size := q1.size - 1 }, some buf)

/-- `q_size`. -/
def q_size (q : Option queue_t) : Int :=
  match q with
  | none => 0
  | some qv => qv.size

/-- The loop of `q_reverse`; the state is the heap, `*head` (which is
`q->head`) and `cursor`. -/
def q_reverse_loop : Nat → Heap → Option Nat → Option Nat →
    Option (Heap × Option Nat × Option Nat)
  | _, h, none, cursor => some (h, none, cursor)
  | 0, _, some _, _ => none
  | fuel + 1, h, some p, cursor => do
    let next ← get_next h (some p)
    let h1 ← set_next h (some p) cursor
    q_reverse_loop fuel h1 next (some p)

/-- `q_reverse`. -/
def q_reverse (fuel : Nat) (h : Heap) (q : Option queue_t) :
    Option (Heap × Option queue_t) :=
  match q with
  | none => some (h, q)
  | some qv =>
    if qv.size = 0 then some (h, q) else do
      let (h1, _, cursor) ← q_reverse_loop fuel h qv.head none
      some (h1, some { head := cursor, tail := qv.head, size := qv.size })

/-- The loop of `find_mid_and_split`; the state is `slow` and `fast`, the
result is the final `slow`. -/
def find_mid_loop : Nat → Heap → Option Nat → Option Nat → Option (Option Nat)
  | _, _, slow, none => some slow
  | 0, _, _, some _ => none
  | fuel + 1, h, slow, some f => do
    let fast1 ← get_next h (some f)
    match fast1 with
    | none => find_mid_loop fuel h slow none
    | some f1 => do
      let slow1 ← get_next h slow
      let fast2 ← get_next h (some f1)
      find_mid_loop fuel h slow1 fast2

/-- `find_mid_and_split`: the result is the heap and, when they were written,
the values stored to `*start` and `*after_mid`. -/
def find_mid_and_split (fuel : Nat) (h : Heap) (q : Option Nat) :
    Option (Heap × Option (Option Nat × Option Nat)) :=
  match q with
  | none => some (h, none)
  | some qa => do
    let fast ← get_next h (some qa)
    let slow ← find_mid_loop fuel h (some qa) fast
    let after_mid ← get_next h slow
    let h1 ← set_next h slow none
    some (h1, some (some qa, after_mid))

/-- The first loop of `merge`, `while (i != NULL && j != NULL)`; the state is
the heap, `i`, `j` and `k`. -/
def merge_loop : Nat → Heap → Option Nat → Option Nat → Option Nat →
    Option (Heap × Option Nat × Option Nat × Option Nat)
  | fuel, h, i, j, k =>
    match i, j with
    | some ia, some ja =>
      match fuel with
      | 0 => none
      | fuel + 1 => do
        let ivo ← get_value h (some ia)
        let iv ← ivo
        let jvo ← get_value h (some ja)
        let jv ← jvo
        if strcmp iv jv < 0 then do
          let h1 ← set_next h k (some ia)
          let i1 ← get_next h1 (some ia)
          let k1 ← get_next h1 k
          merge_loop fuel h1 i1 (some ja) k1
        else do
          let h1 ← set_next h k (some ja)
          let j1 ← get_next h1 (some ja)
          let k1 ← get_next h1 k
          merge_loop fuel h1 (some ia) j1 k1
    | _, _ => some (h, i, j, k)

/-- The second and the third loop of `merge`, `while (i != NULL)` and
`while (j != NULL)`; the state is the heap, the list pointer and `k`. -/
def merge_rest : Nat → Heap → Option Nat → Option Nat → Option (Heap × Option Nat)
  | _, h, none, k => some (h, k)
  | 0, _, some _, _ => none
  | fuel + 1, h, some ia, k => do
    let h1 ← set_next h k (some ia)
    let i1 ← get_next h1 (some ia)
    let k1 ← get_next h1 k
    merge_rest fuel h1 i1 k1

/-- The three loops of `merge` one after the other, from the state they are
entered with; the result is the heap and the final `k`. The first loop runs on
the fuel `f`, the other two on the fuel `f2`. -/
def merge_loops (f f2 : Nat) (h : Heap) (i j k : Option Nat) : Option (Heap × Option Nat) :=
  match merge_loop f h i j k with
  | none => none
  | some (h1, i1, j1, k1) =>
    match merge_rest f2 h1 i1 k1 with
    | none => none
    | some (h2, k2) => merge_rest f2 h2 j1 k2

/-- `merge`: `q` is the queue `*q` points to, `q1` and `q2` the values of `*q1`
and `*q2`; the result is the heap, the queue and the value stored to `*a`. -/
def merge (fuel : Nat) (h : Heap) (q : queue_t) (q1 q2 : Option Nat) :
    Option (Heap × queue_t × Option Nat) := do
  let ivo ← get_value h q1
  let iv ← ivo
  let jvo ← get_value h q2
  let jv ← jvo
  let (tmp, i, j) ←
    if strcmp iv jv < 0 then (get_next h q1).map (fun n => (q1, n, q2))
    else (get_next h q2).map (fun n => (q2, q1, n))
  let (h3, k) ← merge_loops fuel fuel h i j tmp
  some (h3, { q with head := tmp, tail := k }, tmp)

/-- `merge_sort`: `a` is the value of `*a` on entry; the result is the heap,
the queue and the value of `*a` on return. -/
def merge_sort : Nat → Heap → queue_t → Option Nat → Option (Heap × queue_t × Option Nat)
  | 0, _, _, _ => none
  | fuel + 1, h, q, a =>
    match a with
    | none => some (h, q, a)
    | some p => do
      let n ← get_next h (some p)
      match n with
      | none => some (h, q, a)
      | some _ => do
        let (h1, out) ← find_mid_and_split fuel h a
        let (s, m) ← out
        let (h2, q2, s2) ← merge_sort fuel h1 q s
        let (h3, q3, m3) ← merge_sort fuel h2 q2 m
        merge fuel h3 q3 s2 m3

/-- `q_sort`. The argument `a` of the outermost `merge_sort` is `&q->head`:
the value it finds in `*a` is `q->head`, and the value the outermost `merge`
stores to `*a` is the one it stores to `q->head` right after. -/
def q_sort (fuel : Nat) (h : Heap) (q : Option queue_t) : Option (Heap × Option queue_t) :=
  match q with
  | none => some (h, q)
  | some qv =>
    if qv.size = 0 then some (h, q) else
    match qv.head with
    | none => some (h, q)
    | some p => do
      let n ← get_next h (some p)
      match n with
      | none => some (h, q)
      | some _ => do
        let (h1, q1, _) ← merge_sort fuel h qv qv.head
        some (h1, some q1)

/-! ## Chains -/

/-- Walks `l` from the pointer `p`: `p` is the first address of `l`, every
address of `l` is allocated and points to the one after it, and the last
one has `next == NULL`. -/
def chainB (h : Heap) : Option Nat → List Nat → Bool
  | p, [] => p.isNone
  | p, a :: t =>
    (p == some a) &&
      (match h a with
       | some node => chainB h node.next t
       | none => false)

/-- The chain reachable from `p` in the heap `h` is the list of addresses `l`. -/
def isChain (h : Heap) (p : Option Nat) (l : List Nat) : Prop := chainB h p l = true

instance (h : Heap) (p : Option Nat) (l : List Nat) : Decidable (isChain h p l) :=
  inferInstanceAs (Decidable (chainB h p l = true))

/-- The string stored at the address `a`, when the cell is allocated and
its `value` is not `NULL`. -/
def valueAt (h : Heap) (a : Nat) : Option (List Nat) :=
  match h a with
  | some node => node.value
  | none => none

/-- The bytes of the string stored at `a` (empty when there is none). -/
def bytesAt (h : Heap) (a : Nat) : List Nat := (valueAt h a).getD []

/-- The allocation status and the `value` field of the cell at `a`. -/
def cellValue (h : Heap) (a : Nat) : Option (Option (List Nat)) :=
  (h a).map (fun n => n.value)

/-- The test `strcmp(x->value, y->value) < 0` of `merge` on two addresses. -/
def ltAt (h : Heap) (x y : Nat) : Bool := decide (strcmp (bytesAt h x) (bytesAt h y) < 0)

/-- The list `merge` builds from two lists, `lt x y` being its test. -/
def mergeL (lt : Nat → Nat → Bool) : List Nat → List Nat → List Nat
  | [], l2 => l2
  | a :: l1, [] => a :: l1
  | a :: l1, b :: l2 =>
    if lt a b then a :: mergeL lt l1 (b :: l2) else b :: mergeL lt (a :: l1) l2

/-- The list `merge_sort` builds: split after the first `⌈n/2⌉` elements, sort
both halves, merge. -/
def msortL (lt : Nat → Nat → Bool) : Nat → List Nat → List Nat
  | 0, l => l
  | fuel + 1, l =>
    if l.length < 2 then l
    else mergeL lt (msortL lt fuel (l.take ((l.length + 1) / 2)))
      (msortL lt fuel (l.drop ((l.length + 1) / 2)))

/-- The order of the sort on addresses: the string at `x` is not above the
string at `y`. -/
def leAt (h : Heap) (x y : Nat) : Prop := strcmp (bytesAt h x) (bytesAt h y) ≤ 0

/-- The queue invariant of the data model: the chain from `head` is `l`, `size`
counts it, and `tail` is its last node (`NULL` when the chain is empty). -/
def WellFormed (h : Heap) (q : queue_t) (l : List Nat) : Prop :=
  isChain h q.head l ∧ q.size = l.length ∧ q.tail = l.getLast?

instance (h : Heap) (q : queue_t) (l : List Nat) : Decidable (WellFormed h q l) :=
  inferInstanceAs (Decidable (_ ∧ _ ∧ _))

/-- Every address of `l` holds an allocated cell whose `value` is not `NULL`. -/
def ValuesPresent (h : Heap) (l : List Nat) : Prop := ∀ a ∈ l, (valueAt h a).isSome = true

instance (h : Heap) (l : List Nat) : Decidable (ValuesPresent h l) :=
  inferInstanceAs (Decidable (∀ a ∈ l, _))

/-- The strings stored along a list of addresses, in order. -/
def chainValues (h : Heap) (l : List Nat) : List (List Nat) := l.map (bytesAt h)

/-! ## Call sequences -/

/-- Successive `q_remove_head` calls, one for each pair of a buffer and a
capacity; the result lists the return value and the buffer of every call, and
gives the heap and the queue after the last one. -/
def remove_heads : List (Option (List Nat) × Nat) → Heap → Option queue_t →
    Option (List (Bool × Option (List Nat)) × Heap × Option queue_t)
  | [], h, q => some ([], h, q)
  | (sp, c) :: rest, h, q =>
    match q_remove_head h q sp c with
    | none => none
    | some (r, h1, q1, b) =>
      match remove_heads rest h1 q1 with
      | none => none
      | some (rs, h2, q2) => some ((r, b) :: rs, h2, q2)

/-- Successive `q_insert_tail` calls whose allocations succeed, one for each
pair of a string and the address `malloc` hands out for its node. -/
def insert_tails (g : Nat → Nat) : List (List Nat × Nat) → Heap → Option queue_t →
    Option (List Bool × Heap × Option queue_t)
  | [], h, q => some ([], h, q)
  | (s, na) :: rest, h, q =>
    match q_insert_tail h q (some s) (some na) (some g) with
    | none => none
    | some (r, h1, q1) =>
      match insert_tails g rest h1 q1 with
      | none => none
      | some (rs, h2, q2) => some (r :: rs, h2, q2)

/-- Successive `q_insert_head` calls whose allocations succeed, one for each
pair of a string and the address `malloc` hands out for its node. -/
def insert_heads (g : Nat → Nat) : List (List Nat × Nat) → Heap → Option queue_t →
    Option (List Bool × Heap × Option queue_t)
  | [], h, q => some ([], h, q)
  | (s, na) :: rest, h, q =>
    match q_insert_head h q (some s) (some na) (some g) with
    | none => none
    | some (r, h1, q1) =>
      match insert_heads g rest h1 q1 with
      | none => none
      | some (rs, h2, q2) => some (r :: rs, h2, q2)

/-- The strings a list of `q_remove_head` results delivered: the C string in
the buffer of each call that returned `true`. -/
def deliveredStrings (rs : List (Bool × Option (List Nat))) : List (Option (List Nat)) :=
  rs.map (fun r => if r.1 then r.2.map cstr else none)

/-- The empty heap. -/
def emptyHeap : Heap := fun _ => none

/-! ## Example states -/

/-- A heap with the chain `1 → 2 → 3` holding "b", "a", "c". -/
def heapBAC : Heap := fun a =>
  if a = 1 then some { value := some [98, 0], next := some 2 }
  else if a = 2 then some { value := some [97, 0], next := some 3 }
  else if a = 3 then some { value := some [99, 0], next := none }
  else none

/-- The queue over `heapBAC`. -/
def queueBAC : queue_t := { head := some 1, tail := some 3, size := 3 }

/-- A heap with the single node `1` holding "ab". -/
def heapAB : Heap := fun a =>
  if a = 1 then some { value := some [97, 98, 0], next := none } else none

/-- The queue over `heapAB`. -/
def queueAB : queue_t := { head := some 1, tail := some 1, size := 1 }

/-- A heap with the chain `1 → 2`, both nodes holding "a". -/
def heapAA : Heap := fun a =>
  if a = 1 then some { value := some [97, 0], next := some 2 }
  else if a = 2 then some { value := some [97, 0], next := none }
  else none

/-- The queue over `heapAA`. -/
def queueAA : queue_t := { head := some 1, tail := some 2, size := 2 }

/-- The invariant the operations keep: the chain from `head` is `l`, `size`
counts it, and `tail` is its last node whenever the chain is not empty (on an
empty chain `tail` is not constrained). -/
def Valid (h : Heap) (q : queue_t) (l : List Nat) : Prop :=
  isChain h q.head l ∧ q.size = l.length ∧ (l ≠ [] → q.tail = l.getLast?)

instance (h : Heap) (q : queue_t) (l : List Nat) : Decidable (Valid h q l) :=
  inferInstanceAs (Decidable (_ ∧ _ ∧ (_ → _)))

/-- A heap with two separate one-node chains, `1` and `2`, both holding "a". -/
def heapTie : Heap := fun a =>
  if a = 1 then some { value := some [97, 0], next := none }
  else if a = 2 then some { value := some [97, 0], next := none }
  else none

/-! ## Sequences of calls of the interface -/

/-- A call of the interface on the queue, with the outcomes of its
allocations (`newh` for the node, `garbage` for the string copy). -/
inductive Call where
  | insert_head (s : Option (List Nat)) (newh : Option Nat) (garbage : Option (Nat → Nat))
  | insert_tail (s : Option (List Nat)) (newh : Option Nat) (garbage : Option (Nat → Nat))
  | remove_head (sp : Option (List Nat)) (bufsize : Nat)
  | reverse
  | sort

/-- An outcome `malloc` can have in the heap `h`: a failure, or an address that
is not allocated. -/
def freshAddr (h : Heap) (newh : Option Nat) : Bool :=
  match newh with
  | none => true
  | some a => (h a).isNone

/-- Fuel for the loops of a call on the queue `q`: its `size`. -/
def loopFuel (q : Option queue_t) : Nat :=
  match q with
  | none => 0
  | some qv => qv.size.toNat

/-- One call on the heap `h` and the queue `q`; `none` when the call is
undefined or the allocation outcome is impossible. `q_reverse` runs on the
fuel `size` and `q_sort` on `2 * size + 1`, which is enough whenever `size`
counts the chain. -/
def exec (h : Heap) (q : Option queue_t) : Call → Option (Heap × Option queue_t)
  | Call.insert_head s newh g =>
    if freshAddr h newh then (q_insert_head h q s newh g).map (fun r => (r.2.1, r.2.2))
    else none
  | Call.insert_tail s newh g =>
    if freshAddr h newh then (q_insert_tail h q s newh g).map (fun r => (r.2.1, r.2.2))
    else none
  | Call.remove_head sp c => (q_remove_head h q sp c).map (fun r => (r.2.1, r.2.2.1))
  | Call.reverse => q_reverse (loopFuel q) h q
  | Call.sort => q_sort (2 * loopFuel q + 1) h q

/-- A sequence of calls, one after the other. -/
def run : List Call → Heap → Option queue_t → Option (Heap × Option queue_t)
  | [], h, q => some (h, q)
  | c :: cs, h, q =>
    match exec h q c with
    | none => none
    | some (h1, q1) => run cs h1 q1

/-- The number 1 for an insertion whose string and allocations are all present
(such a call returns `true` whenever it is defined), 0 for every other call. -/
def insertedBy : Call → Nat
  | Call.insert_head (some _) (some _) (some _) => 1
  | Call.insert_tail (some _) (some _) (some _) => 1
  | _ => 0

/-- Whether a call is a `q_remove_head`. -/
def isRemoval : Call → Bool
  | Call.remove_head _ _ => true
  | _ => false

/-- The first `n` calls of an endless run of head insertions: the empty string
is inserted `n` times, into the nodes at the addresses `0`, ..., `n - 1`. -/
def insertCalls (n : Nat) : List Call :=
  (List.range n).map (fun i => Call.insert_head (some [0]) (some i) (some (fun _ => 0)))

/-- The string of `n` letters `a`, with its terminator. -/
def longString (n : Nat) : List Nat := List.replicate n 97 ++ [0]

/-! ## Lemmas on chains -/

theorem isChain_nil (h : Heap) (p : Option Nat) : isChain h p [] ↔ p = none := by
  simp [isChain, chainB]

theorem isChain_cons (h : Heap) (p : Option Nat) (a : Nat) (t : List Nat) :
    isChain h p (a :: t) ↔ p = some a ∧ ∃ node, h a = some node ∧ isChain h node.next t := by
  simp only [isChain, chainB]
  cases hh : h a with
  | none => simp
  | some node => simp

theorem isChain_head {h : Heap} {p : Option Nat} {l : List Nat} (hc : isChain h p l) :
    p = l.head? := by
  cases l with
  | nil => simpa [isChain_nil] using hc
  | cons a t => simpa using ((isChain_cons h p a t).1 hc).1

theorem isChain_functional {h : Heap} {l1 : List Nat} :
    ∀ {p : Option Nat} {l2 : List Nat}, isChain h p l1 → isChain h p l2 → l1 = l2 := by
  induction l1 with
  | nil =>
    intro p l2 h1 h2
    have hp := (isChain_nil h p).1 h1
    cases l2 with
    | nil => rfl
    | cons b t => 
      have := ((isChain_cons h p b t).1 h2).1
      simp [hp] at this
  | cons a t ih =>
    intro p l2 h1 h2
    obtain ⟨hp, node, hn, ht⟩ := (isChain_cons h p a t).1 h1
    cases l2 with
    | nil =>
      have := (isChain_nil h p).1 h2
      simp [hp] at this
    | cons b t2 =>
      obtain ⟨hp2, node2, hn2, ht2⟩ := (isChain_cons h p b t2).1 h2
      have hab : a = b := by simpa [hp] using hp2
      subst hab
      have : node = node2 := by simpa [hn] using hn2
      subst this
      rw [ih ht ht2]

theorem isChain_suffix {h : Heap} {l1 : List Nat} :
    ∀ {p : Option Nat} {a : Nat} {l2 : List Nat},
      isChain h p (l1 ++ a :: l2) → isChain h (some a) (a :: l2) := by
  induction l1 with
  | nil =>
    intro p a l2 hc
    obtain ⟨_, node, hn, ht⟩ := (isChain_cons h p a l2).1 hc
    exact (isChain_cons h (some a) a l2).2 ⟨rfl, node, hn, ht⟩
  | cons b t ih =>
    intro p a l2 hc
    obtain ⟨_, node, _, ht⟩ := (isChain_cons h p b (t ++ a :: l2)).1 hc
    exact ih ht

theorem isChain_nodup {h : Heap} {l : List Nat} :
    ∀ {p : Option Nat}, isChain h p l → l.Nodup := by
  induction l with
  | nil => intro _ _; exact List.nodup_nil
  | cons a t ih =>
    intro p hc
    obtain ⟨hp, node, hn, ht⟩ := (isChain_cons h p a t).1 hc
    refine List.nodup_cons.2 ⟨?_, ih ht⟩
    intro hmem
    obtain ⟨t1, t2, rfl⟩ := List.append_of_mem hmem
    have h1 : isChain h (some a) (a :: t2) := isChain_suffix ht
    have h2 : isChain h (some a) (a :: (t1 ++ a :: t2)) := by
      rw [hp] at hc; exact hc
    have := congrArg List.length (isChain_functional h1 h2)
    simp at this
    omega

theorem isChain_congr {h h' : Heap} {l : List Nat} :
    ∀ {p : Option Nat}, (∀ a ∈ l, h' a = h a) → isChain h p l → isChain h' p l := by
  induction l with
  | nil => intro p _ hc; exact (isChain_nil h' p).2 ((isChain_nil h p).1 hc)
  | cons a t ih =>
    intro p hs hc
    obtain ⟨hp, node, hn, ht⟩ := (isChain_cons h p a t).1 hc
    refine (isChain_cons h' p a t).2 ⟨hp, node, ?_, ?_⟩
    · rw [hs a (List.mem_cons_self a t)]; exact hn
    · exact ih (fun x hx => hs x (List.mem_cons_of_mem a hx)) ht

theorem isChain_update {h : Heap} {l : List Nat} {p : Option Nat} {a : Nat}
    {v : Option list_ele_t} (ha : a ∉ l) (hc : isChain h p l) :
    isChain (Function.update h a v) p l := by
  apply isChain_congr _ hc
  intro x hx
  have : x ≠ a := fun e => ha (e ▸ hx)
  simp [Function.update, this]

theorem isChain_alloc {h : Heap} {l : List Nat} :
    ∀ {p : Option Nat}, isChain h p l → ∀ a ∈ l, ∃ node, h a = some node := by
  induction l with
  | nil => intro _ _ a ha; simp at ha
  | cons b t ih =>
    intro p hc a ha
    obtain ⟨_, node, hn, ht⟩ := (isChain_cons h p b t).1 hc
    rcases List.mem_cons.1 ha with rfl | hmem
    · exact ⟨node, hn⟩
    · exact ih ht a hmem


/-! ## Reversal -/

theorem cellValue_update_next {h : Heap} {a : Nat} {n : list_ele_t} (hn : h a = some n)
    (v : Option Nat) (x : Nat) :
    cellValue (Function.update h a (some { n with next := v })) x = cellValue h x := by
  by_cases hx : x = a
  · subst hx; simp [cellValue, hn]
  · simp [cellValue, Function.update, hx]

theorem chain_cells_eq {h h' : Heap} {l : List Nat} :
    ∀ {p : Option Nat}, isChain h p l → isChain h' p l →
      (∀ a, cellValue h' a = cellValue h a) → ∀ a ∈ l, h' a = h a := by
  induction l with
  | nil => intro _ _ _ _ a ha; simp at ha
  | cons b t ih =>
    intro p hc hc' hv a ha
    obtain ⟨_, node, hn, ht⟩ := (isChain_cons h p b t).1 hc
    obtain ⟨_, node', hn', ht'⟩ := (isChain_cons h' p b t).1 hc'
    have hnext : node'.next = node.next := by
      rw [isChain_head ht, isChain_head ht']
    rcases List.mem_cons.1 ha with rfl | hmem
    · have hval := hv a
      simp only [cellValue, hn, hn', Option.map_some'] at hval
      have hval' : node'.value = node.value := by simpa using hval
      rw [hn, hn']
      cases node; cases node'
      simp_all
    · exact ih (hnext ▸ ht) (hnext ▸ hnext ▸ ht') hv a hmem

theorem q_reverse_loop_spec (l : List Nat) :
    ∀ (fuel : Nat) (h : Heap) (p cursor : Option Nat) (r : List Nat),
      l.length ≤ fuel → isChain h p l → isChain h cursor r → (∀ a ∈ l, a ∉ r) →
      ∃ h' c', q_reverse_loop fuel h p cursor = some (h', none, c') ∧
        isChain h' c' (l.reverse ++ r) ∧
        (∀ a, a ∉ l → h' a = h a) ∧
        (∀ a, cellValue h' a = cellValue h a) := by
  induction l with
  | nil =>
    intro fuel h p cursor r _ hc hr _
    have hp := (isChain_nil h p).1 hc
    subst hp
    refine ⟨h, cursor, ?_, by simpa using hr, fun _ _ => rfl, fun _ => rfl⟩
    cases fuel <;> simp [q_reverse_loop]
  | cons a t ih =>
    intro fuel h p cursor r hf hc hr hd
    obtain ⟨hp, node, hn, ht⟩ := (isChain_cons h p a t).1 hc
    subst hp
    have hnd := List.nodup_cons.1 (isChain_nodup hc)
    cases fuel with
    | zero => simp at hf
    | succ f =>
      have har : a ∉ r := hd a (List.mem_cons_self a t)
      let h1 : Heap := Function.update h a (some { node with next := cursor })
      have ht1 : isChain h1 node.next t := isChain_update hnd.1 ht
      have hr1 : isChain h1 (some a) (a :: r) :=
        (isChain_cons h1 (some a) a r).2
          ⟨rfl, { node with next := cursor }, by simp [h1], isChain_update har hr⟩
      have hd1 : ∀ x ∈ t, x ∉ a :: r := by
        intro x hx hxr
        rcases List.mem_cons.1 hxr with rfl | hxr
        · exact hnd.1 hx
        · exact hd x (List.mem_cons_of_mem a hx) hxr
      obtain ⟨h', c', hrun, hch, hfr, hval⟩ :=
        ih f h1 node.next (some a) (a :: r) (by simpa using hf) ht1 hr1 hd1
      refine ⟨h', c', ?_, by simpa using hch, ?_, ?_⟩
      · simp [q_reverse_loop, get_next, set_next, hn]
        exact hrun
      · intro x hx
        have hxa : x ≠ a := fun e => hx (e ▸ List.mem_cons_self a t)
        have hxt : x ∉ t := fun e => hx (List.mem_cons_of_mem a e)
        rw [hfr x hxt]
        simp [h1, Function.update, hxa]
      · intro x
        rw [hval x]
        exact cellValue_update_next hn cursor x

theorem q_reverse_spec (fuel : Nat) (h : Heap) (q : queue_t) (l : List Nat)
    (hc : isChain h q.head l) (hs : q.size ≠ 0) (hf : l.length ≤ fuel) :
    ∃ h', q_reverse fuel h (some q) =
        some (h', some { head := l.getLast?, tail := q.head, size := q.size }) ∧
      isChain h' l.getLast? l.reverse ∧ (∀ a, a ∉ l → h' a = h a) ∧
      (∀ a, cellValue h' a = cellValue h a) := by
  obtain ⟨h', c', hrun, hch, hfr, hval⟩ :=
    q_reverse_loop_spec l fuel h q.head none [] hf hc ((isChain_nil h none).2 rfl)
      (fun _ _ => List.not_mem_nil _)
  have hc' : c' = l.getLast? := by
    have := isChain_head hch
    simpa [List.head?_reverse] using this
  subst hc'
  refine ⟨h', ?_, by simpa using hch, hfr, hval⟩
  simp [q_reverse, hs, hrun]


/-! ## Insertion -/

theorem chain_snoc {h : Heap} {na : Nat} {nd : list_ele_t} (hna : h na = some nd)
    (hnd : nd.next = none) :
    ∀ (l : List Nat) (p : Option Nat) (t : Nat) (n : list_ele_t), isChain h p l →
      l.getLast? = some t → na ∉ l → h t = some n →
      isChain (Function.update h t (some { n with next := some na })) p (l ++ [na]) := by
  intro l
  induction l with
  | nil => intro p t n _ hl; simp at hl
  | cons a r ih =>
    intro p t n hc hl hmem ht
    obtain ⟨hp, node, hn, hr⟩ := (isChain_cons h p a r).1 hc
    have hnd' := List.nodup_cons.1 (isChain_nodup hc)
    have hnaa : na ≠ a := fun e => hmem (e ▸ List.mem_cons_self a r)
    cases r with
    | nil =>
      have hta : t = a := by simpa using hl.symm
      subst hta
      have hnn : n = node := by simpa [hn] using ht.symm
      subst hnn
      refine (isChain_cons _ p t [na]).2 ⟨hp, { n with next := some na }, by simp, ?_⟩
      refine (isChain_cons _ _ na []).2 ⟨rfl, nd, ?_, ?_⟩
      · simp [Function.update, hnaa, hna]
      · rw [hnd]; exact (isChain_nil _ _).2 rfl
    | cons b r' =>
      have hl' : (b :: r').getLast? = some t := by simpa [List.getLast?_cons_cons] using hl
      have htmem : t ∈ b :: r' := List.mem_of_getLast?_eq_some hl'
      have hta : a ≠ t := fun e => hnd'.1 (e ▸ htmem)
      refine (isChain_cons _ p a _).2 ⟨hp, node, ?_, ?_⟩
      · simp [Function.update, hta, hn]
      · exact ih node.next t n hr hl' (fun e => hmem (List.mem_cons_of_mem a e)) ht

/-! ## Removal -/

theorem remove_copy (buf v : List Nat) (c : Nat) (hcap : strlen v < c) (hbuf : c ≤ buf.length) :
    ∃ b1, memset buf 0 c = some b1 ∧
      strncpy b1 v (strlen v) =
        some (cstr v ++ List.replicate (c - strlen v) 0 ++ buf.drop c) := by
  refine ⟨List.replicate c 0 ++ buf.drop c, by simp [memset, hbuf], ?_⟩
  have hlen : (cstr v).length = strlen v := rfl
  have h1 : (cstr v).take (strlen v) = cstr v := by rw [← hlen]; exact List.take_length _
  have h2 : strlen v ≤ (List.replicate c 0 ++ List.drop c buf).length := by
    simp; omega
  simp only [strncpy, h2, if_true, h1, Nat.sub_self, List.replicate_zero, List.append_nil]
  rw [List.drop_append_of_le_length (by simp; omega), List.drop_replicate]
  simp

theorem q_remove_head_step (h : Heap) (q : queue_t) (a : Nat) (t : List Nat)
    (buf v : List Nat) (c : Nat) (hc : isChain h q.head (a :: t)) (hs : q.size ≠ 0)
    (hv : valueAt h a = some v) (hcap : strlen v < c) (hbuf : c ≤ buf.length) :
    q_remove_head h (some q) (some buf) c =
        some (true, free_ele h a,
          some { head := t.head?, tail := q.tail, size := q.size - 1 },
          some (cstr v ++ List.replicate (c - strlen v) 0 ++ buf.drop c)) ∧
      isChain (free_ele h a) t.head? t := by
  obtain ⟨hp, node, hn, ht⟩ := (isChain_cons h q.head a t).1 hc
  have hnd := List.nodup_cons.1 (isChain_nodup hc)
  have hval : node.value = some v := by simpa [valueAt, hn] using hv
  obtain ⟨b1, hb1, hb2⟩ := remove_copy buf v c hcap hbuf
  have hnext : node.next = t.head? := isChain_head ht
  constructor
  · simp only [q_remove_head, hs, if_false, hp, hn, hval, hb1]
    have : ¬ strlen v > c := by omega
    simp only [this, if_false, hb2, hnext]
  · rw [← hnext]; exact isChain_update hnd.1 ht

theorem q_remove_head_true (h : Heap) (q : queue_t) (a : Nat) (t : List Nat)
    (sp : Option (List Nat)) (c : Nat) (h' : Heap) (q' : Option queue_t)
    (b : Option (List Nat)) (hc : isChain h q.head (a :: t))
    (hrun : q_remove_head h (some q) sp c = some (true, h', q', b)) :
    h' = free_ele h a ∧ q' = some { head := t.head?, tail := q.tail, size := q.size - 1 } ∧
      isChain (free_ele h a) t.head? t := by
  obtain ⟨hp, node, hn, ht⟩ := (isChain_cons h q.head a t).1 hc
  have hnd := List.nodup_cons.1 (isChain_nodup hc)
  have hnext : node.next = t.head? := isChain_head ht
  refine ⟨?_, ?_, by rw [← hnext]; exact isChain_update hnd.1 ht⟩
  all_goals
    simp only [q_remove_head, hp, hn] at hrun
    split at hrun
    · simp at hrun
    · split at hrun
      · simp at hrun
      · split at hrun
        · split at hrun
          · simp at hrun
          · split at hrun
            · simp at hrun
            · simp only [Option.some.injEq, Prod.mk.injEq, true_and] at hrun
              simp [← hrun.1, ← hrun.2.1, hnext]
        · simp only [Option.some.injEq, Prod.mk.injEq, true_and] at hrun
          simp [← hrun.1, ← hrun.2.1, hnext]

theorem remove_heads_all (l : List Nat) :
    ∀ (h : Heap) (q : queue_t) (calls : List (Option (List Nat) × Nat))
      (rs : List (Bool × Option (List Nat))) (h' : Heap) (q' : Option queue_t),
      isChain h q.head l → q.size = l.length → calls.length = l.length →
      remove_heads calls h (some q) = some (rs, h', q') → (∀ r ∈ rs, r.1 = true) →
      q' = some { head := none, tail := q.tail, size := 0 } ∧
        (∀ a, a ∈ l → h' a = none) ∧ (∀ a, a ∉ l → h' a = h a) := by
  induction l with
  | nil =>
    intro h q calls rs h' q' hc hs hlen hrun _
    have hcalls : calls = [] := List.length_eq_zero.1 hlen
    subst hcalls
    have hhead := (isChain_nil h q.head).1 hc
    simp only [remove_heads, Option.some.injEq, Prod.mk.injEq] at hrun
    obtain ⟨_, rfl, rfl⟩ := hrun
    refine ⟨?_, by simp, fun _ _ => rfl⟩
    cases q
    simp_all
  | cons a t ih =>
    intro h q calls rs h' q' hc hs hlen hrun hall
    cases calls with
    | nil => simp at hlen
    | cons call rest =>
      obtain ⟨sp, c⟩ := call
      simp only [remove_heads] at hrun
      cases h1 : q_remove_head h (some q) sp c with
      | none => simp [h1] at hrun
      | some res =>
        obtain ⟨r, hh1, q1, b⟩ := res
        simp only [h1] at hrun
        cases h2 : remove_heads rest hh1 q1 with
        | none => simp [h2] at hrun
        | some res2 =>
          obtain ⟨rs2, hh2, q2⟩ := res2
          simp only [h2, Option.some.injEq, Prod.mk.injEq] at hrun
          obtain ⟨rfl, rfl, rfl⟩ := hrun
          have hr : r = true := hall (r, b) (List.mem_cons_self _ _)
          subst hr
          obtain ⟨rfl, rfl, hch⟩ := q_remove_head_true h q a t sp c hh1 q1 b hc h1
          have hnd := List.nodup_cons.1 (isChain_nodup hc)
          obtain ⟨hq, hfreed, hkept⟩ :=
            ih (free_ele h a) { head := t.head?, tail := q.tail, size := q.size - 1 } rest rs2
              hh2 q2 hch (by simp [hs]) (by simpa using hlen) h2
              (fun x hx => hall x (List.mem_cons_of_mem _ hx))
          refine ⟨hq, ?_, ?_⟩
          · intro x hx
            rcases List.mem_cons.1 hx with rfl | hxt
            · rw [hkept x hnd.1]; simp [free_ele]
            · exact hfreed x hxt
          · intro x hx
            have hxa : x ≠ a := fun e => hx (e ▸ List.mem_cons_self a t)
            rw [hkept x (fun e => hx (List.mem_cons_of_mem a e))]
            simp [free_ele, Function.update, hxa]


/-! ## Delivery of the stored strings -/

theorem valueAt_eq_join (h : Heap) (a : Nat) : valueAt h a = (cellValue h a).join := by
  unfold valueAt cellValue
  cases h a <;> simp

theorem valueAt_congr {h h' : Heap} {a : Nat} (hv : cellValue h' a = cellValue h a) :
    valueAt h' a = valueAt h a := by
  rw [valueAt_eq_join, valueAt_eq_join, hv]

theorem bytesAt_congr {h h' : Heap} {a : Nat} (hv : cellValue h' a = cellValue h a) :
    bytesAt h' a = bytesAt h a := by
  unfold bytesAt; rw [valueAt_congr hv]

theorem cstr_append_zero (s r : List Nat) : cstr (cstr s ++ 0 :: r) = cstr s := by
  unfold cstr
  induction s with
  | nil => simp
  | cons b t ih =>
    by_cases hb : b = 0
    · simp [List.takeWhile_cons, hb]
    · simp [List.takeWhile_cons, hb, ih]

theorem cstr_terminated (s : List Nat) : cstr (cstr s ++ [0]) = cstr s :=
  cstr_append_zero s []

theorem strlen_terminated (s : List Nat) : strlen (cstr s ++ [0]) = strlen s := by
  unfold strlen; rw [cstr_terminated]

theorem remove_heads_deliver (calls : List (List Nat × Nat)) :
    ∀ (l : List Nat) (h : Heap) (q : queue_t),
      isChain h q.head l → q.size = l.length → ValuesPresent h l →
      calls.length ≤ l.length →
      (∀ call ∈ calls, ∀ a ∈ l, strlen (bytesAt h a) < call.2 ∧ call.2 ≤ call.1.length) →
      ∃ rs h' q', remove_heads (calls.map (fun bc => (some bc.1, bc.2))) h (some q) =
          some (rs, h', some q') ∧
        rs.map Prod.fst = List.replicate calls.length true ∧
        deliveredStrings rs = (l.take calls.length).map (fun a => some (cstr (bytesAt h a))) ∧
        isChain h' q'.head (l.drop calls.length) ∧
        q'.size = q.size - calls.length ∧ q'.tail = q.tail ∧
        (∀ a, a ∉ l.take calls.length → h' a = h a) := by
  induction calls with
  | nil =>
    intro l h q hc hs _ _ _
    exact ⟨[], h, q, by simp [remove_heads], by simp, by simp [deliveredStrings],
      by simpa using hc, by simp, rfl, fun _ _ => rfl⟩
  | cons call rest ih =>
    intro l h q hc hs hvp hlen hcap
    cases l with
    | nil => simp at hlen
    | cons a t =>
      obtain ⟨buf, c⟩ := call
      have hnd := List.nodup_cons.1 (isChain_nodup hc)
      have hva := hvp a (List.mem_cons_self a t)
      obtain ⟨v, hv⟩ := Option.isSome_iff_exists.1 hva
      have hbytes : bytesAt h a = v := by simp [bytesAt, hv]
      have hcapa := hcap (buf, c) (List.mem_cons_self _ _) a (List.mem_cons_self a t)
      rw [hbytes] at hcapa
      have hs0 : q.size ≠ 0 := by rw [hs]; simp; omega
      obtain ⟨hstep, hch⟩ := q_remove_head_step h q a t buf v c hc hs0 hv hcapa.1 hcapa.2
      have hcell : ∀ x, x ≠ a → cellValue (free_ele h a) x = cellValue h x := by
        intro x hx; simp [cellValue, free_ele, Function.update, hx]
      have hne : ∀ x ∈ t, x ≠ a := fun x hx e => hnd.1 (e ▸ hx)
      obtain ⟨rs, h', q', hrun, hfst, hdel, hch', hsz, htl, hfr⟩ :=
        ih t (free_ele h a) { head := t.head?, tail := q.tail, size := q.size - 1 } hch
          (by simp [hs])
          (fun x hx => by rw [valueAt_congr (hcell x (hne x hx))]; exact hvp x (List.mem_cons_of_mem a hx))
          (by simpa using hlen)
          (fun call hcall x hx => by
            rw [bytesAt_congr (hcell x (hne x hx))]
            exact hcap call (List.mem_cons_of_mem _ hcall) x (List.mem_cons_of_mem a hx))
      refine ⟨(true, some (cstr v ++ List.replicate (c - strlen v) 0 ++ buf.drop c)) :: rs,
        h', q', ?_, ?_, ?_, ?_, ?_, ?_, ?_⟩
      · simp only [List.map_cons, remove_heads, hstep, hrun]
      · simp [hfst, List.replicate_succ]
      · simp only [deliveredStrings, List.map_cons, List.length_cons, List.take_succ_cons,
          if_true, Option.map_some', hbytes] at hdel ⊢
        rw [hdel]
        have hcv : cstr (cstr v ++ List.replicate (c - strlen v) 0 ++ List.drop c buf) = cstr v := by
          obtain ⟨n, hn⟩ : ∃ n, c - strlen v = n + 1 := ⟨c - strlen v - 1, by omega⟩
          rw [hn, List.replicate_succ, List.append_assoc, List.cons_append]
          exact cstr_append_zero v _
        rw [hcv]
        congr 1
        apply List.map_congr_left
        intro x hx
        rw [bytesAt_congr (hcell x (hne x (List.mem_of_mem_take hx)))]
      · simpa using hch'
      · rw [hsz]; simp; omega
      · exact htl
      · intro x hx
        simp only [List.length_cons, List.take_succ_cons, List.mem_cons, not_or] at hx
        rw [hfr x hx.2]
        simp [free_ele, Function.update, hx.1]


/-! ## Sequences of insertions -/

theorem valueAt_of_cellValue {h : Heap} {a : Nat} {v : List Nat}
    (hv : cellValue h a = some (some v)) : valueAt h a = some v := by
  rw [valueAt_eq_join, hv]; rfl

theorem bytesAt_of_cellValue {h : Heap} {a : Nat} {v : List Nat}
    (hv : cellValue h a = some (some v)) : bytesAt h a = v := by
  simp [bytesAt, valueAt_of_cellValue hv]

/-! ## Splitting a chain -/

theorem get_next_of_cell {h : Heap} {a : Nat} {n : list_ele_t} (hn : h a = some n) :
    get_next h (some a) = some n.next := by
  simp [get_next, hn]

theorem find_mid_loop_spec (n : Nat) :
    ∀ (fl sl : List Nat) (fuel : Nat) (h : Heap) (slow fast : Option Nat),
      fl.length ≤ n → fl.length ≤ fuel → isChain h fast fl → isChain h slow sl →
      fl.length / 2 < sl.length →
      find_mid_loop fuel h slow fast = some (sl.drop (fl.length / 2)).head? := by
  induction n using Nat.strong_induction_on with
  | _ n ih =>
    intro fl sl fuel h slow fast hn hf hfc hsc hlen
    cases fl with
    | nil =>
      have hfast := (isChain_nil h fast).1 hfc
      subst hfast
      have : slow = sl.head? := isChain_head hsc
      cases fuel <;> simp [find_mid_loop, this]
    | cons f fl1 =>
      obtain ⟨hfast, fnode, hfn, hf1⟩ := (isChain_cons h fast f fl1).1 hfc
      subst hfast
      cases fuel with
      | zero => simp at hf
      | succ fuel =>
        cases fl1 with
        | nil =>
          have hnone := (isChain_nil h fnode.next).1 hf1
          have : slow = sl.head? := isChain_head hsc
          simp only [find_mid_loop, get_next_of_cell hfn, hnone, Option.bind_eq_bind,
            Option.some_bind]
          cases fuel <;> simp [find_mid_loop, this]
        | cons f1 fl2 =>
          obtain ⟨hf1p, f1node, hf1n, hf2⟩ := (isChain_cons h fnode.next f1 fl2).1 hf1
          cases sl with
          | nil => simp at hlen
          | cons s sl1 =>
            obtain ⟨hslow, snode, hsn, hs1⟩ := (isChain_cons h slow s sl1).1 hsc
            subst hslow
            have hlen' : fl2.length / 2 < sl1.length := by
              simp only [List.length_cons] at hlen
              omega
            have := ih fl2.length (by simp at hn; omega) fl2 sl1 fuel h snode.next f1node.next
              (le_refl _) (by simp at hf; omega) hf2 hs1 hlen'
            simp only [find_mid_loop, get_next_of_cell hfn, hf1p, Option.bind_eq_bind,
              Option.some_bind, get_next_of_cell hsn, get_next_of_cell hf1n, this]
            have h2 : (f :: f1 :: fl2).length / 2 = fl2.length / 2 + 1 := by
              simp only [List.length_cons]; omega
            rw [h2, List.drop_succ_cons]

theorem chain_cut {h : Heap} (l1 : List Nat) :
    ∀ (p : Option Nat) (l2 : List Nat) (s : Nat), isChain h p (l1 ++ l2) →
      l1.getLast? = some s →
      ∃ ns, h s = some ns ∧ ns.next = l2.head? ∧
        isChain (Function.update h s (some { ns with next := none })) p l1 ∧
        isChain (Function.update h s (some { ns with next := none })) l2.head? l2 := by
  induction l1 with
  | nil => intro p l2 s _ hl; simp at hl
  | cons a r ih =>
    intro p l2 s hc hl
    have hnd := isChain_nodup hc
    obtain ⟨hp, node, hn, hr⟩ := (isChain_cons h p a (r ++ l2)).1 hc
    have hnd' := List.nodup_cons.1 hnd
    cases r with
    | nil =>
      have hsa : s = a := by simpa using hl.symm
      subst hsa
      simp only [List.nil_append] at hr hnd'
      refine ⟨node, hn, isChain_head hr, ?_, ?_⟩
      · exact (isChain_cons _ p s []).2 ⟨hp, { node with next := none }, by simp,
          (isChain_nil _ _).2 rfl⟩
      · rw [← isChain_head hr]; exact isChain_update hnd'.1 hr
    | cons b r' =>
      have hl' : (b :: r').getLast? = some s := by simpa [List.getLast?_cons_cons] using hl
      obtain ⟨ns, hns, hnext, hc1, hc2⟩ := ih node.next l2 s hr hl'
      have hsmem : s ∈ (b :: r') ++ l2 :=
        List.mem_append_left _ (List.mem_of_getLast?_eq_some hl')
      have hsa : a ≠ s := fun e => hnd'.1 (e ▸ hsmem)
      refine ⟨ns, hns, hnext, ?_, hc2⟩
      exact (isChain_cons _ p a (b :: r')).2 ⟨hp, node, by simp [Function.update, hsa, hn], hc1⟩

theorem split_index (l : List Nat) (hl : l ≠ []) :
    (l.take ((l.length + 1) / 2)).getLast? = (l.drop ((l.length - 1) / 2)).head? := by
  have hpos : 0 < l.length := List.length_pos.2 hl
  have hk : (l.length + 1) / 2 = (l.length - 1) / 2 + 1 := by omega
  have hlt : (l.length - 1) / 2 < l.length := by omega
  rw [List.head?_drop, List.getLast?_eq_getElem?, List.length_take, hk,
    List.getElem?_take_of_lt (by omega)]
  congr 1
  omega

theorem find_mid_and_split_spec (fuel : Nat) (h : Heap) (a : Nat) (l : List Nat)
    (hc : isChain h (some a) l) (hf : l.length ≤ fuel + 1) :
    ∃ h1, find_mid_and_split fuel h (some a) =
        some (h1, some (some a, (l.drop ((l.length + 1) / 2)).head?)) ∧
      isChain h1 (some a) (l.take ((l.length + 1) / 2)) ∧
      isChain h1 (l.drop ((l.length + 1) / 2)).head? (l.drop ((l.length + 1) / 2)) ∧
      (∀ x, x ∉ l → h1 x = h x) ∧ (∀ x, cellValue h1 x = cellValue h x) := by
  cases l with
  | nil => simp [isChain_nil] at hc
  | cons b t =>
    obtain ⟨hp, node, hn, ht⟩ := (isChain_cons h (some a) b t).1 hc
    have hab : a = b := by simpa using hp
    subst hab
    have hloop := find_mid_loop_spec t.length t (a :: t) fuel h (some a) node.next (le_refl _)
      (by simpa using hf) ht hc (by simp; omega)
    have hidx := split_index (a :: t) (by simp)
    simp only [List.length_cons, Nat.add_sub_cancel] at hidx hloop
    rw [← hidx] at hloop
    obtain ⟨s, hs⟩ : ∃ s, ((a :: t).take ((t.length + 1 + 1) / 2)).getLast? = some s := by
      cases hx : ((a :: t).take ((t.length + 1 + 1) / 2)).getLast? with
      | none =>
        have := List.getLast?_eq_none_iff.1 hx
        have hlen := congrArg List.length this
        simp at hlen
        omega
      | some s => exact ⟨s, rfl⟩
    have hc' : isChain h (some a) ((a :: t).take ((t.length + 1 + 1) / 2) ++
        (a :: t).drop ((t.length + 1 + 1) / 2)) := by
      rw [List.take_append_drop]; exact hc
    obtain ⟨ns, hns, hnext, hc1, hc2⟩ := chain_cut _ _ _ s hc' hs
    refine ⟨Function.update h s (some { ns with next := none }), ?_, hc1, hc2, ?_, ?_⟩
    · simp only [find_mid_and_split, get_next_of_cell hn, Option.bind_eq_bind, Option.some_bind,
        hloop, hs, get_next_of_cell hns, set_next, hns, hnext, List.length_cons]
    · intro x hx
      have hsmem : s ∈ a :: t := List.mem_of_mem_take (List.mem_of_getLast?_eq_some hs)
      have : x ≠ s := fun e => hx (e ▸ hsmem)
      simp [Function.update, this]
    · intro x
      exact cellValue_update_next hns none x


/-! ## Merging two chains -/

theorem ltAt_congr {h h' : Heap} (hv : ∀ x, cellValue h' x = cellValue h x) :
    ltAt h' = ltAt h := by
  funext x y
  simp [ltAt, bytesAt_congr (hv x), bytesAt_congr (hv y)]

theorem valuesPresent_congr {h h' : Heap} {l : List Nat}
    (hv : ∀ x, cellValue h' x = cellValue h x) (hp : ValuesPresent h l) :
    ValuesPresent h' l := by
  intro a ha
  rw [valueAt_congr (hv a)]
  exact hp a ha

theorem cell_of_valuePresent {h : Heap} {a : Nat} (hp : (valueAt h a).isSome = true) :
    ∃ na v, h a = some na ∧ na.value = some v ∧ bytesAt h a = v := by
  obtain ⟨v, hv⟩ := Option.isSome_iff_exists.1 hp
  unfold valueAt at hv
  cases hn : h a with
  | none => simp [hn] at hv
  | some na =>
    simp only [hn] at hv
    exact ⟨na, v, rfl, hv, by simp [bytesAt, valueAt, hn, hv]⟩

theorem get_value_of_cell {h : Heap} {a : Nat} {n : list_ele_t} (hn : h a = some n) :
    get_value h (some a) = some n.value := by
  simp [get_value, hn]

theorem set_next_of_cell {h : Heap} {a : Nat} {n : list_ele_t} (hn : h a = some n)
    (v : Option Nat) :
    set_next h (some a) v = some (Function.update h a (some { n with next := v })) := by
  simp [set_next, hn]

theorem getLast?_cons_of_ne_nil {a : Nat} {l : List Nat} (hl : l ≠ []) :
    (a :: l).getLast? = l.getLast? := by
  cases l with
  | nil => exact absurd rfl hl
  | cons b t => simp [List.getLast?_cons_cons]

theorem merge_rest_spec (l : List Nat) :
    ∀ (fuel : Nat) (h : Heap) (i : Option Nat) (k : Nat) (kn : list_ele_t),
      l.length ≤ fuel → isChain h i l → k ∉ l → h k = some kn →
      ∃ h' k', merge_rest fuel h i (some k) = some (h', some k') ∧
        (l = [] → h' = h ∧ k' = k) ∧
        (l ≠ [] → isChain h' (some k) (k :: l) ∧ some k' = l.getLast?) ∧
        (∀ x, x ≠ k → x ∉ l → h' x = h x) ∧
        (∀ x, cellValue h' x = cellValue h x) := by
  induction l with
  | nil =>
    intro fuel h i k kn _ hc _ _
    have hi := (isChain_nil h i).1 hc
    subst hi
    refine ⟨h, k, ?_, fun _ => ⟨rfl, rfl⟩, fun e => absurd rfl e, fun _ _ _ => rfl, fun _ => rfl⟩
    cases fuel <;> simp [merge_rest]
  | cons a t ih =>
    intro fuel h i k kn hf hc hk hkn
    obtain ⟨hi, na, hna, ht⟩ := (isChain_cons h i a t).1 hc
    subst hi
    have hnd := List.nodup_cons.1 (isChain_nodup hc)
    have hka : k ≠ a := fun e => hk (e ▸ List.mem_cons_self a t)
    have hkt : k ∉ t := fun e => hk (List.mem_cons_of_mem a e)
    cases fuel with
    | zero => simp at hf
    | succ fuel =>
      let h1 : Heap := Function.update h k (some { kn with next := some a })
      have hna1 : h1 a = some na := by simp [h1, Function.update, hka.symm, hna]
      have hk1 : h1 k = some { kn with next := some a } := by simp [h1]
      have ht1 : isChain h1 na.next t := isChain_update hkt ht
      obtain ⟨h', k', hrun, hnil, hcons, hfr, hcv⟩ :=
        ih fuel h1 na.next a na (by simpa using hf) ht1 hnd.1 hna1
      have hk' : h' k = some { kn with next := some a } := by
        rw [hfr k hka hkt]; exact hk1
      refine ⟨h', k', ?_, fun e => by simp at e, fun _ => ⟨?_, ?_⟩, ?_, ?_⟩
      · simp only [merge_rest, set_next_of_cell hkn, Option.bind_eq_bind, Option.some_bind]
        rw [get_next_of_cell hna1, get_next_of_cell hk1]
        simpa using hrun
      · refine (isChain_cons h' (some k) k (a :: t)).2 ⟨rfl, _, hk', ?_⟩
        by_cases htn : t = []
        · obtain ⟨hh, _⟩ := hnil htn
          subst htn
          rw [hh]
          exact (isChain_cons h1 _ a []).2 ⟨rfl, na, hna1, ht1⟩
        · exact (hcons htn).1
      · by_cases htn : t = []
        · obtain ⟨_, hkk⟩ := hnil htn
          subst htn
          simp [hkk]
        · rw [(hcons htn).2, getLast?_cons_of_ne_nil htn]
      · intro x hxk hx
        have hxa : x ≠ a := fun e => hx (e ▸ List.mem_cons_self a t)
        rw [hfr x hxa (fun e => hx (List.mem_cons_of_mem a e))]
        simp [h1, Function.update, hxk]
      · intro x
        rw [hcv x]
        exact cellValue_update_next hkn (some a) x


theorem mergeL_nil_left (lt : Nat → Nat → Bool) (l : List Nat) : mergeL lt [] l = l := by
  simp [mergeL]

theorem mergeL_nil_right (lt : Nat → Nat → Bool) (l : List Nat) : mergeL lt l [] = l := by
  cases l <;> simp [mergeL]

theorem mergeL_ne_nil (lt : Nat → Nat → Bool) (l1 l2 : List Nat) (hne : l1 ≠ [] ∨ l2 ≠ []) :
    mergeL lt l1 l2 ≠ [] := by
  cases l1 with
  | nil =>
    rw [mergeL_nil_left]
    rcases hne with h | h
    · exact absurd rfl h
    · exact h
  | cons a t1 =>
    cases l2 with
    | nil => simp [mergeL]
    | cons b t2 =>
      simp only [mergeL]
      split <;> simp

theorem merge_loops_spec (n : Nat) :
    ∀ (l1 l2 : List Nat) (f f2 : Nat) (h : Heap) (i j : Option Nat) (k : Nat)
      (kn : list_ele_t),
      l1.length + l2.length ≤ n → n ≤ f → l1.length + l2.length ≤ f2 →
      isChain h i l1 → isChain h j l2 → (∀ x ∈ l1, x ∉ l2) → k ∉ l1 → k ∉ l2 →
      h k = some kn → ValuesPresent h l1 → ValuesPresent h l2 → (l1 ≠ [] ∨ l2 ≠ []) →
      ∃ h' k', merge_loops f f2 h i j (some k) = some (h', some k') ∧
        isChain h' (some k) (k :: mergeL (ltAt h) l1 l2) ∧
        some k' = (mergeL (ltAt h) l1 l2).getLast? ∧
        (∀ x, x ≠ k → x ∉ l1 → x ∉ l2 → h' x = h x) ∧
        (∀ x, cellValue h' x = cellValue h x) := by
  induction n with
  | zero =>
    intro l1 l2 f f2 h i j k kn hn _ _ _ _ _ _ _ _ _ _ hne
    have h1 : l1 = [] := List.length_eq_zero.1 (by omega)
    have h2 : l2 = [] := List.length_eq_zero.1 (by omega)
    rcases hne with e | e
    · exact absurd h1 e
    · exact absurd h2 e
  | succ n ih =>
    intro l1 l2 f f2 h i j k kn hn hf hf2 hc1 hc2 hdisj hk1 hk2 hkn hv1 hv2 hne
    cases l1 with
    | nil =>
      have hi := (isChain_nil h i).1 hc1
      subst hi
      have hl2 : l2 ≠ [] := by
        rcases hne with e | e
        · exact absurd rfl e
        · exact e
      obtain ⟨h', k', hrun, _, hcons, hfr, hcv⟩ :=
        merge_rest_spec l2 f2 h j k kn (by simpa using hf2) hc2 hk2 hkn
      refine ⟨h', k', ?_, ?_, ?_, fun x hxk _ hx2 => hfr x hxk hx2, hcv⟩
      · have hloop : merge_loop f h none j (some k) = some (h, none, j, some k) := by
          unfold merge_loop; rfl
        have hrest : merge_rest f2 h none (some k) = some (h, some k) := by
          cases f2 <;> simp [merge_rest]
        simp only [merge_loops, hloop, hrest, hrun]
      · rw [mergeL_nil_left]; exact (hcons hl2).1
      · rw [mergeL_nil_left]; exact (hcons hl2).2
    | cons a t1 =>
      obtain ⟨hi, na, hna, ht1⟩ := (isChain_cons h i a t1).1 hc1
      subst hi
      have hnd1 := List.nodup_cons.1 (isChain_nodup hc1)
      have hka : k ≠ a := fun e => hk1 (e ▸ List.mem_cons_self a t1)
      have hkt1 : k ∉ t1 := fun e => hk1 (List.mem_cons_of_mem a e)
      cases l2 with
      | nil =>
        have hj := (isChain_nil h j).1 hc2
        subst hj
        obtain ⟨h', k', hrun, _, hcons, hfr, hcv⟩ :=
          merge_rest_spec (a :: t1) f2 h (some a) k kn (by simpa using hf2) hc1 hk1 hkn
        have hcons' := hcons (by simp)
        refine ⟨h', k', ?_, ?_, ?_, fun x hxk hx1 _ => hfr x hxk hx1, hcv⟩
        · have hloop : merge_loop f h (some a) none (some k) = some (h, some a, none, some k) := by
            unfold merge_loop; rfl
          have hrest : merge_rest f2 h' none (some k') = some (h', some k') := by
            cases f2 <;> simp [merge_rest]
          simp only [merge_loops, hloop, hrun, hrest]
        · rw [mergeL_nil_right]; exact hcons'.1
        · rw [mergeL_nil_right]; exact hcons'.2
      | cons b t2 =>
        obtain ⟨hj, nb, hnb, ht2⟩ := (isChain_cons h j b t2).1 hc2
        subst hj
        have hnd2 := List.nodup_cons.1 (isChain_nodup hc2)
        have hkb : k ≠ b := fun e => hk2 (e ▸ List.mem_cons_self b t2)
        have hkt2 : k ∉ t2 := fun e => hk2 (List.mem_cons_of_mem b e)
        have hab : a ≠ b := fun e => hdisj a (List.mem_cons_self a t1) (e ▸ List.mem_cons_self b t2)
        obtain ⟨na', iv, hna', hiv, hbi⟩ := cell_of_valuePresent (hv1 a (List.mem_cons_self a t1))
        obtain ⟨nb', jv, hnb', hjv, hbj⟩ := cell_of_valuePresent (hv2 b (List.mem_cons_self b t2))
        have e1 : na' = na := by simpa [hna] using hna'.symm
        have e2 : nb' = nb := by simpa [hnb] using hnb'.symm
        subst e1; subst e2
        cases f with
        | zero => simp at hf
        | succ f =>
          by_cases hlt : strcmp iv jv < 0
          · -- the node of the first list is linked
            let h1 : Heap := Function.update h k (some { kn with next := some a })
            have hcv1 : ∀ x, cellValue h1 x = cellValue h x :=
              fun x => cellValue_update_next hkn (some a) x
            have hna1 : h1 a = some na' := by simp [h1, Function.update, hka.symm, hna]
            have hk1' : h1 k = some { kn with next := some a } := by simp [h1]
            obtain ⟨h', k', hrun, hch, hlast, hfr, hcv⟩ :=
              ih t1 (b :: t2) f f2 h1 na'.next (some b) a na'
                (by simp at hn ⊢; omega) (by omega) (by simp at hf2 ⊢; omega)
                (isChain_update hkt1 ht1) (isChain_update hk2 hc2)
                (fun x hx => hdisj x (List.mem_cons_of_mem a hx)) hnd1.1
                (hdisj a (List.mem_cons_self a t1)) hna1
                (valuesPresent_congr hcv1 (fun x hx => hv1 x (List.mem_cons_of_mem a hx)))
                (valuesPresent_congr hcv1 hv2) (Or.inr (by simp))
            rw [ltAt_congr hcv1] at hch hlast
            have hm : mergeL (ltAt h) (a :: t1) (b :: t2) =
                a :: mergeL (ltAt h) t1 (b :: t2) := by
              simp [mergeL, ltAt, hbi, hbj, hlt]
            have hk' : h' k = some { kn with next := some a } := by
              rw [hfr k hka hkt1 hk2]; exact hk1'
            refine ⟨h', k', ?_, ?_, ?_, ?_, fun x => (hcv x).trans (hcv1 x)⟩
            · have hloop : merge_loop (f + 1) h (some a) (some b) (some k) =
                  merge_loop f h1 na'.next (some b) (some a) := by
                rw [merge_loop]
                simp only [get_value_of_cell hna, get_value_of_cell hnb, hiv, hjv,
                  Option.bind_eq_bind, Option.some_bind, hlt, if_true, set_next_of_cell hkn]
                rw [get_next_of_cell hna1, get_next_of_cell hk1']
                rfl
              simp only [merge_loops, hloop]
              simpa only [merge_loops] using hrun
            · rw [hm]
              exact (isChain_cons h' (some k) k _).2 ⟨rfl, _, hk', hch⟩
            · rw [hm, getLast?_cons_of_ne_nil (mergeL_ne_nil _ _ _ (Or.inr (by simp)))]
              exact hlast
            · intro x hxk hx1 hx2
              have hxa : x ≠ a := fun e => hx1 (e ▸ List.mem_cons_self a t1)
              rw [hfr x hxa (fun e => hx1 (List.mem_cons_of_mem a e)) hx2]
              simp [h1, Function.update, hxk]
          · -- the node of the second list is linked
            let h1 : Heap := Function.update h k (some { kn with next := some b })
            have hcv1 : ∀ x, cellValue h1 x = cellValue h x :=
              fun x => cellValue_update_next hkn (some b) x
            have hnb1 : h1 b = some nb' := by simp [h1, Function.update, hkb.symm, hnb]
            have hk1' : h1 k = some { kn with next := some b } := by simp [h1]
            obtain ⟨h', k', hrun, hch, hlast, hfr, hcv⟩ :=
              ih (a :: t1) t2 f f2 h1 (some a) nb'.next b nb'
                (by simp at hn ⊢; omega) (by omega) (by simp at hf2 ⊢; omega)
                (isChain_update hk1 hc1) (isChain_update hkt2 ht2)
                (fun x hx hx2 => hdisj x hx (List.mem_cons_of_mem b hx2))
                (fun e => hdisj b e (List.mem_cons_self b t2)) hnd2.1 hnb1
                (valuesPresent_congr hcv1 hv1)
                (valuesPresent_congr hcv1 (fun x hx => hv2 x (List.mem_cons_of_mem b hx)))
                (Or.inl (by simp))
            rw [ltAt_congr hcv1] at hch hlast
            have hm : mergeL (ltAt h) (a :: t1) (b :: t2) =
                b :: mergeL (ltAt h) (a :: t1) t2 := by
              simp [mergeL, ltAt, hbi, hbj, hlt]
            have hk' : h' k = some { kn with next := some b } := by
              rw [hfr k hkb hk1 hkt2]; exact hk1'
            refine ⟨h', k', ?_, ?_, ?_, ?_, fun x => (hcv x).trans (hcv1 x)⟩
            · have hloop : merge_loop (f + 1) h (some a) (some b) (some k) =
                  merge_loop f h1 (some a) nb'.next (some b) := by
                rw [merge_loop]
                simp only [get_value_of_cell hna, get_value_of_cell hnb, hiv, hjv,
                  Option.bind_eq_bind, Option.some_bind, hlt, if_false, set_next_of_cell hkn]
                rw [get_next_of_cell hnb1, get_next_of_cell hk1']
                rfl
              simp only [merge_loops, hloop]
              simpa only [merge_loops] using hrun
            · rw [hm]
              exact (isChain_cons h' (some k) k _).2 ⟨rfl, _, hk', hch⟩
            · rw [hm, getLast?_cons_of_ne_nil (mergeL_ne_nil _ _ _ (Or.inl (by simp)))]
              exact hlast
            · intro x hxk hx1 hx2
              have hxb : x ≠ b := fun e => hx2 (e ▸ List.mem_cons_self b t2)
              rw [hfr x hxb hx1 (fun e => hx2 (List.mem_cons_of_mem b e))]
              simp [h1, Function.update, hxk]


theorem mergeL_perm (lt : Nat → Nat → Bool) :
    ∀ (l1 l2 : List Nat), (mergeL lt l1 l2).Perm (l1 ++ l2) := by
  intro l1
  induction l1 with
  | nil => intro l2; simp [mergeL]
  | cons a t1 ih1 =>
    intro l2
    induction l2 with
    | nil => simp [mergeL]
    | cons b t2 ih2 =>
      simp only [mergeL]
      split
      · exact (ih1 (b :: t2)).cons a
      · refine (ih2.cons b).trans ?_
        have : (b :: (a :: t1 ++ t2)).Perm (a :: t1 ++ b :: t2) :=
          (@List.perm_middle _ b (a :: t1) t2).symm
        exact this

theorem msortL_perm (lt : Nat → Nat → Bool) :
    ∀ (fuel : Nat) (l : List Nat), (msortL lt fuel l).Perm l := by
  intro fuel
  induction fuel with
  | zero => intro l; simp [msortL]
  | succ f ih =>
    intro l
    simp only [msortL]
    split
    · exact List.Perm.refl l
    · refine (mergeL_perm lt _ _).trans ?_
      refine ((ih _).append (ih _)).trans ?_
      rw [List.take_append_drop]

theorem merge_spec (fuel : Nat) (h : Heap) (q : queue_t) (q1 q2 : Option Nat)
    (l1 l2 : List Nat) (hc1 : isChain h q1 l1) (hc2 : isChain h q2 l2)
    (hne1 : l1 ≠ []) (hne2 : l2 ≠ []) (hdisj : ∀ x ∈ l1, x ∉ l2)
    (hv1 : ValuesPresent h l1) (hv2 : ValuesPresent h l2)
    (hf : l1.length + l2.length ≤ fuel) :
    ∃ h', merge fuel h q q1 q2 =
        some (h', { q with head := (mergeL (ltAt h) l1 l2).head?,
                           tail := (mergeL (ltAt h) l1 l2).getLast? },
          (mergeL (ltAt h) l1 l2).head?) ∧
      isChain h' (mergeL (ltAt h) l1 l2).head? (mergeL (ltAt h) l1 l2) ∧
      (∀ x, x ∉ l1 → x ∉ l2 → h' x = h x) ∧
      (∀ x, cellValue h' x = cellValue h x) := by
  cases l1 with
  | nil => exact absurd rfl hne1
  | cons a t1 =>
    cases l2 with
    | nil => exact absurd rfl hne2
    | cons b t2 =>
      obtain ⟨hi, na, hna, ht1⟩ := (isChain_cons h q1 a t1).1 hc1
      obtain ⟨hj, nb, hnb, ht2⟩ := (isChain_cons h q2 b t2).1 hc2
      subst hi; subst hj
      have hnd1 := List.nodup_cons.1 (isChain_nodup hc1)
      have hnd2 := List.nodup_cons.1 (isChain_nodup hc2)
      obtain ⟨na', iv, hna', hiv, hbi⟩ := cell_of_valuePresent (hv1 a (List.mem_cons_self a t1))
      obtain ⟨nb', jv, hnb', hjv, hbj⟩ := cell_of_valuePresent (hv2 b (List.mem_cons_self b t2))
      have e1 : na' = na := by simpa [hna] using hna'.symm
      have e2 : nb' = nb := by simpa [hnb] using hnb'.symm
      subst e1; subst e2
      by_cases hlt : strcmp iv jv < 0
      · have hm : mergeL (ltAt h) (a :: t1) (b :: t2) = a :: mergeL (ltAt h) t1 (b :: t2) := by
          simp [mergeL, ltAt, hbi, hbj, hlt]
        obtain ⟨h', k', hrun, hch, hlast, hfr, hcv⟩ :=
          merge_loops_spec (t1.length + (b :: t2).length) t1 (b :: t2) fuel fuel h na'.next
            (some b) a na' (le_refl _) (by simp at hf ⊢; omega) (by simp at hf ⊢; omega)
            ht1 hc2 (fun x hx => hdisj x (List.mem_cons_of_mem a hx)) hnd1.1
            (hdisj a (List.mem_cons_self a t1)) hna
            (fun x hx => hv1 x (List.mem_cons_of_mem a hx)) hv2 (Or.inr (by simp))
        refine ⟨h', ?_, ?_, ?_, hcv⟩
        · simp only [merge, get_value_of_cell hna, get_value_of_cell hnb, hiv, hjv,
            Option.bind_eq_bind, Option.some_bind, hlt, if_true, get_next_of_cell hna,
            Option.map_some', hrun, hm, List.head?_cons,
            getLast?_cons_of_ne_nil (mergeL_ne_nil _ _ _ (Or.inr (List.cons_ne_nil b t2))),
            ← hlast]
        · rw [hm]; exact hch
        · intro x hx1 hx2
          have hxa : x ≠ a := fun e => hx1 (e ▸ List.mem_cons_self a t1)
          exact hfr x hxa (fun e => hx1 (List.mem_cons_of_mem a e)) hx2
      · have hm : mergeL (ltAt h) (a :: t1) (b :: t2) = b :: mergeL (ltAt h) (a :: t1) t2 := by
          simp [mergeL, ltAt, hbi, hbj, hlt]
        obtain ⟨h', k', hrun, hch, hlast, hfr, hcv⟩ :=
          merge_loops_spec ((a :: t1).length + t2.length) (a :: t1) t2 fuel fuel h (some a)
            nb'.next b nb' (le_refl _) (by simp at hf ⊢; omega) (by simp at hf ⊢; omega)
            hc1 ht2 (fun x hx hx2 => hdisj x hx (List.mem_cons_of_mem b hx2))
            (fun e => hdisj b e (List.mem_cons_self b t2)) hnd2.1 hnb hv1
            (fun x hx => hv2 x (List.mem_cons_of_mem b hx)) (Or.inl (by simp))
        refine ⟨h', ?_, ?_, ?_, hcv⟩
        · simp only [merge, get_value_of_cell hna, get_value_of_cell hnb, hiv, hjv,
            Option.bind_eq_bind, Option.some_bind, hlt, if_false, get_next_of_cell hnb,
            Option.map_some', hrun, hm, List.head?_cons,
            getLast?_cons_of_ne_nil (mergeL_ne_nil _ _ _ (Or.inl (List.cons_ne_nil a t1))),
            ← hlast]
        · rw [hm]; exact hch
        · intro x hx1 hx2
          have hxb : x ≠ b := fun e => hx2 (e ▸ List.mem_cons_self b t2)
          exact hfr x hxb hx1 (fun e => hx2 (List.mem_cons_of_mem b e))


/-! ## The recursion of merge_sort -/

theorem merge_sort_spec (fuel : Nat) :
    ∀ (l : List Nat) (h : Heap) (q : queue_t) (a : Option Nat),
      2 * l.length + 1 ≤ fuel → isChain h a l → ValuesPresent h l →
      ∃ h' q', merge_sort fuel h q a = some (h', q', (msortL (ltAt h) fuel l).head?) ∧
        isChain h' (msortL (ltAt h) fuel l).head? (msortL (ltAt h) fuel l) ∧
        (2 ≤ l.length → q'.head = (msortL (ltAt h) fuel l).head? ∧
          q'.tail = (msortL (ltAt h) fuel l).getLast?) ∧
        q'.size = q.size ∧
        (l.length < 2 → q' = q ∧ h' = h) ∧
        (∀ x, x ∉ l → h' x = h x) ∧
        (∀ x, cellValue h' x = cellValue h x) := by
  induction fuel with
  | zero => intro l h q a hf; omega
  | succ f ih =>
    intro l h q a hf hc hv
    by_cases hlen : l.length < 2
    · have hS : msortL (ltAt h) (f + 1) l = l := by simp [msortL, hlen]
      rw [hS]
      refine ⟨h, q, ?_, ?_, fun h2 => by omega, rfl, fun _ => ⟨rfl, rfl⟩, fun _ _ => rfl,
        fun _ => rfl⟩
      · cases l with
        | nil =>
          have := (isChain_nil h a).1 hc
          subst this
          simp [merge_sort]
        | cons b t =>
          have ht : t = [] := List.length_eq_zero.1 (by simp at hlen; omega)
          subst ht
          obtain ⟨hp, node, hn, hnil⟩ := (isChain_cons h a b []).1 hc
          have hnx := (isChain_nil h node.next).1 hnil
          subst hp
          simp [merge_sort, get_next_of_cell hn, hnx]
      · rw [← isChain_head hc]; exact hc
    · have hlen2 : 2 ≤ l.length := by omega
      obtain ⟨p, hp⟩ : ∃ p, a = some p := by
        cases l with
        | nil => simp at hlen2
        | cons b t => exact ⟨b, ((isChain_cons h a b t).1 hc).1⟩
      subst hp
      obtain ⟨h1, hsplit, hc1, hc2, hfr1, hcv1⟩ :=
        find_mid_and_split_spec f h p l hc (by omega)
      have hnd := isChain_nodup hc
      rw [← List.take_append_drop ((l.length + 1) / 2) l] at hnd
      have hdisj := List.disjoint_of_nodup_append hnd
      have hl1 : (l.take ((l.length + 1) / 2)).length = (l.length + 1) / 2 := by
        rw [List.length_take]; omega
      have hl2 : (l.drop ((l.length + 1) / 2)).length = l.length - (l.length + 1) / 2 := by
        rw [List.length_drop]
      have hv1 : ValuesPresent h1 (l.take ((l.length + 1) / 2)) :=
        valuesPresent_congr hcv1 (fun x hx => hv x (List.mem_of_mem_take hx))
      have hv2 : ValuesPresent h1 (l.drop ((l.length + 1) / 2)) :=
        valuesPresent_congr hcv1 (fun x hx => hv x (List.mem_of_mem_drop hx))
      -- the first half
      obtain ⟨h2, q2, hrun2, hch2, _, hsz2, _, hfr2, hcv2⟩ :=
        ih (l.take ((l.length + 1) / 2)) h1 q (some p) (by rw [hl1]; omega) hc1 hv1
      have hp1 := msortL_perm (ltAt h1) f (l.take ((l.length + 1) / 2))
      -- the second half
      have hc2' : isChain h2 (l.drop ((l.length + 1) / 2)).head? (l.drop ((l.length + 1) / 2)) :=
        isChain_congr (fun x hx => hfr2 x (fun e => hdisj e hx)) hc2
      obtain ⟨h3, q3, hrun3, hch3, _, hsz3, _, hfr3, hcv3⟩ :=
        ih (l.drop ((l.length + 1) / 2)) h2 q2 _ (by rw [hl2]; omega) hc2'
          (valuesPresent_congr hcv2 hv2)
      have hp2 := msortL_perm (ltAt h2) f (l.drop ((l.length + 1) / 2))
      have hlt2 : ltAt h2 = ltAt h := (ltAt_congr hcv2).trans (ltAt_congr hcv1)
      have hlt1 : ltAt h1 = ltAt h := ltAt_congr hcv1
      have hlt3 : ltAt h3 = ltAt h := (ltAt_congr hcv3).trans hlt2
      rw [hlt1] at hrun2 hch2 hp1
      rw [hlt2] at hrun3 hch3 hp2
      have hch2' : isChain h3 (msortL (ltAt h) f (l.take ((l.length + 1) / 2))).head?
          (msortL (ltAt h) f (l.take ((l.length + 1) / 2))) :=
        isChain_congr (fun x hx => hfr3 x (fun e => hdisj (hp1.mem_iff.1 hx) e)) hch2
      have hcv13 : ∀ x, cellValue h3 x = cellValue h x :=
        fun x => ((hcv3 x).trans (hcv2 x)).trans (hcv1 x)
      obtain ⟨h4, hrun4, hch4, hfr4, hcv4⟩ :=
        merge_spec f h3 q3 _ _ _ _ hch2' hch3
          (fun e => by
            have := congrArg List.length e
            rw [hp1.length_eq, hl1] at this
            simp at this; omega)
          (fun e => by
            have := congrArg List.length e
            rw [hp2.length_eq, hl2] at this
            simp at this; omega)
          (fun x hx hx2 => hdisj (hp1.mem_iff.1 hx) (hp2.mem_iff.1 hx2))
          (valuesPresent_congr hcv13 (fun x hx => hv x (List.mem_of_mem_take (hp1.mem_iff.1 hx))))
          (valuesPresent_congr hcv13 (fun x hx => hv x (List.mem_of_mem_drop (hp2.mem_iff.1 hx))))
          (by rw [hp1.length_eq, hp2.length_eq, hl1, hl2]; omega)
      rw [hlt3] at hrun4 hch4
      have hS : msortL (ltAt h) (f + 1) l =
          mergeL (ltAt h) (msortL (ltAt h) f (l.take ((l.length + 1) / 2)))
            (msortL (ltAt h) f (l.drop ((l.length + 1) / 2))) := by
        simp [msortL, hlen]
      rw [hS]
      obtain ⟨n, hn⟩ : ∃ n, get_next h (some p) = some (some n) := by
        cases l with
        | nil => simp at hlen2
        | cons b t =>
          cases t with
          | nil => simp at hlen2
          | cons b2 t2 =>
            obtain ⟨hpb, node, hnode, hrest⟩ := (isChain_cons h (some p) b (b2 :: t2)).1 hc
            have hpb' : p = b := by simpa using hpb
            subst hpb'
            exact ⟨b2, by rw [get_next_of_cell hnode, ((isChain_cons h _ b2 t2).1 hrest).1]⟩
      refine ⟨h4,
        { q3 with
          head := (mergeL (ltAt h) (msortL (ltAt h) f (l.take ((l.length + 1) / 2)))
            (msortL (ltAt h) f (l.drop ((l.length + 1) / 2)))).head?,
          tail := (mergeL (ltAt h) (msortL (ltAt h) f (l.take ((l.length + 1) / 2)))
            (msortL (ltAt h) f (l.drop ((l.length + 1) / 2)))).getLast? },
        ?_, hch4, fun _ => ⟨rfl, rfl⟩, hsz3.trans hsz2, fun h2 => by omega, ?_, ?_⟩
      · simp only [merge_sort, hn, Option.bind_eq_bind, Option.some_bind, hsplit, hrun2, hrun3,
          hrun4]
      · intro x hx
        have hx1 : x ∉ l.take ((l.length + 1) / 2) := fun e => hx (List.mem_of_mem_take e)
        have hx2 : x ∉ l.drop ((l.length + 1) / 2) := fun e => hx (List.mem_of_mem_drop e)
        rw [hfr4 x (fun e => hx1 (hp1.mem_iff.1 e)) (fun e => hx2 (hp2.mem_iff.1 e)),
          hfr3 x hx2, hfr2 x hx1, hfr1 x hx]
      · intro x
        exact (hcv4 x).trans (hcv13 x)


/-! ## The order of the sort -/

theorem strcmp_swap : ∀ (a b : List Nat), strcmp b a = - strcmp a b := by
  intro a
  induction a with
  | nil =>
    intro b
    cases b with
    | nil => simp [strcmp]
    | cons y bs => simp [strcmp]
  | cons x as ih =>
    intro b
    cases b with
    | nil => simp [strcmp]
    | cons y bs =>
      simp only [strcmp]
      by_cases hxy : x = y
      · subst hxy
        by_cases hx : x = 0
        · simp [hx]
        · simp [hx, ih bs]
      · have hyx : ¬ y = x := fun e => hxy e.symm
        simp [hxy, hyx]

theorem strcmp_le_trans : ∀ (a b c : List Nat),
    strcmp a b ≤ 0 → strcmp b c ≤ 0 → strcmp a c ≤ 0 := by
  intro a
  induction a with
  | nil =>
    intro b c _ _
    cases c with
    | nil => simp [strcmp]
    | cons z cs => simp [strcmp]
  | cons x as ih =>
    intro b c hab hbc
    cases b with
    | nil =>
      have hx : x = 0 := by simp [strcmp] at hab; omega
      subst hx
      cases c with
      | nil => simp [strcmp]
      | cons z cs =>
        simp only [strcmp]
        split_ifs <;> simp
    | cons y bs =>
      cases c with
      | nil =>
        have hy : y = 0 := by simp [strcmp] at hbc; omega
        subst hy
        simp only [strcmp] at hab ⊢
        split_ifs at hab <;> omega
      | cons z cs =>
        simp only [strcmp] at hab hbc ⊢
        by_cases hxy : x = y
        · subst hxy
          by_cases hxz : x = z
          · subst hxz
            by_cases hx : x = 0
            · simp [hx]
            · simp only [if_true, hx, if_false] at hab hbc ⊢
              exact ih bs cs hab hbc
          · simp only [hxz, if_false] at hbc ⊢
            exact hbc
        · simp only [hxy, if_false] at hab
          by_cases hyz : y = z
          · subst hyz
            simp only [hxy, if_false]
            exact hab
          · simp only [hyz, if_false] at hbc
            have hxz : ¬ x = z := by omega
            simp only [hxz, if_false]
            omega

theorem leAt_trans (h : Heap) {x y z : Nat} (h1 : leAt h x y) (h2 : leAt h y z) :
    leAt h x z :=
  strcmp_le_trans _ _ _ h1 h2

theorem leAt_of_ltAt {h : Heap} {x y : Nat} (hlt : ltAt h x y = true) : leAt h x y := by
  simp only [ltAt, decide_eq_true_eq] at hlt
  exact le_of_lt hlt

theorem leAt_of_not_ltAt {h : Heap} {x y : Nat} (hlt : ¬ ltAt h x y = true) : leAt h y x := by
  simp only [ltAt, decide_eq_true_eq] at hlt
  unfold leAt
  rw [strcmp_swap]
  omega

theorem mergeL_pairwise (h : Heap) :
    ∀ (l1 l2 : List Nat), l1.Pairwise (leAt h) → l2.Pairwise (leAt h) →
      (mergeL (ltAt h) l1 l2).Pairwise (leAt h) := by
  intro l1
  induction l1 with
  | nil => intro l2 _ h2; simpa [mergeL] using h2
  | cons a t1 ih1 =>
    intro l2
    induction l2 with
    | nil => intro h1 _; simpa [mergeL] using h1
    | cons b t2 ih2 =>
      intro h1 h2
      have h1' := List.pairwise_cons.1 h1
      have h2' := List.pairwise_cons.1 h2
      simp only [mergeL]
      split
      · rename_i hlt
        refine List.pairwise_cons.2 ⟨?_, ih1 (b :: t2) h1'.2 h2⟩
        intro x hx
        rcases List.mem_append.1 ((mergeL_perm _ _ _).mem_iff.1 hx) with hx | hx
        · exact h1'.1 x hx
        · rcases List.mem_cons.1 hx with rfl | hx
          · exact leAt_of_ltAt hlt
          · exact leAt_trans h (leAt_of_ltAt hlt) (h2'.1 x hx)
      · rename_i hlt
        refine List.pairwise_cons.2 ⟨?_, ih2 h1 h2'.2⟩
        intro x hx
        rcases List.mem_append.1 ((mergeL_perm _ _ _).mem_iff.1 hx) with hx | hx
        · rcases List.mem_cons.1 hx with rfl | hx
          · exact leAt_of_not_ltAt hlt
          · exact leAt_trans h (leAt_of_not_ltAt hlt) (h1'.1 x hx)
        · exact h2'.1 x hx

theorem msortL_pairwise (h : Heap) :
    ∀ (fuel : Nat) (l : List Nat), l.length ≤ fuel →
      (msortL (ltAt h) fuel l).Pairwise (leAt h) := by
  intro fuel
  induction fuel with
  | zero =>
    intro l hl
    have : l = [] := List.length_eq_zero.1 (by omega)
    subst this
    simp [msortL]
  | succ f ih =>
    intro l hl
    simp only [msortL]
    split
    · rename_i hlen
      cases l with
      | nil => exact List.Pairwise.nil
      | cons a t =>
        have : t = [] := List.length_eq_zero.1 (by simp at hlen; omega)
        subst this
        exact List.pairwise_singleton _ _
    · rename_i hlen
      apply mergeL_pairwise
      · apply ih; rw [List.length_take]; omega
      · apply ih; rw [List.length_drop]; omega


/-! ## q_sort -/

theorem chain_last_next {h : Heap} {p : Option Nat} {l : List Nat} {t : Nat}
    (hc : isChain h p l) (hl : l.getLast? = some t) :
    ∃ node, h t = some node ∧ node.next = none := by
  have hc' : isChain h p (l ++ []) := by simpa using hc
  obtain ⟨ns, hns, hnext, _, _⟩ := chain_cut l p [] t hc' hl
  exact ⟨ns, hns, by simpa using hnext⟩

theorem leAt_congr {h h' : Heap} (hv : ∀ x, cellValue h' x = cellValue h x) :
    leAt h' = leAt h := by
  funext x y
  simp [leAt, bytesAt_congr (hv x), bytesAt_congr (hv y)]

theorem q_sort_spec (fuel : Nat) (h : Heap) (q : queue_t) (l : List Nat)
    (hc : isChain h q.head l) (hs : q.size ≠ 0) (h2 : 2 ≤ l.length)
    (hv : ValuesPresent h l) (hf : 2 * l.length + 1 ≤ fuel) :
    ∃ h' q' l', q_sort fuel h (some q) = some (h', some q') ∧
      isChain h' q'.head l' ∧ l'.Pairwise (leAt h') ∧ l'.Perm l ∧
      q'.head = l'.head? ∧ q'.tail = l'.getLast? ∧ q'.size = q.size ∧
      (∀ x, x ∉ l → h' x = h x) ∧ (∀ x, cellValue h' x = cellValue h x) := by
  obtain ⟨h', q', hrun, hch, hht, hsz, _, hfr, hcv⟩ :=
    merge_sort_spec fuel l h q q.head hf hc hv
  obtain ⟨hhead, htail⟩ := hht h2
  cases l with
  | nil => simp at h2
  | cons a t =>
    cases t with
    | nil => simp at h2
    | cons b t2 =>
      obtain ⟨hp, node, hn, hrest⟩ := (isChain_cons h q.head a (b :: t2)).1 hc
      have hnext : node.next = some b := ((isChain_cons h _ b t2).1 hrest).1
      refine ⟨h', q', msortL (ltAt h) fuel (a :: b :: t2), ?_, ?_, ?_, msortL_perm _ _ _,
        hhead, htail, hsz, hfr, hcv⟩
      · simp only [q_sort, hs, if_false, hp, get_next_of_cell hn, hnext, Option.bind_eq_bind,
          Option.some_bind]
        rw [← hp, hrun]
        rfl
      · rw [hhead]; exact hch
      · rw [leAt_congr hcv]
        exact msortL_pairwise h fuel _ (by simp at hf ⊢; omega)

theorem q_sort_small (fuel : Nat) (h : Heap) (q : queue_t) (l : List Nat)
    (hc : isChain h q.head l) (hsmall : q.size = 0 ∨ l.length < 2) :
    q_sort fuel h (some q) = some (h, some q) := by
  by_cases hs : q.size = 0
  · simp [q_sort, hs]
  · have hlen : l.length < 2 := by
      rcases hsmall with e | e
      · exact absurd e hs
      · exact e
    cases l with
    | nil =>
      have := (isChain_nil h q.head).1 hc
      simp [q_sort, hs, this]
    | cons a t =>
      have ht : t = [] := List.length_eq_zero.1 (by simp at hlen; omega)
      subst ht
      obtain ⟨hp, node, hn, hnil⟩ := (isChain_cons h q.head a []).1 hc
      have hnx := (isChain_nil h node.next).1 hnil
      simp [q_sort, hs, hp, get_next_of_cell hn, hnx]


/-! ## Truncation by q_remove_head -/

theorem size_t_pred_pos (c : Nat) (h1 : 1 ≤ c) (h2 : c < 2 ^ 64) : size_t_pred c = c - 1 := by
  unfold size_t_pred
  have : c + (2 ^ 64 - 1) = (c - 1) + 2 ^ 64 := by omega
  rw [this, Nat.add_mod_right, Nat.mod_eq_of_lt (by omega)]

/-- Truncation below the length: when the capacity `c` is at least 1 and
smaller than the length of the front string, `q_remove_head` leaves the first
`c - 1` characters followed by a zero in the first `c` bytes of the buffer and
does not touch the bytes behind them. -/
theorem q_remove_head_truncates (h : Heap) (q : queue_t) (a : Nat) (t : List Nat)
    (buf v : List Nat) (c : Nat) (hc : isChain h q.head (a :: t)) (hs : q.size ≠ 0)
    (hv : valueAt h a = some v) (hc1 : 1 ≤ c) (hcap : c < strlen v) (hbuf : c ≤ buf.length)
    (hmax : c < 2 ^ 64) :
    q_remove_head h (some q) (some buf) c =
      some (true, free_ele h a,
        some { head := t.head?, tail := q.tail, size := q.size - 1 },
        some ((cstr v).take (c - 1) ++ [0] ++ buf.drop c)) := by
  obtain ⟨hp, node, hn, ht⟩ := (isChain_cons h q.head a t).1 hc
  have hval : node.value = some v := by simpa [valueAt, hn] using hv
  have hnext : node.next = t.head? := isChain_head ht
  have hgt : strlen v > c := hcap
  have hmem : memset buf 0 c = some (List.replicate c 0 ++ buf.drop c) := by
    simp [memset, hbuf]
  have hcpy : strncpy (List.replicate c 0 ++ buf.drop c) v (c - 1) =
      some ((cstr v).take (c - 1) ++ [0] ++ buf.drop c) := by
    have hle : c - 1 ≤ (List.replicate c 0 ++ List.drop c buf).length := by simp; omega
    have hz : c - 1 - strlen v = 0 := by omega
    simp only [strncpy, hle, if_true, hz, List.replicate_zero, List.append_nil]
    rw [List.drop_append_of_le_length (by simp), List.drop_replicate]
    have : c - (c - 1) = 1 := by omega
    rw [this]
    simp
  simp only [q_remove_head, hs, if_false, hp, hn, hval, hgt, if_true,
    size_t_pred_pos c hc1 hmax, hmem, hcpy, hnext]

/-! ## Sorting a sorted chain -/

theorem cstr_nil : cstr [] = [] := rfl

theorem cstr_cons_zero (t : List Nat) : cstr (0 :: t) = [] := by
  simp [cstr, List.takeWhile_cons]

theorem cstr_cons_ne {a : Nat} (ha : a ≠ 0) (t : List Nat) : cstr (a :: t) = a :: cstr t := by
  simp [cstr, List.takeWhile_cons, ha]

theorem cstr_idem (s : List Nat) : cstr (cstr s) = cstr s := by
  induction s with
  | nil => rfl
  | cons a t ih =>
    by_cases ha : a = 0
    · subst ha; rw [cstr_cons_zero]; rfl
    · rw [cstr_cons_ne ha, cstr_cons_ne ha, ih]

theorem strcmp_cstr : ∀ (x y : List Nat), strcmp (cstr x) (cstr y) = strcmp x y := by
  intro x
  induction x with
  | nil =>
    intro y
    cases y with
    | nil => rfl
    | cons b bs =>
      by_cases hb : b = 0
      · subst hb; rw [cstr_cons_zero]; simp [cstr_nil, strcmp]
      · rw [cstr_cons_ne hb]; simp [cstr_nil, strcmp]
  | cons a as ih =>
    intro y
    by_cases ha : a = 0
    · subst ha
      rw [cstr_cons_zero]
      cases y with
      | nil => simp [cstr_nil, strcmp]
      | cons b bs =>
        by_cases hb : b = 0
        · subst hb; rw [cstr_cons_zero]; simp [strcmp]
        · rw [cstr_cons_ne hb]
          have : ¬ 0 = b := fun e => hb e.symm
          simp [strcmp, this]
    · rw [cstr_cons_ne ha]
      cases y with
      | nil => simp [cstr_nil, strcmp]
      | cons b bs =>
        by_cases hb : b = 0
        · subst hb; rw [cstr_cons_zero]; simp [strcmp, ha]
        · rw [cstr_cons_ne hb]
          simp only [strcmp, ih bs]

theorem strcmp_eq_zero : ∀ (x y : List Nat), strcmp x y = 0 → cstr x = cstr y := by
  intro x
  induction x with
  | nil =>
    intro y hxy
    cases y with
    | nil => rfl
    | cons b bs =>
      have hb : b = 0 := by simp [strcmp] at hxy; omega
      subst hb; rw [cstr_cons_zero]; rfl
  | cons a as ih =>
    intro y hxy
    cases y with
    | nil =>
      have ha : a = 0 := by simp [strcmp] at hxy; omega
      subst ha; rw [cstr_cons_zero]; rfl
    | cons b bs =>
      simp only [strcmp] at hxy
      by_cases hab : a = b
      · subst hab
        by_cases ha : a = 0
        · subst ha; rw [cstr_cons_zero, cstr_cons_zero]
        · simp only [if_true, ha, if_false] at hxy
          rw [cstr_cons_ne ha, cstr_cons_ne ha, ih bs hxy]
      · simp only [hab, if_false] at hxy
        omega

theorem sorted_perm_values (h : Heap) {l1 l2 : List Nat} (hp : l1.Perm l2)
    (h1 : l1.Pairwise (leAt h)) (h2 : l2.Pairwise (leAt h)) :
    (chainValues h l1).map cstr = (chainValues h l2).map cstr := by
  unfold chainValues
  refine @List.Perm.eq_of_sorted _ (fun x y => strcmp x y ≤ 0) _ _ ?_ ?_ ?_ ?_
  · intro x y hx hy hxy hyx
    obtain ⟨a, _, rfl⟩ := List.mem_map.1 hx
    obtain ⟨b, _, rfl⟩ := List.mem_map.1 hy
    have h0 : strcmp (cstr a) (cstr b) = 0 := by
      rw [strcmp_swap] at hyx; omega
    have := strcmp_eq_zero _ _ h0
    simpa [cstr_idem] using this
  · rw [List.pairwise_map, List.pairwise_map]
    exact h1.imp (fun {a b} hab => by simpa [leAt, strcmp_cstr] using hab)
  · rw [List.pairwise_map, List.pairwise_map]
    exact h2.imp (fun {a b} hab => by simpa [leAt, strcmp_cstr] using hab)
  · exact (hp.map _).map _

theorem chainValues_congr {h h' : Heap} (hv : ∀ x, cellValue h' x = cellValue h x)
    (l : List Nat) : chainValues h' l = chainValues h l := by
  unfold chainValues
  exact List.map_congr_left (fun a _ => bytesAt_congr (hv a))

theorem pairwise_of_chain_values (h : Heap) (l : List Nat)
    (hs : List.Chain' (fun x y => strcmp x y ≤ 0) (chainValues h l)) :
    l.Pairwise (leAt h) := by
  unfold chainValues at hs
  rw [List.chain'_map] at hs
  haveI : IsTrans Nat (leAt h) := ⟨fun _ _ _ hab hbc => leAt_trans h hab hbc⟩
  exact List.chain'_iff_pairwise.1 hs

/-- What `q_sort` does on any queue with present strings: it returns, the new
chain is a permutation of the old one, and it is sorted unless the call was a
no-op, in which case nothing changed. -/
theorem q_sort_any (fuel : Nat) (h : Heap) (q : queue_t) (l : List Nat)
    (hc : isChain h q.head l) (hv : ValuesPresent h l) (hf : 2 * l.length + 1 ≤ fuel) :
    ∃ h' q' l', q_sort fuel h (some q) = some (h', some q') ∧
      isChain h' q'.head l' ∧ l'.Perm l ∧ (∀ x, cellValue h' x = cellValue h x) ∧
      q'.size = q.size ∧
      (l'.Pairwise (leAt h') ∨ (h' = h ∧ q' = q ∧ l' = l)) := by
  by_cases hsmall : q.size = 0 ∨ l.length < 2
  · exact ⟨h, q, l, q_sort_small fuel h q l hc hsmall, hc, List.Perm.refl l, fun _ => rfl,
      rfl, Or.inr ⟨rfl, rfl, rfl⟩⟩
  · have hs0 : q.size ≠ 0 := fun e => hsmall (Or.inl e)
    have h2 : 2 ≤ l.length := by
      by_contra hlt
      exact hsmall (Or.inr (by omega))
    obtain ⟨h', q', l', hrun, hch, hpw, hperm, _, _, hsz, _, hcv⟩ :=
      q_sort_spec fuel h q l hc hs0 h2 hv hf
    exact ⟨h', q', l', hrun, hch, hperm, hcv, hsz, Or.inl hpw⟩

theorem q_sort_sorted_input (fuel : Nat) (h : Heap) (q : queue_t) (l : List Nat)
    (hc : isChain h q.head l) (hv : ValuesPresent h l) (hs : l.Pairwise (leAt h))
    (hf : 2 * l.length + 1 ≤ fuel) :
    ∃ h' q' l', q_sort fuel h (some q) = some (h', some q') ∧
      isChain h' q'.head l' ∧
      (chainValues h' l').map cstr = (chainValues h l).map cstr := by
  obtain ⟨h', q', l', hrun, hch, hperm, hcv, _, hcase⟩ := q_sort_any fuel h q l hc hv hf
  refine ⟨h', q', l', hrun, hch, ?_⟩
  rcases hcase with hpw | ⟨rfl, _, rfl⟩
  · rw [chainValues_congr hcv]
    rw [leAt_congr hcv] at hpw
    exact sorted_perm_values h hperm hpw hs
  · rfl

/-! ## Return values of the insertions -/

theorem valid_of_wellFormed {h : Heap} {q : queue_t} {l : List Nat} (hw : WellFormed h q l) :
    Valid h q l :=
  ⟨hw.1, hw.2.1, fun _ => hw.2.2⟩

theorem size_eq_zero_iff {q : queue_t} {l : List Nat} (hs : q.size = l.length) :
    q.size = 0 ↔ l = [] := by
  rw [hs]
  cases l with
  | nil => simp
  | cons a t => simp; omega

theorem q_insert_head_false (h : Heap) (q : Option queue_t) (s : Option (List Nat))
    (newh : Option Nat) (g : Option (Nat → Nat))
    (habs : q = none ∨ s = none ∨ newh = none ∨ g = none) :
    q_insert_head h q s newh g = some (false, h, q) := by
  cases q with
  | none => simp [q_insert_head]
  | some qv =>
    cases s with
    | none => simp [q_insert_head]
    | some sv =>
      cases newh with
      | none => simp [q_insert_head]
      | some na =>
        cases g with
        | none => simp [q_insert_head, malloc_bytes]
        | some gv => simp at habs

theorem q_insert_tail_false (h : Heap) (q : Option queue_t) (s : Option (List Nat))
    (newh : Option Nat) (g : Option (Nat → Nat))
    (habs : q = none ∨ s = none ∨ newh = none ∨ g = none) :
    q_insert_tail h q s newh g = some (false, h, q) := by
  cases q with
  | none => simp [q_insert_tail]
  | some qv =>
    cases s with
    | none => simp [q_insert_tail]
    | some sv =>
      cases newh with
      | none => simp [q_insert_tail]
      | some na =>
        cases g with
        | none => simp [q_insert_tail, malloc_bytes]
        | some gv => simp at habs

/-! ## Return values of q_remove_head -/

theorem q_remove_head_false (h : Heap) (q : Option queue_t) (sp : Option (List Nat)) (c : Nat)
    (habs : q = none ∨ q_size q = 0 ∨ sp = none) :
    q_remove_head h q sp c = some (false, h, q, sp) := by
  cases q with
  | none => simp [q_remove_head]
  | some qv =>
    by_cases h0 : qv.size = 0
    · simp [q_remove_head, h0]
    · cases sp with
      | none => simp [q_remove_head, h0]
      | some buf => simp [q_size, h0] at habs

theorem head?_eq_some_of_ne_nil {l : List Nat} (hl : l ≠ []) : ∃ a, l.head? = some a := by
  cases l with
  | nil => exact absurd rfl hl
  | cons a t => exact ⟨a, rfl⟩

theorem ne_nil_of_perm_length {l l' : List Nat} (hp : l'.Perm l) (hl : 0 < l.length) :
    l' ≠ [] := by
  intro e
  have := hp.length_eq
  rw [e] at this
  simp only [List.length_nil] at this
  omega

/-- One level of `merge_sort` on a chain of at least two nodes: the split, the
two recursive calls and the final call of `merge`, with the states between
them. -/
theorem merge_sort_unfold (f : Nat) (h : Heap) (q : queue_t) (p : Nat) (l : List Nat)
    (hc : isChain h (some p) l) (hlen2 : 2 ≤ l.length) (hv : ValuesPresent h l)
    (hf : 2 * l.length ≤ f) :
    ∃ h1 h2 q2 h3 q3,
      find_mid_and_split f h (some p) =
        some (h1, some (some p, (l.drop ((l.length + 1) / 2)).head?)) ∧
      isChain h1 (some p) (l.take ((l.length + 1) / 2)) ∧
      isChain h1 (l.drop ((l.length + 1) / 2)).head? (l.drop ((l.length + 1) / 2)) ∧
      merge_sort f h1 q (some p) =
        some (h2, q2, (msortL (ltAt h) f (l.take ((l.length + 1) / 2))).head?) ∧
      merge_sort f h2 q2 (l.drop ((l.length + 1) / 2)).head? =
        some (h3, q3, (msortL (ltAt h) f (l.drop ((l.length + 1) / 2))).head?) ∧
      isChain h3 (msortL (ltAt h) f (l.take ((l.length + 1) / 2))).head?
        (msortL (ltAt h) f (l.take ((l.length + 1) / 2))) ∧
      isChain h3 (msortL (ltAt h) f (l.drop ((l.length + 1) / 2))).head?
        (msortL (ltAt h) f (l.drop ((l.length + 1) / 2))) ∧
      msortL (ltAt h) f (l.take ((l.length + 1) / 2)) ≠ [] ∧
      msortL (ltAt h) f (l.drop ((l.length + 1) / 2)) ≠ [] ∧
      ValuesPresent h3 (msortL (ltAt h) f (l.take ((l.length + 1) / 2))) ∧
      ValuesPresent h3 (msortL (ltAt h) f (l.drop ((l.length + 1) / 2))) ∧
      merge_sort (f + 1) h q (some p) =
        merge f h3 q3 (msortL (ltAt h) f (l.take ((l.length + 1) / 2))).head?
          (msortL (ltAt h) f (l.drop ((l.length + 1) / 2))).head? ∧
      ∃ r, merge f h3 q3 (msortL (ltAt h) f (l.take ((l.length + 1) / 2))).head?
          (msortL (ltAt h) f (l.drop ((l.length + 1) / 2))).head? = some r := by
  obtain ⟨h1, hsplit, hc1, hc2, hfr1, hcv1⟩ := find_mid_and_split_spec f h p l hc (by omega)
  have hnd := isChain_nodup hc
  rw [← List.take_append_drop ((l.length + 1) / 2) l] at hnd
  have hdisj := List.disjoint_of_nodup_append hnd
  have hl1 : (l.take ((l.length + 1) / 2)).length = (l.length + 1) / 2 := by
    rw [List.length_take]; omega
  have hl2 : (l.drop ((l.length + 1) / 2)).length = l.length - (l.length + 1) / 2 := by
    rw [List.length_drop]
  have hv1 : ValuesPresent h1 (l.take ((l.length + 1) / 2)) :=
    valuesPresent_congr hcv1 (fun x hx => hv x (List.mem_of_mem_take hx))
  have hv2 : ValuesPresent h1 (l.drop ((l.length + 1) / 2)) :=
    valuesPresent_congr hcv1 (fun x hx => hv x (List.mem_of_mem_drop hx))
  obtain ⟨h2, q2, hrun2, hch2, _, _, _, hfr2, hcv2⟩ :=
    merge_sort_spec f (l.take ((l.length + 1) / 2)) h1 q (some p) (by rw [hl1]; omega) hc1 hv1
  have hp1 := msortL_perm (ltAt h1) f (l.take ((l.length + 1) / 2))
  have hc2' : isChain h2 (l.drop ((l.length + 1) / 2)).head? (l.drop ((l.length + 1) / 2)) :=
    isChain_congr (fun x hx => hfr2 x (fun e => hdisj e hx)) hc2
  obtain ⟨h3, q3, hrun3, hch3, _, _, _, hfr3, hcv3⟩ :=
    merge_sort_spec f (l.drop ((l.length + 1) / 2)) h2 q2 _ (by rw [hl2]; omega) hc2'
      (valuesPresent_congr hcv2 hv2)
  have hp2 := msortL_perm (ltAt h2) f (l.drop ((l.length + 1) / 2))
  have hlt2 : ltAt h2 = ltAt h := (ltAt_congr hcv2).trans (ltAt_congr hcv1)
  have hlt1 : ltAt h1 = ltAt h := ltAt_congr hcv1
  rw [hlt1] at hrun2 hch2 hp1
  rw [hlt2] at hrun3 hch3 hp2
  have hch2' : isChain h3 (msortL (ltAt h) f (l.take ((l.length + 1) / 2))).head?
      (msortL (ltAt h) f (l.take ((l.length + 1) / 2))) :=
    isChain_congr (fun x hx => hfr3 x (fun e => hdisj (hp1.mem_iff.1 hx) e)) hch2
  have hcv13 : ∀ x, cellValue h3 x = cellValue h x :=
    fun x => ((hcv3 x).trans (hcv2 x)).trans (hcv1 x)
  have hne1 := ne_nil_of_perm_length hp1 (by rw [hl1]; omega)
  have hne2 := ne_nil_of_perm_length hp2 (by rw [hl2]; omega)
  have hvs1 : ValuesPresent h3 (msortL (ltAt h) f (l.take ((l.length + 1) / 2))) :=
    valuesPresent_congr hcv13 (fun x hx => hv x (List.mem_of_mem_take (hp1.mem_iff.1 hx)))
  have hvs2 : ValuesPresent h3 (msortL (ltAt h) f (l.drop ((l.length + 1) / 2))) :=
    valuesPresent_congr hcv13 (fun x hx => hv x (List.mem_of_mem_drop (hp2.mem_iff.1 hx)))
  obtain ⟨h4, hrun4, _⟩ :=
    merge_spec f h3 q3 _ _ _ _ hch2' hch3 hne1 hne2
      (fun x hx hx2 => hdisj (hp1.mem_iff.1 hx) (hp2.mem_iff.1 hx2)) hvs1 hvs2
      (by rw [hp1.length_eq, hp2.length_eq, hl1, hl2]; omega)
  obtain ⟨n, hn⟩ : ∃ n, get_next h (some p) = some (some n) := by
    cases l with
    | nil => simp at hlen2
    | cons b t =>
      cases t with
      | nil => simp at hlen2
      | cons b2 t2 =>
        obtain ⟨hpb, node, hnode, hrest⟩ := (isChain_cons h (some p) b (b2 :: t2)).1 hc
        have hpb' : p = b := by simpa using hpb
        subst hpb'
        exact ⟨b2, by rw [get_next_of_cell hnode, ((isChain_cons h _ b2 t2).1 hrest).1]⟩
  refine ⟨h1, h2, q2, h3, q3, hsplit, hc1, hc2, hrun2, hrun3, hch2', hch3, hne1, hne2, hvs1,
    hvs2, ?_, ⟨_, hrun4⟩⟩
  simp only [merge_sort, hn, Option.bind_eq_bind, Option.some_bind, hsplit, hrun2, hrun3]

theorem merge_absent (fuel : Nat) (h : Heap) (q : queue_t) (p : Option Nat) :
    merge fuel h q none p = none ∧ merge fuel h q p none = none := by
  constructor
  · simp [merge, get_value]
  · cases hp : get_value h p with
    | none => simp [merge, hp]
    | some ivo =>
      cases ivo with
      | none => simp [merge, hp]
      | some iv => simp [merge, hp, get_value]

/-! ## The invariant along sequences of calls -/

theorem q_remove_head_false_state (h : Heap) (q : queue_t) (sp : Option (List Nat)) (c : Nat)
    (h' : Heap) (q' : Option queue_t) (b : Option (List Nat))
    (hrun : q_remove_head h (some q) sp c = some (false, h', q', b)) :
    h' = h ∧ q' = some q := by
  unfold q_remove_head at hrun
  simp only at hrun
  split at hrun
  · simp only [Option.some.injEq, Prod.mk.injEq, true_and] at hrun
    exact ⟨hrun.1.symm, hrun.2.1.symm⟩
  · split at hrun
    · simp only [Option.some.injEq, Prod.mk.injEq, true_and] at hrun
      exact ⟨hrun.1.symm, hrun.2.1.symm⟩
    · split at hrun
      · simp at hrun
      · split at hrun
        · simp at hrun
        · split at hrun
          · split at hrun
            · simp at hrun
            · split at hrun
              · simp at hrun
              · simp at hrun
          · simp at hrun

theorem valuesPresent_of_frame {h h' : Heap} {l : List Nat}
    (hfr : ∀ x ∈ l, h' x = h x) (hv : ValuesPresent h l) : ValuesPresent h' l := by
  intro a ha
  unfold valueAt
  rw [hfr a ha]
  exact hv a ha

theorem loopFuel_eq {q : queue_t} {l : List Nat} (hs : q.size = l.length) :
    loopFuel (some q) = l.length := by
  simp [loopFuel, hs]

theorem valid_new (h : Heap) :
    Valid h { head := none, tail := none, size := 0 } [] ∧ ValuesPresent h [] :=
  ⟨⟨(isChain_nil _ _).2 rfl, rfl, fun e => absurd rfl e⟩, fun _ hx => by simp at hx⟩

theorem to_int_of_small (n : Int) (h0 : -(2 ^ 31) ≤ n) (h1 : n < 2 ^ 31) : to_int n = n := by
  unfold to_int
  split <;> omega

theorem to_int_succ (k : Int) : to_int (to_int k + 1) = to_int (k + 1) := by
  unfold to_int
  split <;> split <;> split <;> omega

theorem to_size_t_of_nat (n : Nat) (h : n < 2 ^ 64) : to_size_t (n : Int) = n := by
  unfold to_size_t
  omega

theorem to_int_wrap (k m : Nat) (hk : k < 2 ^ 31) :
    to_int ((k + m * 2 ^ 32 : Nat) : Int) = k := by
  unfold to_int
  split <;> omega

theorem le_of_to_int_eq {n k : Nat} (hk : to_int (n : Int) = k) : k ≤ n := by
  unfold to_int at hk
  split at hk <;> omega

/-- The copy the insertions make when the narrowed length is `k`: the first `k`
characters of the string and a terminator. -/
theorem copy_narrowed (g : Nat → Nat) (s : List Nat) (k : Nat)
    (hk : to_int (strlen s) = k) (hk1 : k < 2 ^ 31 - 1) :
    to_size_t (to_int (to_int (strlen s) + 1)) = k + 1 ∧
      to_size_t (to_int (strlen s)) = k ∧
      ¬ (to_int (strlen s) < 0) ∧ Int.toNat (to_int (strlen s)) = k ∧
      ∃ c1, strncpy ((List.range (k + 1)).map g) s k = some c1 ∧
        store_byte c1 k 0 = some ((cstr s).take k ++ [0]) := by
  have hle : k ≤ strlen s := le_of_to_int_eq hk
  have hB : to_int ((k : Int) + 1) = ((k + 1 : Nat) : Int) := by
    rw [to_int_of_small _ (by omega) (by omega)]; simp
  rw [hk, hB]
  refine ⟨to_size_t_of_nat _ (by omega), to_size_t_of_nat _ (by omega), by omega, by simp, ?_⟩
  have hl : ((cstr s).take k).length = k := by
    rw [List.length_take]
    exact min_eq_left hle
  refine ⟨(cstr s).take k ++ [g k], ?_, ?_⟩
  · simp only [strncpy, List.length_map, List.length_range, Nat.le_succ, if_true]
    have h2 : List.drop k ((List.range (k + 1)).map g) = [g k] := by
      rw [List.range_succ, List.map_append, List.drop_append_of_le_length (by simp)]
      simp
    rw [h2, Nat.sub_eq_zero_of_le hle]
    simp
  · have : k < ((cstr s).take k ++ [g k]).length := by simp [hl]
    simp only [store_byte, this, if_true]
    rw [List.set_append_right _ _ (le_of_eq hl)]
    simp [hl]

theorem q_insert_head_eq (h : Heap) (q : queue_t) (s : List Nat) (na : Nat)
    (g : Nat → Nat) (k : Nat) (hk : to_int (strlen s) = k) (hk1 : k < 2 ^ 31 - 1) :
    q_insert_head h (some q) (some s) (some na) (some g) =
      some (true,
        Function.update h na (some { value := some ((cstr s).take k ++ [0]), next := q.head }),
        some { head := some na, tail := if q.size = 0 then some na else q.tail,
               size := to_int (q.size + 1) }) := by
  obtain ⟨hB, hC, hD, hE, c1, hc1, hc2⟩ := copy_narrowed g s k hk hk1
  rw [q_insert_head, hC, hE, hB]
  rw [show malloc_bytes (some g) (k + 1) = some ((List.range (k + 1)).map g) from rfl]
  dsimp only
  rw [hc1]
  dsimp only
  rw [if_neg hD, hc2]
  dsimp only
  by_cases h0 : q.size = 0
  · rw [if_pos h0, if_pos h0]
  · rw [if_neg h0, if_neg h0]

theorem q_insert_tail_eq (h : Heap) (q : queue_t) (s : List Nat) (na : Nat)
    (g : Nat → Nat) (k : Nat) (hk : to_int (strlen s) = k) (hk1 : k < 2 ^ 31 - 1) :
    q_insert_tail h (some q) (some s) (some na) (some g) =
      if q.size = 0 then
        some (true,
          Function.update h na (some { value := some ((cstr s).take k ++ [0]), next := none }),
          some { head := some na, tail := some na, size := to_int (q.size + 1) })
      else
        match set_next
            (Function.update h na (some { value := some ((cstr s).take k ++ [0]), next := none }))
            q.tail (some na) with
        | none => none
        | some h2 =>
          some (true, h2, some { head := q.head, tail := some na, size := to_int (q.size + 1) }) := by
  obtain ⟨hB, hC, hD, hE, c1, hc1, hc2⟩ := copy_narrowed g s k hk hk1
  rw [q_insert_tail, hC, hE, hB]
  rw [show malloc_bytes (some g) (k + 1) = some ((List.range (k + 1)).map g) from rfl]
  dsimp only
  rw [hc1]
  dsimp only
  rw [if_neg hD, hc2]

theorem q_insert_head_shape (h : Heap) (q : queue_t) (s : List Nat) (na : Nat)
    (g : Nat → Nat) (r : Bool × Heap × Option queue_t)
    (hrun : q_insert_head h (some q) (some s) (some na) (some g) = some r) :
    ∃ c, r = (true, Function.update h na (some { value := some c, next := q.head }),
      some { head := some na, tail := if q.size = 0 then some na else q.tail,
             size := to_int (q.size + 1) }) := by
  rw [q_insert_head] at hrun
  rw [show malloc_bytes (some g) (to_size_t (to_int (to_int (strlen s) + 1))) =
    some ((List.range (to_size_t (to_int (to_int (strlen s) + 1)))).map g) from rfl] at hrun
  dsimp only at hrun
  generalize strncpy _ s _ = x at hrun
  cases x with
  | none => cases hrun
  | some c1 =>
    dsimp only at hrun
    by_cases hD : to_int (strlen s) < 0
    · rw [if_pos hD] at hrun
      cases hrun
    · rw [if_neg hD] at hrun
      generalize store_byte c1 _ 0 = y at hrun
      cases y with
      | none => cases hrun
      | some c =>
        dsimp only at hrun
        refine ⟨c, ?_⟩
        rw [← Option.some.inj hrun]
        by_cases h0 : q.size = 0
        · rw [if_pos h0, if_pos h0]
        · rw [if_neg h0, if_neg h0]

theorem q_insert_tail_shape (h : Heap) (q : queue_t) (s : List Nat) (na : Nat)
    (g : Nat → Nat) (r : Bool × Heap × Option queue_t)
    (hrun : q_insert_tail h (some q) (some s) (some na) (some g) = some r) :
    ∃ c, (q.size = 0 ∧
        r = (true, Function.update h na (some { value := some c, next := none }),
          some { head := some na, tail := some na, size := to_int (q.size + 1) })) ∨
      (q.size ≠ 0 ∧ ∃ h2,
        set_next (Function.update h na (some { value := some c, next := none })) q.tail
          (some na) = some h2 ∧
        r = (true, h2, some { head := q.head, tail := some na, size := to_int (q.size + 1) })) := by
  rw [q_insert_tail] at hrun
  rw [show malloc_bytes (some g) (to_size_t (to_int (to_int (strlen s) + 1))) =
    some ((List.range (to_size_t (to_int (to_int (strlen s) + 1)))).map g) from rfl] at hrun
  dsimp only at hrun
  generalize strncpy _ s _ = x at hrun
  cases x with
  | none => cases hrun
  | some c1 =>
    dsimp only at hrun
    by_cases hD : to_int (strlen s) < 0
    · rw [if_pos hD] at hrun
      cases hrun
    · rw [if_neg hD] at hrun
      generalize store_byte c1 _ 0 = y at hrun
      cases y with
      | none => cases hrun
      | some c =>
        dsimp only at hrun
        refine ⟨c, ?_⟩
        by_cases h0 : q.size = 0
        · rw [if_pos h0] at hrun
          exact Or.inl ⟨h0, (Option.some.inj hrun).symm⟩
        · rw [if_neg h0] at hrun
          cases hset : set_next (Function.update h na (some { value := some c, next := none }))
              q.tail (some na) with
          | none => rw [hset] at hrun; cases hrun
          | some h2 =>
            rw [hset] at hrun
            exact Or.inr ⟨h0, h2, rfl, (Option.some.inj hrun).symm⟩

theorem to_int_strlen (s : List Nat) (hlen : strlen s < 2 ^ 31 - 1) :
    to_int (strlen s) = (strlen s : Int) :=
  to_int_of_small _ (by omega) (by omega)

theorem take_strlen (s : List Nat) : (cstr s).take (strlen s) = cstr s :=
  List.take_length _

theorem to_int_size_succ {q : queue_t} {l : List Nat} (hs : q.size = l.length)
    (hcount : l.length + 1 < 2 ^ 31) : to_int (q.size + 1) = q.size + 1 :=
  to_int_of_small _ (by omega) (by omega)

theorem q_insert_head_true (h : Heap) (q : queue_t) (s : List Nat) (na : Nat)
    (g : Nat → Nat) (hlen : strlen s < 2 ^ 31 - 1) :
    q_insert_head h (some q) (some s) (some na) (some g) =
      some (true, Function.update h na (some { value := some (cstr s ++ [0]), next := q.head }),
        some { head := some na, tail := if q.size = 0 then some na else q.tail,
               size := to_int (q.size + 1) }) := by
  rw [q_insert_head_eq h q s na g (strlen s) (to_int_strlen s hlen) hlen, take_strlen]

theorem q_insert_head_spec (h : Heap) (q : queue_t) (l : List Nat) (s : List Nat)
    (na : Nat) (g : Nat → Nat) (hc : isChain h q.head l) (hs : q.size = l.length)
    (hfresh : h na = none) (hlen : strlen s < 2 ^ 31 - 1) (hcount : l.length + 1 < 2 ^ 31) :
    q_insert_head h (some q) (some s) (some na) (some g) =
        some (true, Function.update h na (some { value := some (cstr s ++ [0]), next := q.head }),
          some { head := some na, tail := if l = [] then some na else q.tail,
                 size := q.size + 1 }) ∧
      isChain (Function.update h na (some { value := some (cstr s ++ [0]), next := q.head }))
        (some na) (na :: l) := by
  have hmem : na ∉ l := by
    intro hm
    obtain ⟨node, hn⟩ := isChain_alloc hc na hm
    simp [hfresh] at hn
  constructor
  · rw [q_insert_head_true h q s na g hlen, to_int_size_succ hs hcount]
    by_cases hl : l = []
    · rw [if_pos hl, if_pos ((size_eq_zero_iff hs).2 hl)]
    · rw [if_neg hl, if_neg (mt (size_eq_zero_iff hs).1 hl)]
  · exact (isChain_cons _ _ na l).2
      ⟨rfl, { value := some (cstr s ++ [0]), next := q.head }, by simp, isChain_update hmem hc⟩

/-- Linking a fresh node after the last node of a chain that is not empty. -/
theorem insert_tail_link (h : Heap) (q : queue_t) (l : List Nat) (na : Nat) (c : List Nat)
    (hv : Valid h q l) (hfresh : h na = none) (hl : l ≠ []) :
    ∃ h2, set_next (Function.update h na (some { value := some c, next := none })) q.tail
        (some na) = some h2 ∧
      isChain h2 q.head (l ++ [na]) ∧
      h2 na = some { value := some c, next := none } ∧
      (∀ a, a ≠ na → cellValue h2 a = cellValue h a) ∧
      (∀ a, a ≠ na → some a ≠ l.getLast? → h2 a = h a) := by
  obtain ⟨hc, hs, ht⟩ := hv
  have ht := ht hl
  have hmem : na ∉ l := by
    intro hm
    obtain ⟨node, hn⟩ := isChain_alloc hc na hm
    simp [hfresh] at hn
  obtain ⟨t, hlast⟩ : ∃ t, l.getLast? = some t := by
    cases hx : l.getLast? with
    | none => exact absurd (List.getLast?_eq_none_iff.1 hx) hl
    | some t => exact ⟨t, rfl⟩
  have htmem : t ∈ l := List.mem_of_getLast?_eq_some hlast
  obtain ⟨n, hn⟩ := isChain_alloc hc t htmem
  have htna : t ≠ na := fun e => hmem (e ▸ htmem)
  let h1 : Heap := Function.update h na (some { value := some c, next := none })
  have hn1 : h1 t = some n := by simp [h1, Function.update, htna, hn]
  have hc1' : isChain h1 q.head l := isChain_update hmem hc
  have hna1 : h1 na = some { value := some c, next := none } := by simp [h1]
  have hch := chain_snoc hna1 rfl l q.head t n hc1' hlast hmem hn1
  refine ⟨Function.update h1 t (some { n with next := some na }), ?_, hch, ?_, ?_, ?_⟩
  · rw [ht, hlast]
    exact set_next_of_cell hn1 _
  · simp [h1, Function.update, htna.symm]
  · intro a ha
    rw [cellValue_update_next hn1]
    simp [cellValue, h1, Function.update, ha]
  · intro a ha hat
    have : a ≠ t := by
      intro e; apply hat; rw [hlast, e]
    simp [h1, Function.update, ha, this]

/-- The chain a fresh node makes on its own. -/
theorem chain_single (h : Heap) (na : Nat) (c : List Nat) :
    isChain (Function.update h na (some { value := some c, next := none })) (some na) [na] :=
  (isChain_cons _ _ na []).2
    ⟨rfl, { value := some c, next := none }, by simp, (isChain_nil _ _).2 rfl⟩

theorem q_insert_tail_wrap (h : Heap) (q : queue_t) (l : List Nat) (s : List Nat)
    (na : Nat) (g : Nat → Nat) (hv : Valid h q l) (hfresh : h na = none)
    (hlen : strlen s < 2 ^ 31 - 1) :
    ∃ h', q_insert_tail h (some q) (some s) (some na) (some g) =
        some (true, h', some { head := if l = [] then some na else q.head, tail := some na,
                               size := to_int (q.size + 1) }) ∧
      isChain h' (if l = [] then some na else q.head) (l ++ [na]) ∧
      h' na = some { value := some (cstr s ++ [0]), next := none } ∧
      (∀ a, a ≠ na → cellValue h' a = cellValue h a) ∧
      (∀ a, a ≠ na → some a ≠ l.getLast? → h' a = h a) := by
  have hs := hv.2.1
  have heq := q_insert_tail_eq h q s na g (strlen s) (to_int_strlen s hlen) hlen
  rw [take_strlen] at heq
  by_cases hl : l = []
  · have h0 : q.size = 0 := (size_eq_zero_iff hs).2 hl
    rw [if_pos h0] at heq
    subst hl
    refine ⟨Function.update h na (some { value := some (cstr s ++ [0]), next := none }),
      ?_, ?_, by simp, ?_, ?_⟩
    · rw [heq, if_pos rfl]
    · rw [if_pos rfl]
      exact chain_single h na _
    · intro a ha; simp [cellValue, Function.update, ha]
    · intro a ha _; simp [Function.update, ha]
  · have h0 : q.size ≠ 0 := mt (size_eq_zero_iff hs).1 hl
    rw [if_neg h0] at heq
    obtain ⟨h2, hset, hch, hnode, hcv, hfr⟩ := insert_tail_link h q l na (cstr s ++ [0]) hv hfresh hl
    rw [hset] at heq
    refine ⟨h2, ?_, ?_, hnode, hcv, hfr⟩
    · rw [heq, if_neg hl]
    · rw [if_neg hl]; exact hch

theorem q_insert_tail_valid (h : Heap) (q : queue_t) (l : List Nat) (s : List Nat)
    (na : Nat) (g : Nat → Nat) (hv : Valid h q l) (hfresh : h na = none)
    (hlen : strlen s < 2 ^ 31 - 1) (hcount : l.length + 1 < 2 ^ 31) :
    ∃ h', q_insert_tail h (some q) (some s) (some na) (some g) =
        some (true, h', some { head := if l = [] then some na else q.head, tail := some na,
                               size := q.size + 1 }) ∧
      isChain h' (if l = [] then some na else q.head) (l ++ [na]) ∧
      h' na = some { value := some (cstr s ++ [0]), next := none } ∧
      (∀ a, a ≠ na → cellValue h' a = cellValue h a) ∧
      (∀ a, a ≠ na → some a ≠ l.getLast? → h' a = h a) := by
  obtain ⟨h', hrun, hrest⟩ := q_insert_tail_wrap h q l s na g hv hfresh hlen
  rw [to_int_size_succ hv.2.1 hcount] at hrun
  exact ⟨h', hrun, hrest⟩

theorem chain_push {h : Heap} {p : Option Nat} {l : List Nat} (hc : isChain h p l) (na : Nat)
    (v : Option (List Nat)) (hfresh : h na = none) :
    na ∉ l ∧ isChain (Function.update h na (some { value := v, next := p })) (some na)
      (na :: l) := by
  have hmem : na ∉ l := by
    intro hm
    obtain ⟨node, hn⟩ := isChain_alloc hc na hm
    simp [hfresh] at hn
  exact ⟨hmem, (isChain_cons _ _ na l).2
    ⟨rfl, { value := v, next := p }, by simp, isChain_update hmem hc⟩⟩

theorem insert_tails_spec (g : Nat → Nat) (ins : List (List Nat × Nat)) :
    ∀ (h : Heap) (q : queue_t) (l : List Nat), Valid h q l →
      (ins.map Prod.snd).Nodup → (∀ x ∈ ins, h x.2 = none) →
      (∀ x ∈ ins, strlen x.1 < 2 ^ 31 - 1) → l.length + ins.length < 2 ^ 31 →
      ∃ h1 q1, insert_tails g ins h (some q) =
          some (List.replicate ins.length true, h1, some q1) ∧
        Valid h1 q1 (l ++ ins.map Prod.snd) ∧
        (∀ a, a ∉ ins.map Prod.snd → cellValue h1 a = cellValue h a) ∧
        (∀ x ∈ ins, cellValue h1 x.2 = some (some (cstr x.1 ++ [0]))) := by
  induction ins with
  | nil =>
    intro h q l hw _ _ _ _
    exact ⟨h, q, by simp [insert_tails], by simpa using hw, fun _ _ => rfl, by simp⟩
  | cons x rest ih =>
    intro h q l hw hnd hfresh hlen hcount
    obtain ⟨s, na⟩ := x
    have hnd' : na ∉ rest.map Prod.snd ∧ (rest.map Prod.snd).Nodup := List.nodup_cons.1 hnd
    have hna : h na = none := hfresh (s, na) (List.mem_cons_self _ _)
    have hcount1 : l.length + 1 < 2 ^ 31 := by
      simp only [List.length_cons] at hcount; omega
    obtain ⟨h', hrun, hch, hnode, hcv, hfr⟩ :=
      q_insert_tail_valid h q l s na g hw hna (hlen (s, na) (List.mem_cons_self _ _)) hcount1
    have hw' : Valid h'
        { head := (if l = [] then some na else q.head), tail := some na, size := q.size + 1 }
        (l ++ [na]) := by
      refine ⟨hch, ?_, ?_⟩
      · simp [hw.2.1]
      · intro _; simp
    have hfresh' : ∀ y ∈ rest, h' y.2 = none := by
      intro y hy
      have hy0 : h y.2 = none := hfresh y (List.mem_cons_of_mem _ hy)
      have hyna : y.2 ≠ na := by
        intro e; apply hnd'.1; rw [← e]; exact List.mem_map_of_mem Prod.snd hy
      rw [hfr y.2 hyna ?_, hy0]
      intro e
      obtain ⟨node, hn⟩ := isChain_alloc hw.1 y.2 (List.mem_of_getLast?_eq_some e.symm)
      simp [hy0] at hn
    obtain ⟨h1, q1, hrun1, hw1, hcv1, hnew1⟩ := ih h' _ (l ++ [na]) hw' hnd'.2 hfresh'
      (fun y hy => hlen y (List.mem_cons_of_mem _ hy))
      (by simp only [List.length_cons, List.length_append, List.length_nil] at hcount ⊢
          omega)
    refine ⟨h1, q1, ?_, by simpa using hw1, ?_, ?_⟩
    · simp only [insert_tails, hrun, hrun1, List.length_cons, List.replicate_succ]
    · intro a ha
      simp only [List.map_cons, List.mem_cons, not_or] at ha
      rw [hcv1 a ha.2, hcv a ha.1]
    · intro y hy
      rcases List.mem_cons.1 hy with rfl | hy
      · rw [hcv1 _ hnd'.1]
        simp [cellValue, hnode]
      · exact hnew1 y hy

theorem insert_heads_spec (g : Nat → Nat) (ins : List (List Nat × Nat)) :
    ∀ (h : Heap) (q : queue_t) (l : List Nat), isChain h q.head l → q.size = l.length →
      (ins.map Prod.snd).Nodup → (∀ x ∈ ins, h x.2 = none) →
      (∀ x ∈ ins, strlen x.1 < 2 ^ 31 - 1) → l.length + ins.length < 2 ^ 31 →
      ∃ h1 q1, insert_heads g ins h (some q) =
          some (List.replicate ins.length true, h1, some q1) ∧
        isChain h1 q1.head ((ins.map Prod.snd).reverse ++ l) ∧
        q1.size = q.size + ins.length ∧
        (∀ a, a ∉ ins.map Prod.snd → cellValue h1 a = cellValue h a) ∧
        (∀ x ∈ ins, cellValue h1 x.2 = some (some (cstr x.1 ++ [0]))) := by
  induction ins with
  | nil =>
    intro h q l hc hs _ _ _ _
    exact ⟨h, q, by simp [insert_heads], by simpa using hc, by simp, fun _ _ => rfl, by simp⟩
  | cons x rest ih =>
    intro h q l hc hs hnd hfresh hlen hcount
    obtain ⟨s, na⟩ := x
    have hnd' : na ∉ rest.map Prod.snd ∧ (rest.map Prod.snd).Nodup := List.nodup_cons.1 hnd
    have hna : h na = none := hfresh (s, na) (List.mem_cons_self _ _)
    have hcount1 : l.length + 1 < 2 ^ 31 := by
      simp only [List.length_cons] at hcount; omega
    obtain ⟨hrun, hch⟩ := q_insert_head_spec h q l s na g hc hs hna
      (hlen (s, na) (List.mem_cons_self _ _)) hcount1
    have hfresh' : ∀ y ∈ rest,
        Function.update h na (some { value := some (cstr s ++ [0]), next := q.head }) y.2 =
          none := by
      intro y hy
      have hyna : y.2 ≠ na := by
        intro e; apply hnd'.1; rw [← e]; exact List.mem_map_of_mem Prod.snd hy
      simp [Function.update, hyna, hfresh y (List.mem_cons_of_mem _ hy)]
    obtain ⟨h1, q1, hrun1, hch1, hs1, hcv1, hnew1⟩ :=
      ih _ { head := some na, tail := if l = [] then some na else q.tail, size := q.size + 1 }
        (na :: l) hch (by simp [hs]) hnd'.2 hfresh'
        (fun y hy => hlen y (List.mem_cons_of_mem _ hy))
        (by simp only [List.length_cons] at hcount ⊢
            omega)
    refine ⟨h1, q1, ?_, by simpa using hch1, ?_, ?_, ?_⟩
    · simp only [insert_heads, hrun, hrun1, List.length_cons, List.replicate_succ]
    · rw [hs1]; simp; omega
    · intro a ha
      simp only [List.map_cons, List.mem_cons, not_or] at ha
      rw [hcv1 a ha.2]
      simp [cellValue, Function.update, ha.1]
    · intro y hy
      rcases List.mem_cons.1 hy with rfl | hy
      · rw [hcv1 _ hnd'.1]
        simp [cellValue]
      · exact hnew1 y hy

/-- Every call keeps the invariant of the operations and the presence of the
strings, as long as the number of nodes stays below `2^31`; the chain grows by
at most the node the call inserted, and a call other than a removal changes
`size` by what it inserted. -/
theorem exec_valid (h : Heap) (q : queue_t) (l : List Nat) (c : Call) (h' : Heap)
    (q'' : Option queue_t) (hv : Valid h q l) (hp : ValuesPresent h l)
    (hcount : l.length + insertedBy c < 2 ^ 31)
    (hrun : exec h (some q) c = some (h', q'')) :
    ∃ q' l', q'' = some q' ∧ Valid h' q' l' ∧ ValuesPresent h' l' ∧
      l'.length ≤ l.length + insertedBy c ∧
      (isRemoval c = false → q'.size = q.size + insertedBy c) := by
  obtain ⟨hc, hs, ht⟩ := hv
  have hsame : ∀ (cc : Call), insertedBy cc = 0 → ∃ q' l', some q = some q' ∧ Valid h q' l' ∧
      ValuesPresent h l' ∧ l'.length ≤ l.length + insertedBy cc ∧
      (isRemoval cc = false → q'.size = q.size + insertedBy cc) :=
    fun cc h0 => ⟨q, l, rfl, ⟨hc, hs, ht⟩, hp, Nat.le_add_right _ _, fun _ => by simp [h0]⟩
  cases c with
  | insert_head s newh g =>
    simp only [exec] at hrun
    split at hrun
    · rename_i hfresh
      cases s with
      | none =>
        rw [q_insert_head_false h (some q) none newh g (by simp)] at hrun
        simp only [Option.map_some', Option.some.injEq, Prod.mk.injEq] at hrun
        obtain ⟨rfl, rfl⟩ := hrun
        exact hsame _ rfl
      | some sv =>
        cases newh with
        | none =>
          rw [q_insert_head_false h (some q) (some sv) none g (by simp)] at hrun
          simp only [Option.map_some', Option.some.injEq, Prod.mk.injEq] at hrun
          obtain ⟨rfl, rfl⟩ := hrun
          exact hsame _ rfl
        | some na =>
          cases g with
          | none =>
            rw [q_insert_head_false h (some q) (some sv) (some na) none (by simp)] at hrun
            simp only [Option.map_some', Option.some.injEq, Prod.mk.injEq] at hrun
            obtain ⟨rfl, rfl⟩ := hrun
            exact hsame _ rfl
          | some gv =>
            have hna : h na = none := by simpa [freshAddr] using hfresh
            have hcount1 : l.length + 1 < 2 ^ 31 := hcount
            cases hins : q_insert_head h (some q) (some sv) (some na) (some gv) with
            | none => rw [hins] at hrun; simp at hrun
            | some r =>
              obtain ⟨cv, rfl⟩ := q_insert_head_shape h q sv na gv r hins
              rw [hins] at hrun
              simp only [Option.map_some', Option.some.injEq, Prod.mk.injEq] at hrun
              obtain ⟨rfl, rfl⟩ := hrun
              obtain ⟨hmem, hch⟩ := chain_push hc na (some cv) hna
              refine ⟨_, na :: l, rfl, ⟨hch, ?_, ?_⟩, ?_, by simp [insertedBy],
                fun _ => ?_⟩
              · rw [to_int_size_succ hs hcount1, hs]; simp
              · intro _
                by_cases hl : l = []
                · simp [hl, (size_eq_zero_iff hs).2 hl]
                · simp only [mt (size_eq_zero_iff hs).1 hl, if_false]
                  rw [getLast?_cons_of_ne_nil hl]
                  exact ht hl
              · intro x hx
                rcases List.mem_cons.1 hx with rfl | hx
                · simp [valueAt]
                · have hxna : x ≠ na := fun e => hmem (e ▸ hx)
                  have := hp x hx
                  simpa [valueAt, Function.update, hxna] using this
              · rw [to_int_size_succ hs hcount1]; simp [insertedBy]
    · simp at hrun
  | insert_tail s newh g =>
    simp only [exec] at hrun
    split at hrun
    · rename_i hfresh
      cases s with
      | none =>
        rw [q_insert_tail_false h (some q) none newh g (by simp)] at hrun
        simp only [Option.map_some', Option.some.injEq, Prod.mk.injEq] at hrun
        obtain ⟨rfl, rfl⟩ := hrun
        exact hsame _ rfl
      | some sv =>
        cases newh with
        | none =>
          rw [q_insert_tail_false h (some q) (some sv) none g (by simp)] at hrun
          simp only [Option.map_some', Option.some.injEq, Prod.mk.injEq] at hrun
          obtain ⟨rfl, rfl⟩ := hrun
          exact hsame _ rfl
        | some na =>
          cases g with
          | none =>
            rw [q_insert_tail_false h (some q) (some sv) (some na) none (by simp)] at hrun
            simp only [Option.map_some', Option.some.injEq, Prod.mk.injEq] at hrun
            obtain ⟨rfl, rfl⟩ := hrun
            exact hsame _ rfl
          | some gv =>
            have hna : h na = none := by simpa [freshAddr] using hfresh
            have hcount1 : l.length + 1 < 2 ^ 31 := hcount
            have hmem : na ∉ l := (chain_push hc na none hna).1
            cases hins : q_insert_tail h (some q) (some sv) (some na) (some gv) with
            | none => rw [hins] at hrun; simp at hrun
            | some r =>
              rw [hins] at hrun
              simp only [Option.map_some', Option.some.injEq, Prod.mk.injEq] at hrun
              obtain ⟨cv, hcase⟩ := q_insert_tail_shape h q sv na gv r hins
              rcases hcase with ⟨h0, rfl⟩ | ⟨h0, h2, hset, rfl⟩
              · obtain ⟨rfl, rfl⟩ := hrun
                have hl : l = [] := (size_eq_zero_iff hs).1 h0
                subst hl
                refine ⟨_, [na], rfl, ⟨chain_single h na cv, ?_, fun _ => rfl⟩, ?_,
                  by simp [insertedBy], fun _ => ?_⟩
                · rw [to_int_size_succ hs hcount1, hs]; simp
                · intro x hx
                  have : x = na := by simpa using hx
                  subst this
                  simp [valueAt]
                · rw [to_int_size_succ hs hcount1]; simp [insertedBy]
              · obtain ⟨rfl, rfl⟩ := hrun
                have hl : l ≠ [] := mt (size_eq_zero_iff hs).2 h0
                obtain ⟨h2', hset', hch, hnode, hcv, _⟩ :=
                  insert_tail_link h q l na cv ⟨hc, hs, ht⟩ hna hl
                have hh : h2' = h2 := Option.some.inj (hset'.symm.trans hset)
                subst hh
                refine ⟨_, l ++ [na], rfl, ⟨hch, ?_, fun _ => by simp⟩, ?_,
                  by simp [insertedBy], fun _ => ?_⟩
                · rw [to_int_size_succ hs hcount1, hs]; simp
                · intro x hx
                  rcases List.mem_append.1 hx with hx | hx
                  · have hxna : x ≠ na := fun e => hmem (e ▸ hx)
                    rw [valueAt_congr (hcv x hxna)]
                    exact hp x hx
                  · have : x = na := by simpa using hx
                    subst this
                    simp [valueAt, hnode]
                · rw [to_int_size_succ hs hcount1]; simp [insertedBy]
    · simp at hrun
  | remove_head sp c =>
    simp only [exec] at hrun
    cases hr : q_remove_head h (some q) sp c with
    | none => simp [hr] at hrun
    | some r =>
      obtain ⟨b, h1, q1, buf⟩ := r
      rw [hr] at hrun
      simp only [Option.map_some', Option.some.injEq, Prod.mk.injEq] at hrun
      obtain ⟨rfl, rfl⟩ := hrun
      cases b with
      | false =>
        obtain ⟨rfl, rfl⟩ := q_remove_head_false_state h q sp c h1 q1 buf hr
        exact ⟨q, l, rfl, ⟨hc, hs, ht⟩, hp, Nat.le_add_right _ _,
          fun e => by simp [isRemoval] at e⟩
      | true =>
        cases l with
        | nil =>
          have h0 : q.size = 0 := (size_eq_zero_iff hs).2 rfl
          rw [q_remove_head_false h (some q) sp c (Or.inr (Or.inl (by simpa [q_size] using h0)))]
            at hr
          simp at hr
        | cons a t =>
          obtain ⟨rfl, rfl, hch⟩ := q_remove_head_true h q a t sp c h1 q1 buf hc hr
          have hnd := List.nodup_cons.1 (isChain_nodup hc)
          refine ⟨_, t, rfl, ⟨hch, by simp [hs], ?_⟩, ?_, by simp; omega,
            fun e => by simp [isRemoval] at e⟩
          · intro htn
            rw [← getLast?_cons_of_ne_nil htn]
            exact ht (by simp)
          · apply valuesPresent_of_frame _ (fun x hx => hp x (List.mem_cons_of_mem a hx))
            intro x hx
            have hxa : x ≠ a := fun e => hnd.1 (e ▸ hx)
            simp [free_ele, Function.update, hxa]
  | reverse =>
    simp only [exec, loopFuel_eq hs] at hrun
    by_cases h0 : q.size = 0
    · simp only [q_reverse, h0, if_true, Option.some.injEq, Prod.mk.injEq] at hrun
      obtain ⟨rfl, rfl⟩ := hrun
      exact hsame _ rfl
    · obtain ⟨h1, hrev, hch, _, hcv⟩ := q_reverse_spec l.length h q l hc h0 (le_refl _)
      rw [hrev] at hrun
      simp only [Option.some.injEq, Prod.mk.injEq] at hrun
      obtain ⟨rfl, rfl⟩ := hrun
      refine ⟨_, l.reverse, rfl, ⟨hch, by simp [hs], ?_⟩, ?_, by simp,
        fun _ => by simp [insertedBy]⟩
      · intro _
        rw [List.getLast?_reverse]
        exact isChain_head hc
      · exact valuesPresent_congr hcv (fun x hx => hp x (List.mem_reverse.1 hx))
  | sort =>
    simp only [exec, loopFuel_eq hs] at hrun
    by_cases hsmall : q.size = 0 ∨ l.length < 2
    · rw [q_sort_small _ h q l hc hsmall] at hrun
      simp only [Option.some.injEq, Prod.mk.injEq] at hrun
      obtain ⟨rfl, rfl⟩ := hrun
      exact hsame _ rfl
    · have hs0 : q.size ≠ 0 := fun e => hsmall (Or.inl e)
      have h2 : 2 ≤ l.length := by
        by_contra hlt
        exact hsmall (Or.inr (by omega))
      obtain ⟨h1, q1, l1, hsort, hch, _, hperm, _, htail, hsz, _, hcv⟩ :=
        q_sort_spec (2 * l.length + 1) h q l hc hs0 h2 hp (le_refl _)
      rw [hsort] at hrun
      simp only [Option.some.injEq, Prod.mk.injEq] at hrun
      obtain ⟨rfl, rfl⟩ := hrun
      refine ⟨q1, l1, rfl, ⟨hch, by rw [hsz, hs, hperm.length_eq], fun _ => htail⟩, ?_,
        by rw [hperm.length_eq]; exact Nat.le_add_right _ _,
        fun _ => by simp [insertedBy, hsz]⟩
      exact valuesPresent_congr hcv (fun x hx => hp x (hperm.mem_iff.1 hx))

theorem run_valid (calls : List Call) :
    ∀ (h : Heap) (q : queue_t) (l : List Nat) (h' : Heap) (q'' : Option queue_t),
      Valid h q l → ValuesPresent h l → l.length + (calls.map insertedBy).sum < 2 ^ 31 →
      run calls h (some q) = some (h', q'') →
      ∃ q' l', q'' = some q' ∧ Valid h' q' l' ∧ ValuesPresent h' l' ∧
        l'.length ≤ l.length + (calls.map insertedBy).sum ∧
        ((∀ c ∈ calls, isRemoval c = false) →
          q'.size = q.size + ((calls.map insertedBy).sum : Nat)) := by
  induction calls with
  | nil =>
    intro h q l h' q'' hv hp _ hrun
    simp only [run, Option.some.injEq, Prod.mk.injEq] at hrun
    obtain ⟨rfl, rfl⟩ := hrun
    exact ⟨q, l, rfl, hv, hp, by simp, fun _ => by simp⟩
  | cons c cs ih =>
    intro h q l h' q'' hv hp hcount hrun
    simp only [run] at hrun
    simp only [List.map_cons, List.sum_cons] at hcount
    cases he : exec h (some q) c with
    | none => simp [he] at hrun
    | some r =>
      obtain ⟨h1, q1o⟩ := r
      rw [he] at hrun
      simp only at hrun
      obtain ⟨q1, l1, rfl, hv1, hp1, hlen1, hsz1⟩ :=
        exec_valid h q l c h1 q1o hv hp (by omega) he
      obtain ⟨q', l', hq, hv', hp', hlen', hsz'⟩ :=
        ih h1 q1 l1 h' q'' hv1 hp1 (by omega) hrun
      refine ⟨q', l', hq, hv', hp', ?_, ?_⟩
      · simp only [List.map_cons, List.sum_cons]; omega
      · intro hnr
        rw [hsz' (fun x hx => hnr x (List.mem_cons_of_mem _ hx)),
          hsz1 (hnr c (List.mem_cons_self _ _))]
        simp only [List.map_cons, List.sum_cons, Nat.cast_add]
        ring

/-- On a state that satisfies the invariant, `q_reverse` and `q_sort` with the
fuel `exec` gives them return a result. -/
theorem exec_progress (h : Heap) (q : queue_t) (l : List Nat) (hv : Valid h q l)
    (hp : ValuesPresent h l) :
    (∃ r, exec h (some q) Call.reverse = some r) ∧ (∃ r, exec h (some q) Call.sort = some r) := by
  obtain ⟨hc, hs, _⟩ := hv
  constructor
  · simp only [exec, loopFuel_eq hs]
    by_cases h0 : q.size = 0
    · exact ⟨(h, some q), by simp [q_reverse, h0]⟩
    · obtain ⟨h1, hrev, _⟩ := q_reverse_spec l.length h q l hc h0 (le_refl _)
      exact ⟨_, hrev⟩
  · simp only [exec, loopFuel_eq hs]
    obtain ⟨h', q', _, hrun, _⟩ := q_sort_any (2 * l.length + 1) h q l hc hp (le_refl _)
    exact ⟨_, hrun⟩


theorem run_append (c1 c2 : List Call) :
    ∀ (h : Heap) (q : Option queue_t) (h1 : Heap) (q1 : Option queue_t),
      run c1 h q = some (h1, q1) → run (c1 ++ c2) h q = run c2 h1 q1 := by
  induction c1 with
  | nil =>
    intro h q h1 q1 hrun
    simp only [run, Option.some.injEq, Prod.mk.injEq] at hrun
    obtain ⟨rfl, rfl⟩ := hrun
    rfl
  | cons c cs ih =>
    intro h q h1 q1 hrun
    simp only [run, List.cons_append] at hrun ⊢
    cases he : exec h q c with
    | none => rw [he] at hrun; simp at hrun
    | some r =>
      obtain ⟨h2, q2⟩ := r
      rw [he] at hrun
      exact ih h2 q2 h1 q1 hrun

theorem insertCalls_succ (n : Nat) :
    insertCalls (n + 1) =
      insertCalls n ++ [Call.insert_head (some [0]) (some n) (some (fun _ => 0))] := by
  simp [insertCalls, List.range_succ]

theorem insertCalls_inserted (n : Nat) :
    ((insertCalls n).map insertedBy).sum = n ∧ (insertCalls n).length = n ∧
      ∀ c ∈ insertCalls n, isRemoval c = false := by
  induction n with
  | zero => simp [insertCalls]
  | succ n ih =>
    rw [insertCalls_succ]
    refine ⟨?_, ?_, ?_⟩
    · rw [List.map_append, List.sum_append, ih.1]; rfl
    · rw [List.length_append, ih.2.1]; rfl
    · intro c hc
      rcases List.mem_append.1 hc with hc | hc
      · exact ih.2.2 c hc
      · have : c = Call.insert_head (some [0]) (some n) (some (fun _ => 0)) := by simpa using hc
        subst this
        rfl

/-- The state after `n` head insertions of the empty string into the new
queue: the nodes `n - 1`, ..., `0` are chained from `head` and `size` is `n`
narrowed to an `int`. -/
theorem run_insertCalls (n : Nat) :
    ∃ h q, run (insertCalls n) emptyHeap (q_new true) = some (h, some q) ∧
      q.size = to_int n ∧ isChain h q.head (List.range n).reverse ∧
      ∀ a, n ≤ a → h a = none := by
  induction n with
  | zero =>
    exact ⟨emptyHeap, { head := none, tail := none, size := 0 }, rfl, by decide,
      (isChain_nil _ _).2 rfl, fun _ _ => rfl⟩
  | succ n ih =>
    obtain ⟨h, q, hrun, hsz, hch, hfr⟩ := ih
    have hfresh : h n = none := hfr n (le_refl _)
    have heq := q_insert_head_eq h q [0] n (fun _ => 0) 0 (by decide) (by decide)
    obtain ⟨_, hch'⟩ := chain_push hch n (some ((cstr [0]).take 0 ++ [0])) hfresh
    refine ⟨Function.update h n (some { value := some ((cstr [0]).take 0 ++ [0]), next := q.head }),
      { head := some n, tail := if q.size = 0 then some n else q.tail,
        size := to_int (q.size + 1) }, ?_, ?_, ?_, ?_⟩
    · rw [insertCalls_succ, run_append _ _ _ _ _ _ hrun]
      simp only [run, exec, freshAddr, hfresh, Option.isNone_none, if_true, heq,
        Option.map_some']
    · show to_int (q.size + 1) = to_int ((n + 1 : Nat) : Int)
      rw [hsz, to_int_succ]
      simp
    · rw [List.range_succ, List.reverse_append]
      exact hch'
    · intro a ha
      have : a ≠ n := by omega
      simp only [Function.update, this, dite_false]
      exact hfr a (by omega)

theorem cstr_longString (n : Nat) : cstr (longString n) = List.replicate n 97 := by
  induction n with
  | zero => rfl
  | succ n ih =>
    have : longString (n + 1) = 97 :: longString n := by
      simp [longString, List.replicate_succ]
    rw [this, cstr_cons_ne (by decide), ih, List.replicate_succ]

theorem strlen_longString (n : Nat) : strlen (longString n) = n := by
  unfold strlen
  rw [cstr_longString, List.length_replicate]

theorem take_two_longString (n : Nat) (h2 : 2 ≤ n) :
    (cstr (longString n)).take 2 = [97, 97] := by
  obtain ⟨m, rfl⟩ : ∃ m, n = m + 2 := ⟨n - 2, by omega⟩
  rw [cstr_longString]
  simp [List.replicate_succ]

/-- The insertions of a string whose length is narrowed to 2. -/
theorem q_insert_long (h : Heap) (q : queue_t) (na : Nat) (g : Nat → Nat) (n : Nat)
    (hn : to_int (n : Int) = 2) :
    q_insert_head h (some q) (some (longString n)) (some na) (some g) =
        some (true, Function.update h na (some { value := some [97, 97, 0], next := q.head }),
          some { head := some na, tail := if q.size = 0 then some na else q.tail,
                 size := to_int (q.size + 1) }) ∧
      (q.size = 0 →
        q_insert_tail h (some q) (some (longString n)) (some na) (some g) =
          some (true, Function.update h na (some { value := some [97, 97, 0], next := none }),
            some { head := some na, tail := some na, size := to_int (q.size + 1) })) := by
  have hk : to_int (strlen (longString n)) = ((2 : Nat) : Int) := by
    rw [strlen_longString]; exact hn
  have h2 : 2 ≤ n := by
    have := le_of_to_int_eq (show to_int (n : Int) = ((2 : Nat) : Int) from hn)
    exact this
  constructor
  · rw [q_insert_head_eq h q (longString n) na g 2 hk (by decide), take_two_longString n h2]
    rfl
  · intro h0
    rw [q_insert_tail_eq h q (longString n) na g 2 hk (by decide), take_two_longString n h2,
      if_pos h0]
    rfl

/-- The insertions of a string whose length is narrowed to a negative `int`
are undefined when the allocations succeed. -/
theorem q_insert_negative (h : Heap) (q : queue_t) (s : List Nat) (na : Nat) (g : Nat → Nat)
    (hneg : to_int (strlen s) < 0) :
    q_insert_head h (some q) (some s) (some na) (some g) = none ∧
      q_insert_tail h (some q) (some s) (some na) (some g) = none := by
  constructor
  · rw [q_insert_head]
    rw [show malloc_bytes (some g) (to_size_t (to_int (to_int (strlen s) + 1))) =
      some ((List.range (to_size_t (to_int (to_int (strlen s) + 1)))).map g) from rfl]
    dsimp only
    simp only [hneg, if_true]
    split <;> rfl
  · rw [q_insert_tail]
    rw [show malloc_bytes (some g) (to_size_t (to_int (to_int (strlen s) + 1))) =
      some ((List.range (to_size_t (to_int (to_int (strlen s) + 1)))).map g) from rfl]
    dsimp only
    simp only [hneg, if_true]
    split <;> rfl

/-- The insertions of the string of `n` letters into the new queue, when `n`
is narrowed to 2: the node stores two letters. -/
theorem q_insert_long_new (n : Nat) (hn : to_int (n : Int) = 2) :
    q_insert_head emptyHeap (q_new true) (some (longString n)) (some 1) (some (fun _ => 0)) =
        some (true,
          Function.update emptyHeap 1 (some { value := some [97, 97, 0], next := none }),
          some { head := some 1, tail := some 1, size := 1 }) ∧
      q_insert_tail emptyHeap (q_new true) (some (longString n)) (some 1) (some (fun _ => 0)) =
        some (true,
          Function.update emptyHeap 1 (some { value := some [97, 97, 0], next := none }),
          some { head := some 1, tail := some 1, size := 1 }) ∧
      strlen (longString n) = n := by
  obtain ⟨hh, ht⟩ :=
    q_insert_long emptyHeap { head := none, tail := none, size := 0 } 1 (fun _ => 0) n hn
  have hq : q_new true = some { head := none, tail := none, size := 0 } := rfl
  rw [hq, hh, ht rfl]
  exact ⟨rfl, rfl, strlen_longString n⟩

/-- A tail insertion of the string of `n` letters, `n` narrowed to 2, and a
removal into a buffer: two letters come out. -/
theorem fifo_long (n : Nat) (hn : to_int (n : Int) = 2) (buf : List Nat) (cap : Nat)
    (hcap : 2 < cap) (hbuf : cap ≤ buf.length) :
    ∃ h1 q1 rs h2 q2,
      insert_tails (fun _ => 0) [(longString n, 1)] emptyHeap (q_new true) =
        some ([true], h1, q1) ∧
      remove_heads [(some buf, cap)] h1 q1 = some (rs, h2, q2) ∧
      rs.map Prod.fst = [true] ∧ deliveredStrings rs = [some [97, 97]] := by
  obtain ⟨_, ht, _⟩ := q_insert_long_new n hn
  have hch := chain_single emptyHeap 1 [97, 97, 0]
  obtain ⟨rs, h2, q2, hrun, hfst, hdel, _⟩ :=
    remove_heads_deliver [(buf, cap)] [1]
      (Function.update emptyHeap 1 (some { value := some [97, 97, 0], next := none }))
      { head := some 1, tail := some 1, size := 1 } hch rfl
      (by intro a ha
          have : a = 1 := by simpa using ha
          subst this
          simp [valueAt])
      (le_refl _)
      (by intro call hcall a ha
          have ha1 : a = 1 := by simpa using ha
          have hc1 : call = (buf, cap) := by simpa using hcall
          subst ha1 hc1
          have : bytesAt (Function.update emptyHeap 1
              (some { value := some [97, 97, 0], next := none })) 1 = [97, 97, 0] := by
            simp [bytesAt, valueAt]
          rw [this]
          exact ⟨hcap, hbuf⟩)
  refine ⟨_, _, rs, h2, some q2, ?_, hrun, hfst, ?_⟩
  · simp only [insert_tails, ht]
  · rw [hdel]
    simp [bytesAt, valueAt]
    decide

/-- After `n` head insertions, `n` a multiple of `2^32`, `size` is 0 and a
removal returns `false`. -/
theorem remove_after_wrap (n : Nat) (hn : to_int (n : Int) = 0) :
    ∃ h q, run (insertCalls n) emptyHeap (q_new true) = some (h, some q) ∧
      isChain h q.head (List.range n).reverse ∧ q.size = 0 ∧
      q_remove_head h (some q) (some [9, 9]) 2 = some (false, h, some q, some [9, 9]) := by
  obtain ⟨h, q, hrun, hsz, hch, _⟩ := run_insertCalls n
  have h0 : q.size = 0 := hsz.trans hn
  exact ⟨h, q, hrun, hch, h0, q_remove_head_false h (some q) (some [9, 9]) 2 (Or.inr (Or.inl h0))⟩

/-- The state after `n` head insertions, `n` below `2^31`, is valid, and one
more insertion, at the head or at the tail, leaves `size` at `n + 1` narrowed
to an `int`. -/
theorem insert_after_inserts (n : Nat) (hn : n < 2 ^ 31) :
    ∃ h q l, run (insertCalls n) emptyHeap (q_new true) = some (h, some q) ∧
      Valid h q l ∧ l.length = n ∧ h n = none ∧
      (∃ h' q', q_insert_head h (some q) (some [0]) (some n) (some (fun _ => 0)) =
          some (true, h', some q') ∧ q'.size = to_int ((n : Int) + 1)) ∧
      (∃ h' q', q_insert_tail h (some q) (some [0]) (some n) (some (fun _ => 0)) =
          some (true, h', some q') ∧ q'.size = to_int ((n : Int) + 1)) := by
  obtain ⟨h, q, hrun, hsz, _, hfr⟩ := run_insertCalls n
  obtain ⟨hsum, _, _⟩ := insertCalls_inserted n
  obtain ⟨q', l, hq, hv, _, _, _⟩ :=
    run_valid (insertCalls n) emptyHeap _ [] h (some q) (valid_new emptyHeap).1
      (valid_new emptyHeap).2 (by rw [hsum]; simpa using hn) (by simpa [q_new] using hrun)
  have : q = q' := by simpa using hq
  subst this
  have hqn : q.size = (n : Int) := by
    rw [hsz]; exact to_int_of_small _ (by omega) (by exact_mod_cast hn)
  have hl : l.length = n := by
    have := hv.2.1
    rw [hqn] at this
    exact_mod_cast this.symm
  have hlen : strlen [0] < 2 ^ 31 - 1 := by decide
  obtain ⟨h', htail, _⟩ := q_insert_tail_wrap h q l [0] n (fun _ => 0) hv (hfr n (le_refl _)) hlen
  refine ⟨h, q, l, hrun, hv, hl, hfr n (le_refl _), ⟨_, _, q_insert_head_true h q [0] n _ hlen, ?_⟩,
    ⟨h', _, htail, ?_⟩⟩
  · show to_int (q.size + 1) = _
    rw [hqn]
  · show to_int (q.size + 1) = _
    rw [hqn]

/-! ## Scenarios -/

/-- The scenario of the sort: "b", "a", "c" appended to a new queue, sorted,
then removed three times, come out as "a", "b", "c", and `size` ends at 0. -/
theorem scenario_sort :
    (match insert_tails (fun _ => 5) [([98, 0], 1), ([97, 0], 2), ([99, 0], 3)] emptyHeap
        (q_new true) with
      | none => none
      | some (_, h1, q1) =>
        match q_sort 7 h1 q1 with
        | none => none
        | some (h2, q2) =>
          match remove_heads [(some [9, 9], 2), (some [9, 9], 2), (some [9, 9], 2)] h2 q2 with
          | none => none
          | some (rs, _, q3) => some (deliveredStrings rs, q_size q3)) =
      some ([some [97], some [98], some [99]], 0) := by
  decide

/-- The scenario of the reversal: "x" then "y" inserted at the head of a new
queue, reversed, then removed twice, come out as "x", "y". -/
theorem scenario_reverse :
    (match insert_heads (fun _ => 5) [([120, 0], 1), ([121, 0], 2)] emptyHeap (q_new true) with
      | none => none
      | some (_, h1, q1) =>
        match q_reverse 2 h1 q1 with
        | none => none
        | some (h2, q2) =>
          match remove_heads [(some [9, 9], 2), (some [9, 9], 2)] h2 q2 with
          | none => none
          | some (rs, _, q3) => some (deliveredStrings rs, q_size q3)) =
      some ([some [120], some [121]], 0) := by
  decide

/-! ## Claims on q_sort -/

/-- C2: on every queue whose strings are present, `q_sort` returns and leaves
from `head` a chain `l'` that is a permutation of the chain `l` it found;
every cell keeps its allocation status and its `value` (no node is created,
lost or given another string), the cells outside `l` are untouched, and
`size` is unchanged. -/
theorem q_sort_perm (fuel : Nat) (h : Heap) (q : queue_t) (l : List Nat)
    (hc : isChain h q.head l) (hv : ValuesPresent h l) (hf : 2 * l.length + 1 ≤ fuel) :
    ∃ h' q' l', q_sort fuel h (some q) = some (h', some q') ∧
      isChain h' q'.head l' ∧ l'.Perm l ∧
      (∀ x, cellValue h' x = cellValue h x) ∧ (∀ x, x ∉ l → h' x = h x) ∧
      q'.size = q.size := by
  by_cases hsmall : q.size = 0 ∨ l.length < 2
  · exact ⟨h, q, l, q_sort_small fuel h q l hc hsmall, hc, List.Perm.refl l, fun _ => rfl,
      fun _ _ => rfl, rfl⟩
  · have hs0 : q.size ≠ 0 := fun e => hsmall (Or.inl e)
    have h2 : 2 ≤ l.length := by
      by_contra hlt
      exact hsmall (Or.inr (by omega))
    obtain ⟨h', q', l', hrun, hch, _, hperm, _, _, hsz, hfr, hcv⟩ :=
      q_sort_spec fuel h q l hc hs0 h2 hv hf
    exact ⟨h', q', l', hrun, hch, hperm, hcv, hfr, hsz⟩

theorem q_sort_perm_witness :
    isChain heapBAC queueBAC.head [1, 2, 3] ∧ ValuesPresent heapBAC [1, 2, 3] ∧
    ∃ h' q' l', q_sort 7 heapBAC (some queueBAC) = some (h', some q') ∧
      isChain h' q'.head l' ∧ l'.Perm [1, 2, 3] ∧
      (∀ x, cellValue h' x = cellValue heapBAC x) ∧ (∀ x, x ∉ [1, 2, 3] → h' x = heapBAC x) ∧
      q'.size = queueBAC.size :=
  ⟨by decide, by decide,
    q_sort_perm 7 heapBAC queueBAC [1, 2, 3] (by decide) (by decide) (by decide)⟩

/-- C10: on a well-formed queue with at least two elements (strings present),
when `q_sort` returns, the chain `l'` from `head` is the sorted permutation of
the old chain, `head` is its first node and `tail` is its last node, a node
whose `next` is `NULL`. -/
theorem q_sort_head_tail (fuel : Nat) (h : Heap) (q : queue_t) (l : List Nat)
    (hw : WellFormed h q l) (h2 : 2 ≤ l.length) (hv : ValuesPresent h l)
    (hf : 2 * l.length + 1 ≤ fuel) :
    ∃ h' q' l', q_sort fuel h (some q) = some (h', some q') ∧
      isChain h' q'.head l' ∧ l'.Pairwise (leAt h') ∧ l'.Perm l ∧
      q'.head = l'.head? ∧ q'.tail = l'.getLast? ∧
      ∃ t node, q'.tail = some t ∧ h' t = some node ∧ node.next = none := by
  obtain ⟨hc, hs, _⟩ := hw
  have hs0 : q.size ≠ 0 := by
    intro e
    rw [hs] at e
    have : l.length = 0 := by exact_mod_cast e
    omega
  obtain ⟨h', q', l', hrun, hch, hpw, hperm, hhead, htail, _⟩ :=
    q_sort_spec fuel h q l hc hs0 h2 hv hf
  refine ⟨h', q', l', hrun, hch, hpw, hperm, hhead, htail, ?_⟩
  obtain ⟨t, ht⟩ : ∃ t, l'.getLast? = some t := by
    cases hx : l'.getLast? with
    | none =>
      have := congrArg List.length (List.getLast?_eq_none_iff.1 hx)
      rw [hperm.length_eq] at this
      simp only [List.length_nil] at this
      omega
    | some t => exact ⟨t, rfl⟩
  obtain ⟨node, hn, hnext⟩ := chain_last_next hch ht
  exact ⟨t, node, htail.trans ht, hn, hnext⟩

theorem q_sort_head_tail_witness :
    WellFormed heapBAC queueBAC [1, 2, 3] ∧ ValuesPresent heapBAC [1, 2, 3] ∧
    ∃ h' q' l', q_sort 7 heapBAC (some queueBAC) = some (h', some q') ∧
      isChain h' q'.head l' ∧ l'.Pairwise (leAt h') ∧ l'.Perm [1, 2, 3] ∧
      q'.head = l'.head? ∧ q'.tail = l'.getLast? ∧
      ∃ t node, q'.tail = some t ∧ h' t = some node ∧ node.next = none :=
  ⟨by decide, by decide,
    q_sort_head_tail 7 heapBAC queueBAC [1, 2, 3] (by decide) (by decide) (by decide)
      (by decide)⟩


/-! ## Claims on q_reverse -/

/-- C3: on a well-formed non-empty queue with chain `l`, `q_reverse` returns
with the chain `l.reverse` from `head`, made of the same cells (every cell
outside `l` untouched, every `value` kept), `head` at the former tail node,
`tail` at the former head node, and `size` unchanged. -/
theorem q_reverse_reverses (fuel : Nat) (h : Heap) (q : queue_t) (l : List Nat)
    (hw : WellFormed h q l) (hne : l ≠ []) (hf : l.length ≤ fuel) :
    ∃ h' q', q_reverse fuel h (some q) = some (h', some q') ∧
      isChain h' q'.head l.reverse ∧
      q'.head = q.tail ∧ q'.head = l.getLast? ∧
      q'.tail = q.head ∧ q'.tail = l.head? ∧
      q'.size = q.size ∧
      (∀ a, a ∉ l → h' a = h a) ∧ (∀ a, cellValue h' a = cellValue h a) := by
  obtain ⟨hc, hs, ht⟩ := hw
  have hs0 : q.size ≠ 0 := by
    rw [hs]
    cases l with
    | nil => exact absurd rfl hne
    | cons a t => simp; omega
  obtain ⟨h', hrun, hch, hfr, hval⟩ := q_reverse_spec fuel h q l hc hs0 hf
  exact ⟨h', _, hrun, hch, ht.symm, rfl, rfl, isChain_head hc, rfl, hfr, hval⟩

theorem q_reverse_reverses_witness :
    WellFormed heapBAC queueBAC [1, 2, 3] ∧
    ∃ h' q', q_reverse 3 heapBAC (some queueBAC) = some (h', some q') ∧
      isChain h' q'.head [1, 2, 3].reverse ∧
      q'.head = queueBAC.tail ∧ q'.head = [1, 2, 3].getLast? ∧
      q'.tail = queueBAC.head ∧ q'.tail = [1, 2, 3].head? ∧
      q'.size = queueBAC.size ∧
      (∀ a, a ∉ [1, 2, 3] → h' a = heapBAC a) ∧
      (∀ a, cellValue h' a = cellValue heapBAC a) :=
  ⟨by decide, q_reverse_reverses 3 heapBAC queueBAC [1, 2, 3] (by decide) (by decide) (by decide)⟩

/-- C9: on a well-formed queue, `q_reverse` applied twice returns the heap
and the queue structure it started from: every cell (so every `next` link and
every `value`), `head`, `tail` and `size` are as before. -/
theorem q_reverse_twice (fuel : Nat) (h : Heap) (q : queue_t) (l : List Nat)
    (hw : WellFormed h q l) (hf : l.length ≤ fuel) :
    ∃ h1 q1, q_reverse fuel h (some q) = some (h1, q1) ∧
      q_reverse fuel h1 q1 = some (h, some q) := by
  obtain ⟨hc, hs, ht⟩ := hw
  by_cases hs0 : q.size = 0
  · exact ⟨h, some q, by simp [q_reverse, hs0], by simp [q_reverse, hs0]⟩
  · obtain ⟨h1, hrun1, hch1, hfr1, hval1⟩ := q_reverse_spec fuel h q l hc hs0 hf
    obtain ⟨h2, hrun2, hch2, hfr2, hval2⟩ :=
      q_reverse_spec fuel h1 { head := l.getLast?, tail := q.head, size := q.size }
        l.reverse hch1 hs0 (by simpa using hf)
    refine ⟨h1, _, hrun1, ?_⟩
    rw [hrun2]
    have hhead : l.reverse.getLast? = q.head := by
      rw [List.getLast?_reverse]; exact (isChain_head hc).symm
    have hch2' : isChain h2 q.head l := by
      rw [hhead] at hch2; simpa using hch2
    have hheap : h2 = h := by
      funext a
      by_cases ha : a ∈ l
      · exact chain_cells_eq hc hch2' (fun x => (hval2 x).trans (hval1 x)) a ha
      · rw [hfr2 a (by simpa using ha), hfr1 a ha]
    rw [hheap]
    cases q
    simp_all

theorem q_reverse_twice_witness :
    WellFormed heapBAC queueBAC [1, 2, 3] ∧
    ∃ h1 q1, q_reverse 3 heapBAC (some queueBAC) = some (h1, q1) ∧
      q_reverse 3 h1 q1 = some (heapBAC, some queueBAC) :=
  ⟨by decide, q_reverse_twice 3 heapBAC queueBAC [1, 2, 3] (by decide) (by decide)⟩


/-! ## Claims on q_remove_head -/

/-- C4: evaluation of `q_remove_head` at the front string "ab" (length 2) with a
buffer capacity of 2: the call returns `true` and leaves the bytes `a`, `b`
in the two bytes of the buffer, with no zero byte among them. -/
theorem q_remove_head_capacity_eq_length :
    (q_remove_head heapAB (some queueAB) (some [9, 9, 9]) 2).map
        (fun r => (r.1, r.2.2.2, r.2.2.2.map (fun b => decide (0 ∈ b.take 2)))) =
      some (true, some [97, 98, 9], some false) := by
  decide

/-- C5, as stated, fails: removing the only element of a one-element queue
returns `true` and leaves `size = 0` and `head = NULL`, but `tail` still
holds the address `1` of the removed node. -/
theorem q_remove_head_last_keeps_tail :
    (q_remove_head heapAB (some queueAB) (some [9, 9, 9]) 3).map (fun r => (r.1, r.2.2.1)) =
      some (true, some { head := none, tail := some 1, size := 0 }) := by
  decide

/-- C5, amended: on a queue whose chain `l` holds `n` elements, after `n`
calls of `q_remove_head` that all return `true`, `size` is 0 and `head` is
`NULL`; `tail` keeps the value it had before the calls, and every node of `l`
has been freed (the other cells are untouched). -/
theorem q_remove_head_all (h : Heap) (q : queue_t) (l : List Nat)
    (calls : List (Option (List Nat) × Nat)) (rs : List (Bool × Option (List Nat)))
    (h' : Heap) (q' : Option queue_t)
    (hc : isChain h q.head l) (hs : q.size = l.length)
    (hlen : calls.length = l.length)
    (hrun : remove_heads calls h (some q) = some (rs, h', q'))
    (hall : ∀ r ∈ rs, r.1 = true) :
    q' = some { head := none, tail := q.tail, size := 0 } ∧
      (∀ a, a ∈ l → h' a = none) ∧ (∀ a, a ∉ l → h' a = h a) :=
  remove_heads_all l h q calls rs h' q' hc hs hlen hrun hall

theorem q_remove_head_all_witness :
    remove_heads [(some [9, 9, 9], 3), (some [9, 9, 9], 2), (some [9, 9], 2)] heapBAC
        (some queueBAC) =
      some ([(true, some [98, 0, 0]), (true, some [97, 0, 9]), (true, some [99, 0])],
        free_ele (free_ele (free_ele heapBAC 1) 2) 3,
        some { head := none, tail := some 3, size := 0 }) ∧
    (some { head := none, tail := some 3, size := 0 } : Option queue_t) =
        some { head := none, tail := queueBAC.tail, size := 0 } ∧
      (∀ a, a ∈ [1, 2, 3] → free_ele (free_ele (free_ele heapBAC 1) 2) 3 a = none) ∧
      (∀ a, a ∉ [1, 2, 3] → free_ele (free_ele (free_ele heapBAC 1) 2) 3 a = heapBAC a) :=
  ⟨by rfl,
    q_remove_head_all heapBAC queueBAC [1, 2, 3]
      [(some [9, 9, 9], 3), (some [9, 9, 9], 2), (some [9, 9], 2)]
      [(true, some [98, 0, 0]), (true, some [97, 0, 9]), (true, some [99, 0])]
      (free_ele (free_ele (free_ele heapBAC 1) 2) 3)
      (some { head := none, tail := some 3, size := 0 })
      (by decide) (by decide) (by decide) (by rfl) (by decide)⟩

/-! ## Claims on insertion and on the order of removal -/

/-- C7, as stated, fails: (1) `q_insert_head` of the string of `2^32 + 2` letters
`a` into the new queue, both allocations succeeding, returns `true` and stores
the two-letter string "aa", because `int s_len` holds the length modulo `2^32`.
(2) On the valid queue of `2^31 - 1` elements that as many head insertions
build, one more `q_insert_head` returns `true` and leaves `size` at `-2^31`,
not at `2^31`. -/
theorem q_insert_head_narrows :
    (q_insert_head emptyHeap (q_new true) (some (longString 4294967298)) (some 1)
          (some (fun _ => 0)) =
        some (true,
          Function.update emptyHeap 1 (some { value := some [97, 97, 0], next := none }),
          some { head := some 1, tail := some 1, size := 1 }) ∧
      strlen (longString 4294967298) = 4294967298) ∧
    ∃ h q l, run (insertCalls 2147483647) emptyHeap (q_new true) = some (h, some q) ∧
      Valid h q l ∧ l.length = 2147483647 ∧ h 2147483647 = none ∧
      ∃ h' q', q_insert_head h (some q) (some [0]) (some 2147483647) (some (fun _ => 0)) =
          some (true, h', some q') ∧
        q'.size = -2147483648 := by
  obtain ⟨hh, _, hlen⟩ := q_insert_long_new 4294967298 (by decide)
  obtain ⟨h, q, l, hrun, hv, hl, hfr, ⟨h', q', hins, hsz⟩, _⟩ :=
    insert_after_inserts 2147483647 (by decide)
  exact ⟨⟨hh, hlen⟩, h, q, l, hrun, hv, hl, hfr, h', q', hins, hsz.trans (by decide)⟩

/-- C7, amended: on a valid queue whose chain `l` has fewer than `2^31 - 1`
nodes, a `q_insert_head` of a string `s` shorter than `2^31 - 1` bytes whose
two allocations succeed (the node at the fresh address `na`) returns `true`;
the chain becomes `na :: l`, the new node stores the characters of `s` with
their terminator and points to the old head, every other cell is untouched,
`size` grows by one, `head` is the new node, and `tail` is the new node when
the queue was empty and is unchanged otherwise. -/
theorem q_insert_head_success (h : Heap) (q : queue_t) (l : List Nat) (s : List Nat)
    (na : Nat) (g : Nat → Nat) (hc : isChain h q.head l) (hs : q.size = l.length)
    (hfresh : h na = none) (hlen : strlen s < 2 ^ 31 - 1) (hcount : l.length < 2 ^ 31 - 1) :
    ∃ h' q', q_insert_head h (some q) (some s) (some na) (some g) = some (true, h', some q') ∧
      isChain h' q'.head (na :: l) ∧
      h' na = some { value := some (cstr s ++ [0]), next := q.head } ∧
      cstr (bytesAt h' na) = cstr s ∧
      (∀ a, a ≠ na → h' a = h a) ∧
      q'.size = q.size + 1 ∧ q'.head = some na ∧
      q'.tail = (if l = [] then some na else q.tail) := by
  obtain ⟨hrun, hch⟩ := q_insert_head_spec h q l s na g hc hs hfresh hlen (by omega)
  refine ⟨_, _, hrun, hch, by simp, ?_, ?_, rfl, rfl, rfl⟩
  · simp [bytesAt, valueAt, cstr_terminated]
  · intro a ha; simp [Function.update, ha]

theorem q_insert_head_success_witness :
    isChain heapBAC queueBAC.head [1, 2, 3] ∧
    ∃ h' q', q_insert_head heapBAC (some queueBAC) (some [120, 121, 0]) (some 7)
        (some (fun _ => 5)) = some (true, h', some q') ∧
      isChain h' q'.head (7 :: [1, 2, 3]) ∧
      h' 7 = some { value := some (cstr [120, 121, 0] ++ [0]), next := queueBAC.head } ∧
      cstr (bytesAt h' 7) = cstr [120, 121, 0] ∧
      (∀ a, a ≠ 7 → h' a = heapBAC a) ∧
      q'.size = queueBAC.size + 1 ∧ q'.head = some 7 ∧
      q'.tail = (if [1, 2, 3] = [] then some 7 else queueBAC.tail) :=
  ⟨by decide,
    q_insert_head_success heapBAC queueBAC [1, 2, 3] [120, 121, 0] 7 (fun _ => 5)
      (by decide) (by decide) (by decide) (by decide) (by decide)⟩

/-- C8, as stated, fails: (1) `q_insert_tail` of the string of `2^32 + 2` letters
`a` into the new queue, both allocations succeeding, returns `true` and stores
the two-letter string "aa", because `int s_len` holds the length modulo `2^32`.
(2) On the valid queue of `2^31 - 1` elements that as many head insertions
build, a `q_insert_tail` returns `true` and leaves `size` at `-2^31`, not at
`2^31`. -/
theorem q_insert_tail_narrows :
    (q_insert_tail emptyHeap (q_new true) (some (longString 4294967298)) (some 1)
          (some (fun _ => 0)) =
        some (true,
          Function.update emptyHeap 1 (some { value := some [97, 97, 0], next := none }),
          some { head := some 1, tail := some 1, size := 1 }) ∧
      strlen (longString 4294967298) = 4294967298) ∧
    ∃ h q l, run (insertCalls 2147483647) emptyHeap (q_new true) = some (h, some q) ∧
      Valid h q l ∧ l.length = 2147483647 ∧ h 2147483647 = none ∧
      ∃ h' q', q_insert_tail h (some q) (some [0]) (some 2147483647) (some (fun _ => 0)) =
          some (true, h', some q') ∧
        q'.size = -2147483648 := by
  obtain ⟨_, ht, hlen⟩ := q_insert_long_new 4294967298 (by decide)
  obtain ⟨h, q, l, hrun, hv, hl, hfr, _, ⟨h', q', hins, hsz⟩⟩ :=
    insert_after_inserts 2147483647 (by decide)
  exact ⟨⟨ht, hlen⟩, h, q, l, hrun, hv, hl, hfr, h', q', hins, hsz.trans (by decide)⟩

/-- C8, amended: on a queue that satisfies the invariant of the operations
(chain `l` from `head`, `size` its length, `tail` its last node when it is not
empty) with fewer than `2^31 - 1` nodes, a `q_insert_tail` of a string `s`
shorter than `2^31 - 1` bytes whose two allocations succeed (the node at the
fresh address `na`) returns `true`; the chain becomes `l ++ [na]`, the new node
stores the characters of `s` with their terminator and has no successor, the
old cells keep their `value` and all but the old last node are untouched,
`size` grows by one, `tail` is the new node, and `head` is the new node when
the queue was empty and is unchanged otherwise. -/
theorem q_insert_tail_success (h : Heap) (q : queue_t) (l : List Nat) (s : List Nat)
    (na : Nat) (g : Nat → Nat) (hv : Valid h q l) (hfresh : h na = none)
    (hlen : strlen s < 2 ^ 31 - 1) (hcount : l.length < 2 ^ 31 - 1) :
    ∃ h' q', q_insert_tail h (some q) (some s) (some na) (some g) = some (true, h', some q') ∧
      isChain h' q'.head (l ++ [na]) ∧
      h' na = some { value := some (cstr s ++ [0]), next := none } ∧
      cstr (bytesAt h' na) = cstr s ∧
      (∀ a, a ≠ na → cellValue h' a = cellValue h a) ∧
      (∀ a, a ≠ na → some a ≠ l.getLast? → h' a = h a) ∧
      q'.size = q.size + 1 ∧ q'.tail = some na ∧
      q'.head = (if l = [] then some na else q.head) := by
  obtain ⟨h', hrun, hch, hnode, hcv, hfr⟩ :=
    q_insert_tail_valid h q l s na g hv hfresh hlen (by omega)
  refine ⟨h', _, hrun, hch, hnode, ?_, hcv, hfr, rfl, rfl, rfl⟩
  simp [bytesAt, valueAt, hnode, cstr_terminated]

theorem q_insert_tail_success_witness :
    (Valid heapBAC queueBAC [1, 2, 3] ∧
      ∃ h' q', q_insert_tail heapBAC (some queueBAC) (some [120, 121, 0]) (some 7)
          (some (fun _ => 5)) = some (true, h', some q') ∧
        isChain h' q'.head ([1, 2, 3] ++ [7]) ∧
        h' 7 = some { value := some (cstr [120, 121, 0] ++ [0]), next := none } ∧
        cstr (bytesAt h' 7) = cstr [120, 121, 0] ∧
        (∀ a, a ≠ 7 → cellValue h' a = cellValue heapBAC a) ∧
        (∀ a, a ≠ 7 → some a ≠ [1, 2, 3].getLast? → h' a = heapBAC a) ∧
        q'.size = queueBAC.size + 1 ∧ q'.tail = some 7 ∧
        q'.head = (if [1, 2, 3] = [] then some 7 else queueBAC.head)) ∧
    (Valid emptyHeap { head := none, tail := some 3, size := 0 } [] ∧
      ∃ h' q', q_insert_tail emptyHeap (some { head := none, tail := some 3, size := 0 })
          (some [120, 121, 0]) (some 7) (some (fun _ => 5)) = some (true, h', some q') ∧
        isChain h' q'.head ([] ++ [7]) ∧
        h' 7 = some { value := some (cstr [120, 121, 0] ++ [0]), next := none } ∧
        cstr (bytesAt h' 7) = cstr [120, 121, 0] ∧
        (∀ a, a ≠ 7 → cellValue h' a = cellValue emptyHeap a) ∧
        (∀ a, a ≠ 7 → some a ≠ ([] : List Nat).getLast? → h' a = emptyHeap a) ∧
        q'.size = ({ head := none, tail := some 3, size := 0 } : queue_t).size + 1 ∧
        q'.tail = some 7 ∧
        q'.head = (if ([] : List Nat) = [] then some 7 else none)) :=
  ⟨⟨by decide,
      q_insert_tail_success heapBAC queueBAC [1, 2, 3] [120, 121, 0] 7 (fun _ => 5)
        (by decide) (by decide) (by decide) (by decide)⟩,
    ⟨by decide,
      q_insert_tail_success emptyHeap { head := none, tail := some 3, size := 0 } []
        [120, 121, 0] 7 (fun _ => 5) (by decide) (by decide) (by decide) (by decide)⟩⟩

/-- C6, as stated, fails: (1) the string of `2^32 + 2` letters `a`, inserted with
`q_insert_tail` into the new queue (the call returns `true`), comes out of
`q_remove_head`, called with a buffer of `2^32 + 3` bytes, as the two-letter
string "aa". (2) After `2^32` head insertions that all succeed, `size` has wrapped
around to 0 and `q_remove_head` returns `false`, although the chain holds
`2^32` nodes. -/
theorem q_remove_head_order_narrowed :
    (∃ h1 q1 rs h2 q2,
      insert_tails (fun _ => 0) [(longString 4294967298, 1)] emptyHeap (q_new true) =
        some ([true], h1, q1) ∧
      remove_heads [(some (List.replicate 4294967299 9), 4294967299)] h1 q1 =
        some (rs, h2, q2) ∧
      rs.map Prod.fst = [true] ∧ deliveredStrings rs = [some [97, 97]] ∧
      strlen (longString 4294967298) = 4294967298) ∧
    ∃ h q, run (insertCalls 4294967296) emptyHeap (q_new true) = some (h, some q) ∧
      isChain h q.head (List.range 4294967296).reverse ∧
      q_remove_head h (some q) (some [9, 9]) 2 = some (false, h, some q, some [9, 9]) := by
  obtain ⟨h1, q1, rs, h2, q2, hins, hrem, hfst, hdel⟩ :=
    fifo_long 4294967298 (by decide) (List.replicate 4294967299 9) 4294967299 (by decide)
      (le_of_eq (List.length_replicate 4294967299 9).symm)
  obtain ⟨h, q, hrun, hch, _, hfalse⟩ := remove_after_wrap 4294967296 (by decide)
  exact ⟨⟨h1, q1, rs, h2, q2, hins, hrem, hfst, hdel, strlen_longString 4294967298⟩,
    h, q, hrun, hch, hfalse⟩

/-- C6, amended: (1) on a queue whose chain `l` has fewer than `2^31` nodes and
holds present strings shorter than `2^31 - 1` bytes, successive `q_remove_head`
calls (at most as many as there are nodes) with buffers whose capacity exceeds
the length of every stored string all return `true`, deliver the strings of
`l` in chain order, each call taking one node off the front: after `k` calls
the chain is `l.drop k`, with its strings unchanged, and `size` has dropped by
`k`. (2) Fewer than `2^31` strings, each shorter than `2^31 - 1` bytes,
inserted with `q_insert_tail` into a new queue come out in insertion order;
(3) inserted with `q_insert_head` they come out in the reverse of insertion
order. -/
theorem q_remove_head_order :
    (∀ (h : Heap) (q : queue_t) (l : List Nat) (calls : List (List Nat × Nat)),
      isChain h q.head l → q.size = l.length → ValuesPresent h l →
      l.length < 2 ^ 31 → (∀ a ∈ l, strlen (bytesAt h a) < 2 ^ 31 - 1) →
      calls.length ≤ l.length →
      (∀ call ∈ calls, ∀ a ∈ l, strlen (bytesAt h a) < call.2 ∧ call.2 ≤ call.1.length) →
      ∃ rs h' q', remove_heads (calls.map (fun bc => (some bc.1, bc.2))) h (some q) =
          some (rs, h', some q') ∧
        rs.map Prod.fst = List.replicate calls.length true ∧
        deliveredStrings rs = (l.take calls.length).map (fun a => some (cstr (bytesAt h a))) ∧
        isChain h' q'.head (l.drop calls.length) ∧
        chainValues h' (l.drop calls.length) = chainValues h (l.drop calls.length) ∧
        q'.size = q.size - calls.length) ∧
    (∀ (h : Heap) (g : Nat → Nat) (ins : List (List Nat × Nat)) (calls : List (List Nat × Nat)),
      (ins.map Prod.snd).Nodup → (∀ x ∈ ins, h x.2 = none) →
      ins.length < 2 ^ 31 → (∀ x ∈ ins, strlen x.1 < 2 ^ 31 - 1) →
      calls.length = ins.length →
      (∀ call ∈ calls, ∀ x ∈ ins, strlen x.1 < call.2 ∧ call.2 ≤ call.1.length) →
      ∃ h1 q1 rs h2 q2,
        insert_tails g ins h (q_new true) = some (List.replicate ins.length true, h1, q1) ∧
        remove_heads (calls.map (fun bc => (some bc.1, bc.2))) h1 q1 = some (rs, h2, q2) ∧
        rs.map Prod.fst = List.replicate ins.length true ∧
        deliveredStrings rs = ins.map (fun x => some (cstr x.1))) ∧
    (∀ (h : Heap) (g : Nat → Nat) (ins : List (List Nat × Nat)) (calls : List (List Nat × Nat)),
      (ins.map Prod.snd).Nodup → (∀ x ∈ ins, h x.2 = none) →
      ins.length < 2 ^ 31 → (∀ x ∈ ins, strlen x.1 < 2 ^ 31 - 1) →
      calls.length = ins.length →
      (∀ call ∈ calls, ∀ x ∈ ins, strlen x.1 < call.2 ∧ call.2 ≤ call.1.length) →
      ∃ h1 q1 rs h2 q2,
        insert_heads g ins h (q_new true) = some (List.replicate ins.length true, h1, q1) ∧
        remove_heads (calls.map (fun bc => (some bc.1, bc.2))) h1 q1 = some (rs, h2, q2) ∧
        rs.map Prod.fst = List.replicate ins.length true ∧
        deliveredStrings rs = ins.reverse.map (fun x => some (cstr x.1))) := by
  refine ⟨?_, ?_, ?_⟩
  · intro h q l calls hc hs hvp _ _ hlen hcap
    obtain ⟨rs, h', q', hrun, hfst, hdel, hch, hsz, _, hfr⟩ :=
      remove_heads_deliver calls l h q hc hs hvp hlen hcap
    refine ⟨rs, h', q', hrun, hfst, hdel, hch, ?_, hsz⟩
    have hnd := isChain_nodup hc
    rw [← List.take_append_drop calls.length l] at hnd
    have hdisj := List.disjoint_of_nodup_append hnd
    unfold chainValues
    apply List.map_congr_left
    intro a ha
    unfold bytesAt valueAt
    rw [hfr a (fun e => hdisj e ha)]
  · intro h g ins calls hnd hfresh hcount hstr hlen hcap
    have hw0 : Valid h { head := none, tail := none, size := 0 } [] := (valid_new h).1
    obtain ⟨h1, q1, hrun1, hw1, _, hnew⟩ :=
      insert_tails_spec g ins h _ [] hw0 hnd hfresh hstr (by simpa using hcount)
    simp only [List.nil_append] at hw1
    have hbytes : ∀ x ∈ ins, bytesAt h1 x.2 = cstr x.1 ++ [0] :=
      fun x hx => bytesAt_of_cellValue (hnew x hx)
    obtain ⟨rs, h2, q2, hrun2, hfst, hdel, _⟩ :=
      remove_heads_deliver calls (ins.map Prod.snd) h1 q1 hw1.1 hw1.2.1
        (by
          intro a ha
          obtain ⟨x, hx, rfl⟩ := List.mem_map.1 ha
          rw [valueAt_of_cellValue (hnew x hx)]; rfl)
        (by simp [hlen])
        (by
          intro call hcall a ha
          obtain ⟨x, hx, rfl⟩ := List.mem_map.1 ha
          rw [hbytes x hx, strlen_terminated]
          exact hcap call hcall x hx)
    refine ⟨h1, some q1, rs, h2, some q2, by simpa [q_new] using hrun1, hrun2,
      by rw [hfst, hlen], ?_⟩
    rw [hdel, hlen, ← List.length_map ins Prod.snd, List.take_length, List.map_map]
    apply List.map_congr_left
    intro x hx
    simp [hbytes x hx, cstr_terminated]
  · intro h g ins calls hnd hfresh hcount hstr hlen hcap
    obtain ⟨h1, q1, hrun1, hch1, hs1, _, hnew⟩ :=
      insert_heads_spec g ins h { head := none, tail := none, size := 0 } []
        ((isChain_nil _ _).2 rfl) rfl hnd hfresh hstr (by simpa using hcount)
    simp only [List.append_nil] at hch1
    have hbytes : ∀ x ∈ ins, bytesAt h1 x.2 = cstr x.1 ++ [0] :=
      fun x hx => bytesAt_of_cellValue (hnew x hx)
    obtain ⟨rs, h2, q2, hrun2, hfst, hdel, _⟩ :=
      remove_heads_deliver calls (ins.map Prod.snd).reverse h1 q1 hch1 (by simp [hs1])
        (by
          intro a ha
          obtain ⟨x, hx, rfl⟩ := List.mem_map.1 (List.mem_reverse.1 ha)
          rw [valueAt_of_cellValue (hnew x hx)]; rfl)
        (by simp [hlen])
        (by
          intro call hcall a ha
          obtain ⟨x, hx, rfl⟩ := List.mem_map.1 (List.mem_reverse.1 ha)
          rw [hbytes x hx, strlen_terminated]
          exact hcap call hcall x hx)
    refine ⟨h1, some q1, rs, h2, some q2, by simpa [q_new] using hrun1, hrun2,
      by rw [hfst, hlen], ?_⟩
    have hl : calls.length = (ins.map Prod.snd).reverse.length := by simp [hlen]
    rw [hdel, hl, List.take_length, ← List.map_reverse, List.map_map]
    apply List.map_congr_left
    intro x hx
    simp [hbytes x (List.mem_reverse.1 hx), cstr_terminated]

theorem q_remove_head_order_witness :
    (∃ rs h' q', remove_heads
          ([([9, 9, 9], 3), ([9, 9], 2)].map (fun bc => (some bc.1, bc.2))) heapBAC
          (some queueBAC) = some (rs, h', some q') ∧
        rs.map Prod.fst = List.replicate 2 true ∧
        deliveredStrings rs = ([1, 2, 3].take 2).map (fun a => some (cstr (bytesAt heapBAC a))) ∧
        isChain h' q'.head ([1, 2, 3].drop 2) ∧
        chainValues h' ([1, 2, 3].drop 2) = chainValues heapBAC ([1, 2, 3].drop 2) ∧
        q'.size = queueBAC.size - (2 : Nat)) ∧
    (∃ h1 q1 rs h2 q2,
        insert_tails (fun _ => 5) [([98, 0], 1), ([97, 0], 2)] emptyHeap (q_new true) =
          some (List.replicate 2 true, h1, q1) ∧
        remove_heads ([([9, 9, 9], 3), ([9, 9], 2)].map (fun bc => (some bc.1, bc.2))) h1 q1 =
          some (rs, h2, q2) ∧
        rs.map Prod.fst = List.replicate 2 true ∧
        deliveredStrings rs = [([98, 0], 1), ([97, 0], 2)].map (fun x => some (cstr x.1))) ∧
    (∃ h1 q1 rs h2 q2,
        insert_heads (fun _ => 5) [([98, 0], 1), ([97, 0], 2)] emptyHeap (q_new true) =
          some (List.replicate 2 true, h1, q1) ∧
        remove_heads ([([9, 9, 9], 3), ([9, 9], 2)].map (fun bc => (some bc.1, bc.2))) h1 q1 =
          some (rs, h2, q2) ∧
        rs.map Prod.fst = List.replicate 2 true ∧
        deliveredStrings rs =
          [([98, 0], 1), ([97, 0], 2)].reverse.map (fun x => some (cstr x.1))) :=
  ⟨q_remove_head_order.1 heapBAC queueBAC [1, 2, 3] [([9, 9, 9], 3), ([9, 9], 2)]
      (by decide) (by decide) (by decide) (by decide) (by decide) (by decide) (by decide),
    q_remove_head_order.2.1 emptyHeap (fun _ => 5) [([98, 0], 1), ([97, 0], 2)]
      [([9, 9, 9], 3), ([9, 9], 2)] (by decide) (by decide) (by decide) (by decide)
      (by decide) (by decide),
    q_remove_head_order.2.2 emptyHeap (fun _ => 5) [([98, 0], 1), ([97, 0], 2)]
      [([9, 9, 9], 3), ([9, 9], 2)] (by decide) (by decide) (by decide) (by decide)
      (by decide) (by decide)⟩

/-! ## Claims on the idempotence of q_sort -/

/-- C11: `q_sort` is idempotent on values. (1) On a queue whose strings are
already in ascending order along the chain, `q_sort` returns and leaves from
`head` a chain carrying the same sequence of strings. (2) On every queue with
present strings, a second `q_sort` leaves the sequence of strings the first
one produced. -/
theorem q_sort_idempotent :
    (∀ (fuel : Nat) (h : Heap) (q : queue_t) (l : List Nat),
      isChain h q.head l → ValuesPresent h l →
      List.Chain' (fun x y => strcmp x y ≤ 0) (chainValues h l) →
      2 * l.length + 1 ≤ fuel →
      ∃ h' q' l', q_sort fuel h (some q) = some (h', some q') ∧
        isChain h' q'.head l' ∧
        (chainValues h' l').map cstr = (chainValues h l).map cstr) ∧
    (∀ (fuel : Nat) (h : Heap) (q : queue_t) (l : List Nat),
      isChain h q.head l → ValuesPresent h l → 2 * l.length + 1 ≤ fuel →
      ∃ h1 q1 l1 h2 q2 l2, q_sort fuel h (some q) = some (h1, some q1) ∧
        isChain h1 q1.head l1 ∧
        q_sort fuel h1 (some q1) = some (h2, some q2) ∧
        isChain h2 q2.head l2 ∧
        (chainValues h2 l2).map cstr = (chainValues h1 l1).map cstr) := by
  constructor
  · intro fuel h q l hc hv hs hf
    exact q_sort_sorted_input fuel h q l hc hv (pairwise_of_chain_values h l hs) hf
  · intro fuel h q l hc hv hf
    obtain ⟨h1, q1, l1, hrun1, hch1, hperm, hcv, _, hcase⟩ := q_sort_any fuel h q l hc hv hf
    have hv1 : ValuesPresent h1 l1 :=
      valuesPresent_congr hcv (fun x hx => hv x (hperm.mem_iff.1 hx))
    have hf1 : 2 * l1.length + 1 ≤ fuel := by rw [hperm.length_eq]; exact hf
    rcases hcase with hpw | ⟨rfl, rfl, rfl⟩
    · obtain ⟨h2, q2, l2, hrun2, hch2, hval⟩ :=
        q_sort_sorted_input fuel h1 q1 l1 hch1 hv1 hpw hf1
      exact ⟨h1, q1, l1, h2, q2, l2, hrun1, hch1, hrun2, hch2, hval⟩
    · exact ⟨h1, q1, l1, h1, q1, l1, hrun1, hch1, hrun1, hch1, rfl⟩

theorem q_sort_idempotent_witness :
    (∃ h' q' l', q_sort 5 heapAA (some queueAA) = some (h', some q') ∧
        isChain h' q'.head l' ∧
        (chainValues h' l').map cstr = (chainValues heapAA [1, 2]).map cstr) ∧
    (∃ h1 q1 l1 h2 q2 l2, q_sort 7 heapBAC (some queueBAC) = some (h1, some q1) ∧
        isChain h1 q1.head l1 ∧
        q_sort 7 h1 (some q1) = some (h2, some q2) ∧
        isChain h2 q2.head l2 ∧
        (chainValues h2 l2).map cstr = (chainValues h1 l1).map cstr) :=
  ⟨q_sort_idempotent.1 5 heapAA queueAA [1, 2] (by decide) (by decide)
      (by
        show List.Chain' _ [[97, 0], [97, 0]]
        exact List.chain'_cons.2 ⟨by decide, List.chain'_singleton _⟩)
      (by decide),
    q_sort_idempotent.2 7 heapBAC queueBAC [1, 2, 3] (by decide) (by decide) (by decide)⟩


/-! ## Claims on return values and on small queues -/

/-- C12, as stated, fails: with the queue, the string and both allocations
present, `q_insert_head` and `q_insert_tail` of the string of `2^32 - 1`
letters `a` do not return `true`: `int s_len` is `-1`, the block allocated has
`s_len + 1 = 0` bytes and `strncpy` is asked to write `(size_t) -1` bytes into
it, which is undefined. -/
theorem q_insert_overrun :
    q_insert_head emptyHeap (q_new true) (some (longString 4294967295)) (some 1)
        (some (fun _ => 0)) = none ∧
      q_insert_tail emptyHeap (q_new true) (some (longString 4294967295)) (some 1)
        (some (fun _ => 0)) = none ∧
      strlen (longString 4294967295) = 4294967295 := by
  have hneg : to_int (strlen (longString 4294967295)) < 0 := by
    rw [strlen_longString]; decide
  have hq : q_new true = some { head := none, tail := none, size := 0 } := rfl
  rw [hq]
  exact ⟨(q_insert_negative emptyHeap _ _ 1 _ hneg).1, (q_insert_negative emptyHeap _ _ 1 _ hneg).2,
    strlen_longString 4294967295⟩

/-- C12, amended: (1) `q_insert_head` and `q_insert_tail` return `false` and
leave the heap and the queue structure as they were whenever the queue handle
is absent, the string is absent, the allocation of the node fails or the
allocation of the string copy fails. (2) With all four present and a string
shorter than `2^31 - 1` bytes `q_insert_head` returns `true`, and (3) so does
`q_insert_tail` on a queue that satisfies the invariant of the operations. -/
theorem q_insert_return_value :
    (∀ (h : Heap) (q : Option queue_t) (s : Option (List Nat)) (newh : Option Nat)
        (g : Option (Nat → Nat)),
      (q = none ∨ s = none ∨ newh = none ∨ g = none) →
      q_insert_head h q s newh g = some (false, h, q) ∧
        q_insert_tail h q s newh g = some (false, h, q)) ∧
    (∀ (h : Heap) (q : queue_t) (s : List Nat) (na : Nat) (g : Nat → Nat),
      strlen s < 2 ^ 31 - 1 →
      ∃ h' q', q_insert_head h (some q) (some s) (some na) (some g) =
        some (true, h', some q')) ∧
    (∀ (h : Heap) (q : queue_t) (l : List Nat) (s : List Nat) (na : Nat) (g : Nat → Nat),
      Valid h q l → h na = none → strlen s < 2 ^ 31 - 1 →
      ∃ h' q', q_insert_tail h (some q) (some s) (some na) (some g) =
        some (true, h', some q')) := by
  refine ⟨?_, ?_, ?_⟩
  · intro h q s newh g habs
    exact ⟨q_insert_head_false h q s newh g habs, q_insert_tail_false h q s newh g habs⟩
  · intro h q s na g hlen
    exact ⟨_, _, q_insert_head_true h q s na g hlen⟩
  · intro h q l s na g hv hfresh hlen
    obtain ⟨h', hrun, _⟩ := q_insert_tail_wrap h q l s na g hv hfresh hlen
    exact ⟨h', _, hrun⟩

theorem q_insert_return_value_witness :
    (q_insert_head heapBAC (some queueBAC) (some [120, 0]) none (some (fun _ => 5)) =
        some (false, heapBAC, some queueBAC) ∧
      q_insert_tail heapBAC (some queueBAC) (some [120, 0]) none (some (fun _ => 5)) =
        some (false, heapBAC, some queueBAC)) ∧
    (∃ h' q', q_insert_head heapBAC (some queueBAC) (some [120, 0]) (some 7)
        (some (fun _ => 5)) = some (true, h', some q')) ∧
    (∃ h' q', q_insert_tail heapBAC (some queueBAC) (some [120, 0]) (some 7)
        (some (fun _ => 5)) = some (true, h', some q')) :=
  ⟨q_insert_return_value.1 heapBAC (some queueBAC) (some [120, 0]) none (some (fun _ => 5))
      (Or.inr (Or.inr (Or.inl rfl))),
    q_insert_return_value.2.1 heapBAC queueBAC [120, 0] 7 (fun _ => 5) (by decide),
    q_insert_return_value.2.2 heapBAC queueBAC [1, 2, 3] [120, 0] 7 (fun _ => 5)
      (by decide) (by decide) (by decide)⟩

/-- C15: `q_sort` and `q_reverse` on an absent queue, and on a well-formed
queue whose chain is empty or has exactly one element, return with the heap
(so the chain and every link) and the queue structure (`head`, `tail`, `size`)
exactly as they were. -/
theorem q_sort_reverse_small :
    (∀ (fuel : Nat) (h : Heap),
      q_sort fuel h none = some (h, none) ∧ q_reverse fuel h none = some (h, none)) ∧
    (∀ (fuel : Nat) (h : Heap) (q : queue_t) (l : List Nat),
      WellFormed h q l → l.length ≤ 1 → 1 ≤ fuel →
      q_sort fuel h (some q) = some (h, some q) ∧
        q_reverse fuel h (some q) = some (h, some q)) := by
  constructor
  · intro fuel h
    exact ⟨by simp [q_sort], by simp [q_reverse]⟩
  · intro fuel h q l hw hlen hf
    obtain ⟨hc, hs, ht⟩ := hw
    refine ⟨q_sort_small fuel h q l hc (Or.inr (by omega)), ?_⟩
    cases l with
    | nil =>
      have h0 : q.size = 0 := (size_eq_zero_iff hs).2 rfl
      simp [q_reverse, h0]
    | cons a t =>
      have htn : t = [] := List.length_eq_zero.1 (by
        simp only [List.length_cons] at hlen; omega)
      subst htn
      have h0 : q.size ≠ 0 := fun e => by
        have := (size_eq_zero_iff hs).1 e
        simp at this
      obtain ⟨h', hrun, hch, hfr, hcv⟩ := q_reverse_spec fuel h q [a] hc h0 (by simpa using hf)
      have hhead : q.head = some a := ((isChain_cons h q.head a []).1 hc).1
      have hch' : isChain h' q.head [a] := by
        rw [hhead]; simpa using hch
      have hheap : h' = h := by
        funext x
        by_cases hx : x ∈ [a]
        · exact chain_cells_eq hc hch' hcv x hx
        · exact hfr x hx
      rw [hrun, hheap]
      cases q
      simp_all

theorem q_sort_reverse_small_witness :
    WellFormed heapAB queueAB [1] ∧
    q_sort 1 heapAB (some queueAB) = some (heapAB, some queueAB) ∧
      q_reverse 1 heapAB (some queueAB) = some (heapAB, some queueAB) :=
  ⟨by decide, q_sort_reverse_small.2 1 heapAB queueAB [1] (by decide) (by decide) (by decide)⟩


/-! ## Claims on the reachable states -/

/-- C16: `q_sort` is total on a finite chain with present strings. (1) With
fuel at least `2n + 1` for a chain of `n` nodes `q_sort` returns, and (2) so
does `merge_sort` from any pointer to such a chain; (3) on a chain of `n ≥ 2`
nodes `find_mid_and_split` returns two sublists, each with fewer than `n`
nodes, that make up the chain; (4) `merge` returns on two non-empty disjoint
chains once the fuel covers their lengths. -/
theorem q_sort_total :
    (∀ (fuel : Nat) (h : Heap) (q : queue_t) (l : List Nat),
      isChain h q.head l → ValuesPresent h l → 2 * l.length + 1 ≤ fuel →
      ∃ h' q', q_sort fuel h (some q) = some (h', some q')) ∧
    (∀ (fuel : Nat) (h : Heap) (q : queue_t) (a : Option Nat) (l : List Nat),
      isChain h a l → ValuesPresent h l → 2 * l.length + 1 ≤ fuel →
      ∃ r, merge_sort fuel h q a = some r) ∧
    (∀ (fuel : Nat) (h : Heap) (a : Nat) (l : List Nat),
      isChain h (some a) l → 2 ≤ l.length → l.length ≤ fuel + 1 →
      ∃ h1 s m l1 l2, find_mid_and_split fuel h (some a) = some (h1, some (s, m)) ∧
        isChain h1 s l1 ∧ isChain h1 m l2 ∧
        l1.length < l.length ∧ l2.length < l.length ∧ l1 ++ l2 = l) ∧
    (∀ (fuel : Nat) (h : Heap) (q : queue_t) (q1 q2 : Option Nat) (l1 l2 : List Nat),
      isChain h q1 l1 → isChain h q2 l2 → l1 ≠ [] → l2 ≠ [] → (∀ x ∈ l1, x ∉ l2) →
      ValuesPresent h l1 → ValuesPresent h l2 → l1.length + l2.length ≤ fuel →
      ∃ r, merge fuel h q q1 q2 = some r) := by
  refine ⟨?_, ?_, ?_, ?_⟩
  · intro fuel h q l hc hv hf
    obtain ⟨h', q', _, hrun, _⟩ := q_sort_any fuel h q l hc hv hf
    exact ⟨h', q', hrun⟩
  · intro fuel h q a l hc hv hf
    obtain ⟨h', q', hrun, _⟩ := merge_sort_spec fuel l h q a hf hc hv
    exact ⟨_, hrun⟩
  · intro fuel h a l hc h2 hf
    obtain ⟨h1, hrun, hc1, hc2, _⟩ := find_mid_and_split_spec fuel h a l hc hf
    refine ⟨h1, _, _, _, _, hrun, hc1, hc2, ?_, ?_, List.take_append_drop _ _⟩
    · rw [List.length_take]; omega
    · rw [List.length_drop]; omega
  · intro fuel h q q1 q2 l1 l2 hc1 hc2 hne1 hne2 hdisj hv1 hv2 hf
    obtain ⟨h', hrun, _⟩ := merge_spec fuel h q q1 q2 l1 l2 hc1 hc2 hne1 hne2 hdisj hv1 hv2 hf
    exact ⟨_, hrun⟩

theorem q_sort_total_witness :
    (∃ h' q', q_sort 7 heapBAC (some queueBAC) = some (h', some q')) ∧
    (∃ h1 s m l1 l2, find_mid_and_split 2 heapBAC (some 1) = some (h1, some (s, m)) ∧
        isChain h1 s l1 ∧ isChain h1 m l2 ∧
        l1.length < [1, 2, 3].length ∧ l2.length < [1, 2, 3].length ∧ l1 ++ l2 = [1, 2, 3]) ∧
    (∃ r, merge 2 heapTie queueAA (some 1) (some 2) = some r) :=
  ⟨q_sort_total.1 7 heapBAC queueBAC [1, 2, 3] (by decide) (by decide) (by decide),
    q_sort_total.2.2.1 2 heapBAC 1 [1, 2, 3] (by decide) (by decide) (by decide),
    q_sort_total.2.2.2 2 heapTie queueAA (some 1) (some 2) [1] [2] (by decide) (by decide)
      (by decide) (by decide) (by decide) (by decide) (by decide) (by decide)⟩

/-- C17, as stated, fails: `merge` on the one-node lists `1` (left) and `2`
(right), both holding "a", stores the right node `2` to `*a` and links the
left node `1` behind it. -/
theorem merge_tie_example :
    (merge 2 heapTie queueAA (some 1) (some 2)).map
        (fun r => (r.2.2, get_next r.1 (some 2), get_next r.1 (some 1))) =
      some (some 2, some (some 1), some none) := by
  decide

/-- C17, amended: whenever the current heads of the left and of the right list
carry equal strings (`strcmp` returns 0), the node of the RIGHT list is linked
onto the output chain before the node of the left list: (1) in the first
comparison of `merge` the right head `b` becomes the first node of the result,
(2) in the loops, entered with the last output node `k`, the right head `b` is
linked right behind `k`; in both cases the left head `a` follows later. -/
theorem merge_tie_right :
    (∀ (fuel : Nat) (h : Heap) (q : queue_t) (q1 q2 : Option Nat) (a : Nat) (t1 : List Nat)
        (b : Nat) (t2 : List Nat),
      isChain h q1 (a :: t1) → isChain h q2 (b :: t2) → (∀ x ∈ a :: t1, x ∉ b :: t2) →
      ValuesPresent h (a :: t1) → ValuesPresent h (b :: t2) →
      strcmp (bytesAt h a) (bytesAt h b) = 0 →
      (a :: t1).length + (b :: t2).length ≤ fuel →
      ∃ h' q' rest, merge fuel h q q1 q2 = some (h', q', some b) ∧
        isChain h' (some b) (b :: rest) ∧ a ∈ rest) ∧
    (∀ (f f2 : Nat) (h : Heap) (i j : Option Nat) (k : Nat) (kn : list_ele_t) (a : Nat)
        (t1 : List Nat) (b : Nat) (t2 : List Nat),
      isChain h i (a :: t1) → isChain h j (b :: t2) → (∀ x ∈ a :: t1, x ∉ b :: t2) →
      k ∉ a :: t1 → k ∉ b :: t2 → h k = some kn →
      ValuesPresent h (a :: t1) → ValuesPresent h (b :: t2) →
      strcmp (bytesAt h a) (bytesAt h b) = 0 →
      (a :: t1).length + (b :: t2).length ≤ f → (a :: t1).length + (b :: t2).length ≤ f2 →
      ∃ h' k' rest, merge_loops f f2 h i j (some k) = some (h', k') ∧
        isChain h' (some k) (k :: b :: rest) ∧ a ∈ rest) := by
  have htie : ∀ (h : Heap) (a : Nat) (t1 : List Nat) (b : Nat) (t2 : List Nat),
      strcmp (bytesAt h a) (bytesAt h b) = 0 →
      mergeL (ltAt h) (a :: t1) (b :: t2) = b :: mergeL (ltAt h) (a :: t1) t2 := by
    intro h a t1 b t2 h0
    simp [mergeL, ltAt, h0]
  have hmem : ∀ (h : Heap) (a : Nat) (t1 t2 : List Nat), a ∈ mergeL (ltAt h) (a :: t1) t2 :=
    fun h a t1 t2 => (mergeL_perm _ _ _).mem_iff.2
      (List.mem_append_left _ (List.mem_cons_self a t1))
  constructor
  · intro fuel h q q1 q2 a t1 b t2 hc1 hc2 hdisj hv1 hv2 h0 hf
    obtain ⟨h', hrun, hch, _⟩ :=
      merge_spec fuel h q q1 q2 (a :: t1) (b :: t2) hc1 hc2 (by simp) (by simp) hdisj hv1 hv2 hf
    rw [htie h a t1 b t2 h0] at hrun hch
    exact ⟨h', _, _, hrun, hch, hmem h a t1 t2⟩
  · intro f f2 h i j k kn a t1 b t2 hc1 hc2 hdisj hk1 hk2 hkn hv1 hv2 h0 hf hf2
    obtain ⟨h', k', hrun, hch, _⟩ :=
      merge_loops_spec ((a :: t1).length + (b :: t2).length) (a :: t1) (b :: t2) f f2 h i j k kn
        (le_refl _) hf hf2 hc1 hc2 hdisj hk1 hk2 hkn hv1 hv2 (Or.inl (by simp))
    rw [htie h a t1 b t2 h0] at hch
    exact ⟨h', _, _, hrun, hch, hmem h a t1 t2⟩

theorem merge_tie_right_witness :
    ∃ h' q' rest, merge 2 heapTie queueAA (some 1) (some 2) = some (h', q', some 2) ∧
      isChain h' (some 2) (2 :: rest) ∧ 1 ∈ rest :=
  merge_tie_right.1 2 heapTie queueAA (some 1) (some 2) 1 [] 2 [] (by decide) (by decide)
    (by decide) (by decide) (by decide) (by decide) (by decide)

/-- C18: on a chain `l` of `n ≥ 1` nodes from `a`, `find_mid_and_split` returns
`a` as the start of the first sublist, which is the first `⌈n/2⌉` nodes of `l`,
and as second sublist the remaining `⌊n/2⌋` nodes, both in the order they had;
the first sublist ends at a node whose `next` is now `NULL`, the two sublists
put together are `l`, and the cells outside `l` and every `value` are
untouched. -/
theorem find_mid_and_split_halves (fuel : Nat) (h : Heap) (a : Nat) (l : List Nat)
    (hc : isChain h (some a) l) (hf : l.length ≤ fuel + 1) :
    ∃ h1 m, find_mid_and_split fuel h (some a) = some (h1, some (some a, m)) ∧
      isChain h1 (some a) (l.take ((l.length + 1) / 2)) ∧
      isChain h1 m (l.drop ((l.length + 1) / 2)) ∧
      (l.take ((l.length + 1) / 2)).length = (l.length + 1) / 2 ∧
      (l.drop ((l.length + 1) / 2)).length = l.length / 2 ∧
      l.take ((l.length + 1) / 2) ++ l.drop ((l.length + 1) / 2) = l ∧
      (∃ s node, (l.take ((l.length + 1) / 2)).getLast? = some s ∧ h1 s = some node ∧
        node.next = none) ∧
      (∀ x, x ∉ l → h1 x = h x) ∧ (∀ x, cellValue h1 x = cellValue h x) := by
  obtain ⟨h1, hrun, hc1, hc2, hfr, hcv⟩ := find_mid_and_split_spec fuel h a l hc hf
  have hpos : 0 < l.length := by
    cases l with
    | nil => simp [isChain_nil] at hc
    | cons b t => simp
  have hl1 : (l.take ((l.length + 1) / 2)).length = (l.length + 1) / 2 := by
    rw [List.length_take]; omega
  refine ⟨h1, _, hrun, hc1, hc2, hl1, ?_, List.take_append_drop _ _, ?_, hfr, hcv⟩
  · rw [List.length_drop]; omega
  · obtain ⟨s, hs⟩ : ∃ s, (l.take ((l.length + 1) / 2)).getLast? = some s := by
      cases hx : (l.take ((l.length + 1) / 2)).getLast? with
      | none =>
        have := congrArg List.length (List.getLast?_eq_none_iff.1 hx)
        rw [hl1] at this
        simp only [List.length_nil] at this
        omega
      | some s => exact ⟨s, rfl⟩
    obtain ⟨node, hn, hnext⟩ := chain_last_next hc1 hs
    exact ⟨s, node, hs, hn, hnext⟩

theorem find_mid_and_split_halves_witness :
    ∃ h1 m, find_mid_and_split 2 heapBAC (some 1) = some (h1, some (some 1, m)) ∧
      isChain h1 (some 1) ([1, 2, 3].take (([1, 2, 3].length + 1) / 2)) ∧
      isChain h1 m ([1, 2, 3].drop (([1, 2, 3].length + 1) / 2)) ∧
      ([1, 2, 3].take (([1, 2, 3].length + 1) / 2)).length = ([1, 2, 3].length + 1) / 2 ∧
      ([1, 2, 3].drop (([1, 2, 3].length + 1) / 2)).length = [1, 2, 3].length / 2 ∧
      [1, 2, 3].take (([1, 2, 3].length + 1) / 2) ++
        [1, 2, 3].drop (([1, 2, 3].length + 1) / 2) = [1, 2, 3] ∧
      (∃ s node, ([1, 2, 3].take (([1, 2, 3].length + 1) / 2)).getLast? = some s ∧
        h1 s = some node ∧ node.next = none) ∧
      (∀ x, x ∉ [1, 2, 3] → h1 x = heapBAC x) ∧
      (∀ x, cellValue h1 x = cellValue heapBAC x) :=
  find_mid_and_split_halves 2 heapBAC 1 [1, 2, 3] (by decide) (by decide)

/-- C20: (1) on a chain of at least two nodes with present strings, one level
of `merge_sort` runs as follows: `find_mid_and_split` returns two non-`NULL`
sublists, both recursive calls return non-`NULL` sorted sublists, the first
node of each holds a present string in the heap `merge` is called with, the
call of `merge` on them is what `merge_sort` returns, and it returns a result
(no undefined read happens, at this level or in the recursive calls). (2) The
model does detect the violation: `merge` with an absent list is undefined. -/
theorem merge_sort_merge_nonempty :
    (∀ (f : Nat) (h : Heap) (q : queue_t) (p : Nat) (l : List Nat),
      isChain h (some p) l → 2 ≤ l.length → ValuesPresent h l → 2 * l.length ≤ f →
      ∃ h1 s m h2 q2 s2 h3 q3 m3 n1 n2 v1 v2,
        find_mid_and_split f h (some p) = some (h1, some (some s, some m)) ∧
        merge_sort f h1 q (some s) = some (h2, q2, some s2) ∧
        merge_sort f h2 q2 (some m) = some (h3, q3, some m3) ∧
        h3 s2 = some n1 ∧ n1.value = some v1 ∧ h3 m3 = some n2 ∧ n2.value = some v2 ∧
        merge_sort (f + 1) h q (some p) = merge f h3 q3 (some s2) (some m3) ∧
        ∃ r, merge f h3 q3 (some s2) (some m3) = some r) ∧
    (∀ (fuel : Nat) (h : Heap) (q : queue_t) (p : Option Nat),
      merge fuel h q none p = none ∧ merge fuel h q p none = none) := by
  constructor
  · intro f h q p l hc hlen2 hv hf
    obtain ⟨h1, h2, q2, h3, q3, hsplit, _, hc2, hrun2, hrun3, hch1, hch2, hne1, hne2, hvs1,
      hvs2, hms, hr⟩ := merge_sort_unfold f h q p l hc hlen2 hv hf
    have hdrop : l.drop ((l.length + 1) / 2) ≠ [] := by
      intro e
      have := congrArg List.length e
      rw [List.length_drop] at this
      simp only [List.length_nil] at this
      omega
    obtain ⟨m, hm⟩ := head?_eq_some_of_ne_nil hdrop
    obtain ⟨s2, hs2⟩ := head?_eq_some_of_ne_nil hne1
    obtain ⟨m3, hm3⟩ := head?_eq_some_of_ne_nil hne2
    have hs2mem : s2 ∈ msortL (ltAt h) f (l.take ((l.length + 1) / 2)) :=
      List.mem_of_mem_head? (by rw [hs2]; rfl)
    have hm3mem : m3 ∈ msortL (ltAt h) f (l.drop ((l.length + 1) / 2)) :=
      List.mem_of_mem_head? (by rw [hm3]; rfl)
    obtain ⟨n1, v1, hn1, hv1, _⟩ := cell_of_valuePresent (hvs1 s2 hs2mem)
    obtain ⟨n2, v2, hn2, hv2, _⟩ := cell_of_valuePresent (hvs2 m3 hm3mem)
    rw [hm] at hsplit hrun3
    rw [hs2] at hrun2 hms hr
    rw [hm3] at hrun3 hms hr
    exact ⟨h1, p, m, h2, q2, s2, h3, q3, m3, n1, n2, v1, v2, hsplit, hrun2, hrun3, hn1, hv1,
      hn2, hv2, hms, hr⟩
  · intro fuel h q p
    exact merge_absent fuel h q p

theorem merge_sort_merge_nonempty_witness :
    ∃ h1 s m h2 q2 s2 h3 q3 m3 n1 n2 v1 v2,
      find_mid_and_split 6 heapBAC (some 1) = some (h1, some (some s, some m)) ∧
      merge_sort 6 h1 queueBAC (some s) = some (h2, q2, some s2) ∧
      merge_sort 6 h2 q2 (some m) = some (h3, q3, some m3) ∧
      h3 s2 = some n1 ∧ n1.value = some v1 ∧ h3 m3 = some n2 ∧ n2.value = some v2 ∧
      merge_sort (6 + 1) heapBAC queueBAC (some 1) = merge 6 h3 q3 (some s2) (some m3) ∧
      ∃ r, merge 6 h3 q3 (some s2) (some m3) = some r :=
  merge_sort_merge_nonempty.1 6 heapBAC queueBAC 1 [1, 2, 3] (by decide) (by decide) (by decide)
    (by decide)

end Queue
